import Mathlib

/-!
# Verification of the `mm.c` segregated-free-list memory allocator

This file is a shallow embedding, in Lean 4, of the dynamic memory allocator
implemented in `mm.c` (a 64-bit implicit-list allocator with a 14-bucket
segregated free list, bit-packed headers, splitting and immediate coalescing).

Modelling conventions:

* Machine integers (`size_t`, `word_t`, both 64 bits) are modelled as `Nat`
  with explicit `% 2^64` wherever the source can wrap.  Bit operations on
  header words are rendered arithmetically (`w & ~0xF` as `w % 2^64 - w % 16`,
  `w & 0x7` as `w % 8`, shifts as division), which coincides with the source
  on all 64-bit values.
* The heap is modelled as the implicit list of blocks in address order
  (`blocks : List Blk`, each carrying its packed header word), together with
  the prologue word, the epilogue header word, the 14 free-list buckets, the
  payload memory (`mem : Nat → Nat`, bytes indexed by offset from the heap
  base) and the page provider's remaining budget (`avail`).  A block's
  address is `8 + (sum of the sizes of the blocks before it)`: the prologue
  word occupies offsets `[0,8)` and block headers therefore sit at offsets
  `≡ 8 (mod 16)`, exactly as in the source.
* The intrusive `next`/`prev` pointers of the free lists are modelled by the
  order of the bucket lists themselves: a doubly linked circular bucket is the
  list of its members starting at the head (`insert` is LIFO prepend), and the
  singly linked bucket 0 is the list of its members in chain order, the last
  element being the self-looped tail.  Footers of free blocks mirror their
  headers (the source writes the identical packed word at both ends), so they
  are not stored separately; `find_prev`'s footer lookup is rendered as a
  lookup of the positional predecessor.
-/

namespace MM

/-- `2 ^ 64`, one more than the largest `size_t`/`word_t` value. -/
def WORD : Nat := 2 ^ 64

/-- Word and header size (bytes), `sizeof(word_t)`. -/
def wsize : Nat := 8

/-- Double word size (bytes). -/
def dsize : Nat := 16

/-- Minimum block size (bytes). -/
def min_block_size : Nat := 16

/-- The targeted block size `(1 << 12)`. -/
def chunksize : Nat := 4096

/-- The bounded best-fit scan limit `0x10`. -/
def searchtime : Nat := 16

/-- Number of segregated free lists (`free_size = 0x0E`). -/
def free_size : Nat := 14

def free_16 : Nat := 0x10
def free_32 : Nat := 0x20
def free_48 : Nat := 0x30
def free_64 : Nat := 0x40
def free_128 : Nat := 0x80
def free_256 : Nat := 0x100
def free_512 : Nat := 0x200
def free_1024 : Nat := 0x400
def free_2048 : Nat := 0x800
def free_4096 : Nat := 0x1000
def free_8192 : Nat := 0x2000
def free_16384 : Nat := 0x4000
def free_32768 : Nat := 0x8000

/-- Unsigned 64-bit subtraction `x - y` as the source's `size_t` arithmetic
computes it (two's complement wrap-around). -/
def usub (x y : Nat) : Nat := (WORD + x - y) % WORD

/-- `round_up`: rounds `size` up to the next multiple of `n`, with the
`size_t` wrap-around of the source's `n * ((size + (n - 1)) / n)`. -/
def round_up (size n : Nat) : Nat := (n * (((size + (n - 1)) % WORD) / n)) % WORD

/-- `max` of two sizes. -/
def mmax (x y : Nat) : Nat := if x > y then x else y

/-- `pack`: packs size and the three status bits into a header word.  The
source forms `size | status` with `status < 8`; every call site passes a size
that is a multiple of 16, where bitwise-or coincides with addition. -/
def pack (size : Nat) (alloc_prev alloc_curr min_block : Bool) : Nat :=
  size + ((if alloc_prev then 2 else 0) + (if alloc_curr then 1 else 0) +
    (if min_block then 4 else 0))

/-- `extract_size`: `word & size_mask` with `size_mask = ~0xF`, i.e. the word
with its low four bits cleared (arithmetically, on 64-bit values). -/
def extract_size (word : Nat) : Nat := word % WORD - word % 16

/-- `extract_alloc`: `word & alloc_mask` with `alloc_mask = 0x7`. -/
def extract_alloc (word : Nat) : Nat := word % 8

/-- `get_alloc` on a raw header word: bit 1 (`prev = true`) or bit 0
(`prev = false`) of the three status bits. -/
def get_alloc_hdr (h : Nat) (prev : Bool) : Bool :=
  if prev then (extract_alloc h / 2) % 2 == 1 else extract_alloc h % 2 == 1

/-- `is_minblock` on a raw header word: bit 2 of the status bits, cast to
`bool` (nonzero after shifting right by two). -/
def is_minblock_hdr (h : Nat) : Bool := extract_alloc h / 4 != 0

/-- One block of the heap: its packed header word.  (An allocated block's
payload, and a free block's link fields, live outside this record: payload
bytes in the state's `mem`, links in the state's bucket lists.) -/
structure Blk where
  header : Nat
deriving DecidableEq, Repr

instance : Inhabited Blk := ⟨⟨0⟩⟩

/-- `get_size` of a block. -/
def get_size (b : Blk) : Nat := extract_size b.header

/-- `get_alloc` of a block (`prev = true` reads the predecessor's bit). -/
def get_alloc (b : Blk) (prev : Bool) : Bool := get_alloc_hdr b.header prev

/-- `get_prev_alloc`. -/
def get_prev_alloc (b : Blk) : Bool := get_alloc b true

/-- `is_minblock` of a block. -/
def is_minblock (b : Blk) : Bool := is_minblock_hdr b.header

/-- `get_payload_size` on a header word: `wsize` for a minimum-size block,
otherwise block size minus header (allocated) or minus header and footer
(free). -/
def get_payload_size_hdr (h : Nat) : Nat :=
  let asize := extract_size h
  if asize = min_block_size then wsize
  else if get_alloc_hdr h false then asize - wsize
  else asize - dsize

/-! ## The free-list directory

`free_list_start` is an array of 14 bucket heads.  Bucket `i > 0` is a
doubly linked circular list; it is modelled as the list of its members
starting at the head (so `head.prev` is the last element of the list).
Bucket 0 is singly linked; the chain starts at the head and ends at a node
whose `next` points to itself.  It is modelled as the list of its members in
chain order, the *last* element of the list being the self-looped tail.
An empty bucket (`NULL` head) is the empty list. -/

/-- `get_free_list`: the bucket index for a given block size. -/
def get_free_list (size : Nat) : Nat :=
  if size ≤ free_16 then 0
  else if size ≤ free_32 then 1
  else if size ≤ free_48 then 2
  else if size ≤ free_64 then 3
  else if size ≤ free_128 then 4
  else if size ≤ free_256 then 5
  else if size ≤ free_512 then 6
  else if size ≤ free_1024 then 7
  else if size ≤ free_2048 then 8
  else if size ≤ free_4096 then 9
  else if size ≤ free_8192 then 10
  else if size ≤ free_16384 then 11
  else if size ≤ free_32768 then 12
  else 13

/-- Bucket `i` of the directory (a `NULL` head is the empty list). -/
def getBucket (dir : List (List Nat)) (i : Nat) : List Nat := dir.getD i []

/-- Replace bucket `i` of the directory. -/
def setBucket (dir : List (List Nat)) (i : Nat) (l : List Nat) :
    List (List Nat) := dir.set i l

/-- `insert_free_basic`: LIFO insertion at the head of a doubly linked
circular bucket.  In the source the new node is stitched between the old
head and the old tail and the head pointer is moved to it; on the cycle
this is exactly prepending to the member list. -/
def insert_free_basic (a : Nat) (l : List Nat) : List Nat := a :: l

/-- `insert_free_mini`: LIFO insertion at the head of the singly linked
bucket 0 (a first insertion makes the node its own `next`, i.e. the
self-looped tail). -/
def insert_free_mini (a : Nat) (l : List Nat) : List Nat := a :: l

/-- `insert_free`: route the block (by the size read from its header) to its
bucket. -/
def insert_free (a : Nat) (size : Nat) (dir : List (List Nat)) :
    List (List Nat) :=
  let i := get_free_list size
  if i = 0 then setBucket dir i (insert_free_mini a (getBucket dir i))
  else setBucket dir i (insert_free_basic a (getBucket dir i))

/-- `block->next` in the bucket-0 chain: the successor of `a` in the list,
or `a` itself when `a` is the self-looped tail (the last element).  When `a`
is not on the chain at all the source would read a stale field; the model
returns `a` (that case is unreachable while the directory invariant holds). -/
def miniNext (a : Nat) : List Nat → Nat
  | [] => a
  | [_] => a
  | x :: y :: rest => if x = a then y else miniNext a (y :: rest)

/-- `clear_free_mini`: removal from the singly linked bucket 0, translated
branch by branch from the source.

* empty bucket: return (no change);
* `block == block->next` (the source's "one block" test): clear the head.
  Note that this test also fires when `block` is the self-looped *tail* of a
  chain with several members, in which case the whole bucket is emptied;
* `block` is the head: advance the head to `block->next`;
* otherwise walk the chain until the predecessor of `block` and stitch it to
  `block->next`, i.e. erase `block` from the chain. -/
def clear_free_mini (a : Nat) (l : List Nat) : List Nat :=
  if l = [] then l
  else if a = miniNext a l then []
  else if l.head? = some a then l.tail
  else l.erase a

/-- `clear_free_basic`: removal from a doubly linked circular bucket.  The
source stitches `block->prev` to `block->next` and moves the head off the
removed node (with a redundant special case for one- and two-element
buckets); on the member list this is erasing the block. -/
def clear_free_basic (a : Nat) (l : List Nat) : List Nat :=
  if l = [] then l else l.erase a

/-- `clear_free`: route the removal (by the size read from the block's
header) to its bucket. -/
def clear_free (a : Nat) (size : Nat) (dir : List (List Nat)) :
    List (List Nat) :=
  let i := get_free_list size
  if i = 0 then setBucket dir i (clear_free_mini a (getBucket dir i))
  else setBucket dir i (clear_free_basic a (getBucket dir i))

/-! ## The placement engine (`find_fit`)

`find_fit_basic` scans one bucket.  The model is instrumented: together with
the result it returns the number of blocks whose header was examined (that
count is not present in the source; the un-instrumented function is the
first projection).  `szAt` maps a block address to the size read from its
header.

The scan mirrors the source exactly, including its `size_t` wrap-around
(`sizeb - asize` is `usub sizeb asize`) and the fact that the source's
guard `(sizeb - asize) >= 0` is vacuously true on unsigned values, that the
best-fit tracking never sets `init`, and that the `times == searchtime`
branch falls through (the scan continues) when no candidate was recorded
and the bucket head does not fit. -/

/-- The loop of `find_fit_basic` over the blocks after the head.  Arguments:
`starter`/`startSize` are the bucket head and its size, then the remaining
chain, `mindiff` (garbage until a candidate is recorded, exactly as the
uninitialized variable of the source: it is only compared after being
written), `ini` (whether `mindiff` was initialized from the head), `best`,
`times`, and the instrumentation counter `cnt`. -/
def ffbLoop (asize : Nat) (szAt : Nat → Nat) (starter startSize : Nat) :
    List Nat → Nat → Bool → Nat → Nat → Nat → Option Nat × Nat
  | [], _mindiff, ini, best, _times, cnt =>
    if ini then (some best, cnt)
    else if asize ≤ startSize then (some starter, cnt)
    else (none, cnt)
  | a :: rest, mindiff, ini, best, times, cnt =>
    let sizeb := szAt a
    if asize ≤ sizeb ∧ usub sizeb asize ≤ free_16 then (some a, cnt + 1)
    else if times = searchtime then
      if ini then (some best, cnt + 1)
      else if asize ≤ startSize then (some starter, cnt + 1)
      else ffbLoop asize szAt starter startSize rest mindiff ini best
        (times + 1) (cnt + 1)
    else if ini = false ∨ usub sizeb asize < mindiff then
      ffbLoop asize szAt starter startSize rest (usub sizeb asize) ini a
        (times + 1) (cnt + 1)
    else ffbLoop asize szAt starter startSize rest mindiff ini best
      (times + 1) (cnt + 1)

/-- `find_fit_basic`, instrumented with the number of examined blocks.  An
empty bucket (`NULL` head) yields no candidate; otherwise the head is
checked for a near-exact fit and the loop takes over from `head->next`. -/
def find_fit_basicC (asize : Nat) (szAt : Nat → Nat) (bucket : List Nat) :
    Option Nat × Nat :=
  match bucket with
  | [] => (none, 0)
  | starter :: rest =>
    let sizeb := szAt starter
    if asize ≤ sizeb ∧ usub sizeb asize ≤ free_16 then (some starter, 1)
    else ffbLoop asize szAt starter sizeb rest (usub sizeb asize)
      (decide (asize ≤ sizeb)) starter 0 1

/-- `find_fit_basic` as in the source (result only). -/
def find_fit_basic (asize : Nat) (szAt : Nat → Nat) (bucket : List Nat) :
    Option Nat :=
  (find_fit_basicC asize szAt bucket).1

/-- The bucket loop of `find_fit`, instrumented with the number of buckets
consulted.  The source runs `times` from the starting index up to
`free_size - 1`, returning the first bucket's candidate; the model recurses
over the list of the remaining bucket indices. -/
def ffScanC (asize : Nat) (szAt : Nat → Nat) (dir : List (List Nat)) :
    List Nat → Option Nat × Nat
  | [] => (none, 0)
  | i :: is =>
    match find_fit_basic asize szAt (getBucket dir i) with
    | some a => (some a, 1)
    | none =>
      let r := ffScanC asize szAt dir is
      (r.1, r.2 + 1)

/-- `find_fit`, instrumented.  The cascade of `if (asize <= free_16) ... `
branches of the source starts the bucket loop at exactly
`get_free_list asize`; when every bucket fails the function returns the last
`find_fit_basic` result, which is `NULL`. -/
def find_fitC (asize : Nat) (szAt : Nat → Nat) (dir : List (List Nat)) :
    Option Nat × Nat :=
  ffScanC asize szAt dir ((List.range free_size).drop (get_free_list asize))

/-- `find_fit` as in the source (result only). -/
def find_fit (asize : Nat) (szAt : Nat → Nat) (dir : List (List Nat)) :
    Option Nat :=
  (find_fitC asize szAt dir).1

/-! ## The heap state

Addresses are offsets from the heap base (`mem_heap_lo`): the prologue word
occupies `[0, 8)`, the first block header sits at offset `8`, and the
epilogue header occupies the last 8 bytes of the heap.  The blocks are kept
in address order; a block's address is `8` plus the sizes of the blocks
before it, so the address arithmetic of the source (`find_next`,
`payload_to_header`, `header_to_payload`) is literal. -/

structure Sys where
  /-- `heap_start != NULL`. -/
  started : Bool
  /-- The implicit list: every block between prologue and epilogue. -/
  blocks : List Blk
  /-- `free_list_start`, the 14 bucket lists. -/
  dir : List (List Nat)
  /-- The prologue word (offset 0). -/
  pro : Nat
  /-- The epilogue header word. -/
  epi : Nat
  /-- Payload bytes, indexed by offset from the heap base. -/
  mem : Nat → Nat
  /-- Bytes the page provider will still grant to `mem_sbrk`. -/
  avail : Nat

/-- The block at index `i` (meaningful for `i < blocks.length`). -/
def blkAt (st : Sys) (i : Nat) : Blk := st.blocks.getD i default

/-- The address of block `i`: `8` plus the sizes of the blocks before it. -/
def addrOf (blocks : List Blk) (i : Nat) : Nat :=
  8 + ((blocks.take i).map get_size).sum

/-- Resolve an address to a block index (`idxOf` walks the implicit list
from offset 8, exactly as the pointer identity of the source). -/
def idxAux (a : Nat) (cur : Nat) : List Blk → Option Nat
  | [] => none
  | b :: bs =>
    if cur = a then some 0
    else (idxAux a (cur + get_size b) bs).map fun n => n + 1

def idxOf (blocks : List Blk) (a : Nat) : Option Nat := idxAux a 8 blocks

/-- `get_size` at an address, as `find_fit` reads it from the header of a
free-list member (0 if the address is not a block of the heap — unreachable
while the directory invariant holds). -/
def szAtFn (blocks : List Blk) : Nat → Nat := fun a =>
  match idxOf blocks a with
  | some j => get_size (blocks.getD j default)
  | none => 0

/-- The header at index `j`, the epilogue header when `j` is past the last
block. -/
def hdrOr (st : Sys) (j : Nat) : Nat :=
  if j < st.blocks.length then (blkAt st j).header else st.epi

/-- The header (and, for a free non-minimum block, the identical footer)
written by `alloc2free`: the new size and given prev-allocated bit, the
self-allocated bit cleared, the block's prev-is-min bit preserved. -/
def freeHdr (oldHdr size : Nat) (prev : Bool) : Nat :=
  pack size prev false (is_minblock_hdr oldHdr)

/-- `modify_next`: rewrite bits 1–2 of the header at index `j` (the epilogue
header when `j` is past the last block), keeping its size and self-allocated
bit.  (For a free non-minimum block the source writes the identical word to
the footer as well; footers are not stored separately in the model.) -/
def modify_next (st : Sys) (j : Nat) (prev mb : Bool) : Sys :=
  if j < st.blocks.length then
    let b := blkAt st j
    { st with blocks :=
        st.blocks.set j ⟨pack (get_size b) prev (get_alloc b false) mb⟩ }
  else
    let e := pack (extract_size st.epi) prev (get_alloc_hdr st.epi false) mb
    { st with epi := e }

/-- `coalesce_block` on the (freshly freed) block at index `i`; returns the
resulting state and the index of the coalesced block.

The source locates the heap predecessor via `block - dsize` (when
`prev-is-min`) or via the footer one word before the header; under the
header-coherence invariants both denote the positional predecessor `i - 1`,
which is how the model renders it.  The four cases and the order of the
`clear_free` / `alloc2free` / `modify_next` calls follow the source. -/
def coalesce_block (st : Sys) (i : Nat) : Sys × Nat :=
  let b := blkAt st i
  let nh := hdrOr st (i + 1)
  if get_prev_alloc b = false then
    let p := blkAt st (i - 1)
    if get_alloc_hdr nh false = false then
      -- case 1: prev and next both free
      let n := blkAt st (i + 1)
      let prev_alloc := get_prev_alloc p
      let size := (get_size p + get_size b + get_size n) % WORD
      let dir1 := clear_free (addrOf st.blocks i) (get_size b) st.dir
      let dir2 := clear_free (addrOf st.blocks (i - 1)) (get_size p) dir1
      let dir3 := clear_free (addrOf st.blocks (i + 1)) (get_size n) dir2
      let merged : Blk := ⟨freeHdr p.header size prev_alloc⟩
      let dir4 := insert_free (addrOf st.blocks (i - 1)) size dir3
      let st1 := { st with
        blocks := st.blocks.take (i - 1) ++ [merged] ++ st.blocks.drop (i + 2),
        dir := dir4 }
      (modify_next st1 i false (size == min_block_size), i - 1)
    else
      -- case 2: only prev free
      let prev_alloc := get_prev_alloc p
      let size := (get_size p + get_size b) % WORD
      let dir1 := clear_free (addrOf st.blocks i) (get_size b) st.dir
      let dir2 := clear_free (addrOf st.blocks (i - 1)) (get_size p) dir1
      let merged : Blk := ⟨freeHdr p.header size prev_alloc⟩
      let dir3 := insert_free (addrOf st.blocks (i - 1)) size dir2
      let st1 := { st with
        blocks := st.blocks.take (i - 1) ++ [merged] ++ st.blocks.drop (i + 1),
        dir := dir3 }
      (modify_next st1 i false (size == min_block_size), i - 1)
  else
    if get_alloc_hdr nh false = false then
      -- case 3: only next free
      let n := blkAt st (i + 1)
      let prev_alloc := get_prev_alloc b
      let size := (get_size b + get_size n) % WORD
      let dir1 := clear_free (addrOf st.blocks i) (get_size b) st.dir
      let dir2 := clear_free (addrOf st.blocks (i + 1)) (get_size n) dir1
      let merged : Blk := ⟨freeHdr b.header size prev_alloc⟩
      let dir3 := insert_free (addrOf st.blocks i) size dir2
      let st1 := { st with
        blocks := st.blocks.take i ++ [merged] ++ st.blocks.drop (i + 2),
        dir := dir3 }
      (modify_next st1 (i + 1) false (size == min_block_size), i)
    else
      -- case 4: both neighbors allocated
      (st, i)

/-- `extend_heap`: round the request to a multiple of 16; fail (state
unchanged) when the provider refuses; otherwise the old epilogue word
becomes the header of a new free block appended at the heap's end
(`alloc2free` with the prev-allocated bit read from that word), a fresh
epilogue (`write_epilogue(-, false)`) is written, and the new block is
coalesced with a free tail. -/
def extend_heap (st : Sys) (size : Nat) : Sys × Option Nat :=
  let size := round_up size dsize
  if st.avail < size then (st, none)
  else
    let oldEpi := st.epi
    let prev_alloc := get_alloc_hdr oldEpi true
    let i := st.blocks.length
    let newBlk : Blk := ⟨freeHdr oldEpi size prev_alloc⟩
    let st1 := { st with
      avail := st.avail - size,
      blocks := st.blocks ++ [newBlk],
      dir := insert_free (addrOf st.blocks st.blocks.length) size st.dir,
      epi := pack 0 false true false }
    let r := coalesce_block st1 i
    (r.1, some r.2)

/-- `split_block`: when the allocated block at `i` is at least
`min_block_size` larger than `asize` (in the source's wrapping `size_t`
arithmetic), shrink it to `asize` (`free2alloc`), carve a free tail
(`alloc2free`), and fix the neighbors' bits with two `modify_next` calls.
The tail's prev-is-min bit is initially `is_minblock` of the raw word at
the split point (uninitialized data in the source); the first `modify_next`
below rewrites it before it can be read, so the model takes it as false. -/
def split_block (st : Sys) (i : Nat) (asize : Nat) : Sys :=
  let b := blkAt st i
  let block_size := get_size b
  let prev_alloc := get_prev_alloc b
  if min_block_size ≤ usub block_size asize then
    let dir1 := clear_free (addrOf st.blocks i) block_size st.dir
    let hdr1 : Blk := ⟨pack asize prev_alloc true (is_minblock b)⟩
    let prev_min := asize == min_block_size
    let size := usub block_size asize
    let next_min := size == min_block_size
    let tail : Blk := ⟨pack size true false false⟩
    let dir2 := insert_free (addrOf st.blocks i + asize) size dir1
    let st1 := { st with
      blocks := (st.blocks.set i hdr1).take (i + 1) ++ [tail] ++
        st.blocks.drop (i + 1),
      dir := dir2 }
    let st2 := modify_next st1 (i + 1) true prev_min
    modify_next st2 (i + 2) false next_min
  else st

/-- The tail of `malloc` once a free block (index `i`) has been selected:
`free2alloc` (remove from its bucket, rewrite the header as allocated),
`modify_next`, `split_block`, and return the payload pointer. -/
def place (st : Sys) (i : Nat) (asize : Nat) (prev_min : Bool) :
    Option Nat × Sys :=
  let b := blkAt st i
  let block_size := get_size b
  let prev_alloc := get_prev_alloc b
  let st1 := { st with
    dir := clear_free (addrOf st.blocks i) block_size st.dir,
    blocks := st.blocks.set i ⟨pack block_size prev_alloc true (is_minblock b)⟩ }
  let st2 := modify_next st1 (i + 1) true prev_min
  let st3 := split_block st2 i asize
  (some (addrOf st.blocks i + wsize), st3)

/-- `mm_init`: obtain 16 bytes for the prologue word and the initial
epilogue, reset the 14 buckets, then extend the heap by `chunksize`. -/
def mm_init (st : Sys) : Bool × Sys :=
  if st.avail < 2 * wsize then (false, st)
  else
    let st1 : Sys := { st with
      avail := st.avail - 2 * wsize,
      pro := pack 0 false true true,
      epi := pack 0 true true true,
      started := true,
      blocks := [],
      dir := List.replicate free_size [] }
    match extend_heap st1 chunksize with
    | (st2, none) => (false, st2)
    | (st2, some _) => (true, st2)

/-- The body of `malloc` after the self-initialization check: reject size 0;
round the request (`round_up(size + wsize, dsize)` in wrapping `size_t`
arithmetic); search the free lists, extending the heap by
`max(asize, chunksize)` on a miss; then place the block.  When `find_fit`
returns an address that is not a block of the heap (unreachable while the
directory invariant holds) the model returns null. -/
def mallocBody (size : Nat) (st : Sys) : Option Nat × Sys :=
  if size = 0 then (none, st)
  else
    let asize := round_up ((size + wsize) % WORD) dsize
    let prev_min := asize == min_block_size
    match find_fit asize (szAtFn st.blocks) st.dir with
    | some a =>
      match idxOf st.blocks a with
      | some i => place st i asize prev_min
      | none => (none, st)
    | none =>
      let extendsize := mmax asize chunksize
      match extend_heap st extendsize with
      | (st', none) => (none, st')
      | (st', some i) => place st' i asize prev_min

/-- `malloc`: initialize the heap first if it was never created
(`heap_start == NULL`), then run the body. -/
def mm_malloc (size : Nat) (st : Sys) : Option Nat × Sys :=
  mallocBody size (if st.started then st else (mm_init st).2)

/-- `free`: ignore null; otherwise mark the block free (`alloc2free`,
insertion included), fix the successor's bits, and coalesce.  A pointer
whose block address does not resolve is undefined behavior in the source
and a no-op in the model. -/
def mm_free (bp : Option Nat) (st : Sys) : Sys :=
  match bp with
  | none => st
  | some p =>
    match idxOf st.blocks (p - wsize) with
    | none => st
    | some i =>
      let b := blkAt st i
      let size := get_size b
      let prev_min := size == min_block_size
      let prev_alloc := get_prev_alloc b
      let st1 := { st with
        blocks := st.blocks.set i ⟨freeHdr b.header size prev_alloc⟩,
        dir := insert_free (p - wsize) size st.dir }
      let st2 := modify_next st1 (i + 1) false prev_min
      (coalesce_block st2 i).1

/-- The byte-copy primitive `mem_memcpy(dst, src, n)` on the payload
memory. -/
def mem_memcpy (m : Nat → Nat) (dst src n : Nat) : Nat → Nat :=
  fun a => if dst ≤ a ∧ a < dst + n then m (src + (a - dst)) else m a

/-- The byte-fill primitive `mem_memset(dst, v, n)` on the payload
memory. -/
def mem_memset (m : Nat → Nat) (dst v n : Nat) : Nat → Nat :=
  fun a => if dst ≤ a ∧ a < dst + n then v else m a

/-- `realloc`: size 0 frees; a null pointer allocates; otherwise allocate,
on failure return null leaving everything as it was, on success copy
`min(size, get_payload_size(block))` bytes and free the old block. -/
def mm_realloc (ptr : Option Nat) (size : Nat) (st : Sys) :
    Option Nat × Sys :=
  if size = 0 then (none, mm_free ptr st)
  else
    match ptr with
    | none => mm_malloc size st
    | some p =>
      match mm_malloc size st with
      | (none, st1) => (none, st1)
      | (some newptr, st1) =>
        let copysize0 :=
          match idxOf st1.blocks (p - wsize) with
          | some i => get_payload_size_hdr (blkAt st1 i).header
          | none => 0
        let copysize := if size < copysize0 then size else copysize0
        let st2 := { st1 with mem := mem_memcpy st1.mem newptr p copysize }
        let st3 := mm_free (some p) st2
        (some newptr, st3)

/-- `calloc`: `asize = elements * size` in wrapping `size_t` arithmetic;
null for zero elements or on multiplication overflow (detected by the
division test); otherwise allocate and zero-fill `asize` bytes. -/
def mm_calloc (elements size : Nat) (st : Sys) : Option Nat × Sys :=
  let asize := (elements * size) % WORD
  if elements = 0 then (none, st)
  else if ¬ (asize / elements = size) then (none, st)
  else
    match mm_malloc asize st with
    | (none, st1) => (none, st1)
    | (some bp, st1) =>
      (some bp, { st1 with mem := mem_memset st1.mem bp 0 asize })

/-! ## The data-model invariants

The conjuncts of `Inv` are the parts of the spec's data-model invariants
that the proofs below track across the public operations: every block has
positive size (block sizes are multiples of 16 by construction, since
`get_size` masks the low four bits); the heap plus the provider's remaining
budget fits in the address space; every block's prev-allocated bit agrees
with its positional predecessor (the prologue counting as allocated), and
the epilogue's with the last block; no free block is followed by a free
block; the epilogue has size 0 and is marked allocated; and every
directory entry is the address of a free block of the heap sitting in the
bucket matching its size, with no duplicates. -/

def sizesOK (st : Sys) : Prop := ∀ b ∈ st.blocks, 0 < get_size b

def sumBound (st : Sys) : Prop :=
  dsize + (st.blocks.map get_size).sum + st.avail ≤ WORD

def bit1OK (st : Sys) : Prop :=
  (∀ i, i < st.blocks.length →
    get_alloc (blkAt st i) true =
      (if i = 0 then true else get_alloc (blkAt st (i - 1)) false)) ∧
  get_alloc_hdr st.epi true =
    (if st.blocks.length = 0 then true
     else get_alloc (blkAt st (st.blocks.length - 1)) false)

def noAdjFree (st : Sys) : Prop :=
  ∀ i, i < st.blocks.length → get_alloc (blkAt st i) false = false →
    get_alloc_hdr (hdrOr st (i + 1)) false = true

def epiOK (st : Sys) : Prop :=
  extract_size st.epi = 0 ∧ get_alloc_hdr st.epi false = true

def dirOK (st : Sys) : Prop :=
  st.dir.length = free_size ∧
  ∀ i, i < free_size → (getBucket st.dir i).Nodup ∧
    ∀ a ∈ getBucket st.dir i, ∃ j < st.blocks.length,
      addrOf st.blocks j = a ∧ get_alloc (blkAt st j) false = false ∧
      get_free_list (get_size (blkAt st j)) = i

def Inv (st : Sys) : Prop :=
  st.started = true ∧ sizesOK st ∧ sumBound st ∧ bit1OK st ∧
  noAdjFree st ∧ epiOK st ∧ dirOK st

/-- The block at index `x` of `st` survives into `st'`: some block of `st'`
sits at the same address, is allocated, and has the same size.  (The heap
operations never move or resize an allocated block, though its neighbors'
status bits in the header may change.) -/
def survives (st st' : Sys) (x : Nat) : Prop :=
  ∃ y, y < st'.blocks.length ∧ addrOf st'.blocks y = addrOf st.blocks x ∧
    get_alloc (blkAt st' y) false = true ∧
    get_size (blkAt st' y) = get_size (blkAt st x)

instance (st : Sys) : Decidable (sizesOK st) := by
  unfold sizesOK
  infer_instance

instance (st : Sys) : Decidable (sumBound st) := by
  unfold sumBound
  infer_instance

instance (st : Sys) : Decidable (bit1OK st) := by
  unfold bit1OK
  infer_instance

instance (st : Sys) : Decidable (noAdjFree st) := by
  unfold noAdjFree
  infer_instance

instance (st : Sys) : Decidable (epiOK st) := by
  unfold epiOK
  infer_instance

instance (st : Sys) : Decidable (dirOK st) := by
  unfold dirOK
  infer_instance

instance (st : Sys) : Decidable (Inv st) := by
  unfold Inv
  infer_instance

/-! ## Concrete states used by the witnesses

`sysEx0` is a pristine system (heap not yet created, 100000 bytes of provider
budget).  `c3pre` is the heap reached from a fresh heap by carving five
16-byte blocks and a large block, then releasing the first, third and fifth
mini block (bucket-0 chain `[72, 40, 8]`, the block at 8 being the
self-looped tail), with the remaining blocks allocated.  `sysTwo` holds one
allocated 16-byte block at address 8 and one free 4080-byte block at address
24 (bucket 9).  `sysOneAlloc` holds a single allocated 16-byte block and an
exhausted provider.  `cexSzC5`/`cexBucketC5` form a 19-element bucket whose
19th member is the only (near-exact) fit for a request of 32 bytes. -/

def sysEx0 : Sys := ⟨false, [], [], 0, 0, fun _ => 0, 100000⟩

def c3pre : Sys :=
  ⟨true, [⟨22⟩, ⟨21⟩, ⟨22⟩, ⟨21⟩, ⟨22⟩, ⟨4021⟩],
    (72 :: 40 :: 8 :: []) :: List.replicate 13 [], 5, 3, fun _ => 0, 0⟩

def sysTwo : Sys :=
  ⟨true, [⟨19⟩, ⟨4082⟩], List.replicate 9 [] ++ [[24]] ++ List.replicate 4 [],
    5, 1, fun a => a % 251, 100000⟩

def sysOneAlloc : Sys :=
  ⟨true, [⟨19⟩], List.replicate 14 [], 5, 3, fun a => a % 251, 0⟩

def cexSzC5 : Nat → Nat := fun a => if a = 19 then 48 else 16

def cexBucketC5 : List Nat :=
  [1, 2, 3, 4, 5, 6, 7, 8, 9, 10, 11, 12, 13, 14, 15, 16, 17, 18, 19]

/-! ## Basic facts about the header codec -/

theorem extract_size_lt (w : Nat) : extract_size w < WORD := by
  unfold extract_size WORD
  omega

theorem dvd_extract_size (w : Nat) : 16 ∣ extract_size w := by
  unfold extract_size WORD
  omega

theorem extract_size_pack (s : Nat) (ap ac mb : Bool)
    (hdvd : 16 ∣ s) (hlt : s < WORD) : extract_size (pack s ap ac mb) = s := by
  unfold extract_size pack WORD at *
  cases ap <;> cases ac <;> cases mb <;> simp <;> omega

theorem get_alloc_hdr_pack_false (s : Nat) (ap ac mb : Bool)
    (hdvd : 16 ∣ s) : get_alloc_hdr (pack s ap ac mb) false = ac := by
  unfold get_alloc_hdr extract_alloc pack
  cases ap <;> cases ac <;> cases mb <;> simp <;> omega

theorem get_alloc_hdr_pack_true (s : Nat) (ap ac mb : Bool)
    (hdvd : 16 ∣ s) : get_alloc_hdr (pack s ap ac mb) true = ap := by
  unfold get_alloc_hdr extract_alloc pack
  cases ap <;> cases ac <;> cases mb <;> simp <;> omega

theorem is_minblock_hdr_pack (s : Nat) (ap ac mb : Bool)
    (hdvd : 16 ∣ s) : is_minblock_hdr (pack s ap ac mb) = mb := by
  unfold is_minblock_hdr extract_alloc pack
  cases ap <;> cases ac <;> cases mb <;> simp <;> omega

theorem usub_eq_sub (x y : Nat) (hyx : y ≤ x) (hx : x < WORD) :
    usub x y = x - y := by
  unfold usub WORD at *
  omega

/-! ## Address and index toolkit

Everything about `idxOf` reduces to arithmetic on `addrOf`: under positive
block sizes, `idxOf blocks a = some j` iff `j` is a valid index whose
address is `a`. -/

theorem getD_mem_blocks (blocks : List Blk) (i : Nat) (h : i < blocks.length) :
    blocks.getD i default ∈ blocks := by
  rw [List.getD_eq_getElem blocks default h]
  exact List.getElem_mem h

theorem addrOf_succ (blocks : List Blk) (i : Nat) (h : i < blocks.length) :
    addrOf blocks (i + 1) = addrOf blocks i +
      get_size (blocks.getD i default) := by
  unfold addrOf
  rw [List.take_succ, List.map_append, List.sum_append]
  rw [List.getElem?_eq_getElem h]
  rw [List.getD_eq_getElem blocks default h]
  simp
  omega

theorem addrOf_mono (blocks : List Blk) (i j : Nat) (hij : i ≤ j) :
    addrOf blocks i ≤ addrOf blocks j := by
  unfold addrOf
  have hj : j = i + (j - i) := by omega
  rw [hj, List.take_add, List.map_append, List.sum_append]
  omega

theorem addrOf_lt_addrOf (blocks : List Blk)
    (hpos : ∀ b ∈ blocks, 0 < get_size b) (i j : Nat) (hij : i < j)
    (hj : j ≤ blocks.length) : addrOf blocks i < addrOf blocks j := by
  have h1 : addrOf blocks i < addrOf blocks (i + 1) := by
    rw [addrOf_succ blocks i (by omega)]
    have := hpos (blocks.getD i default) (getD_mem_blocks blocks i (by omega))
    omega
  exact Nat.lt_of_lt_of_le h1 (addrOf_mono blocks (i + 1) j (by omega))

theorem idxAux_some (a : Nat) : ∀ (bs : List Blk) (cur j : Nat),
    idxAux a cur bs = some j →
    j < bs.length ∧ cur + ((bs.take j).map get_size).sum = a := by
  intro bs
  induction bs with
  | nil =>
    intro cur j h
    simp [idxAux] at h
  | cons b bs ih =>
    intro cur j h
    simp only [idxAux] at h
    split at h
    · rename_i hcur
      injection h with h
      subst h
      simpa using hcur
    · rcases Option.map_eq_some'.mp h with ⟨j', hj', rfl⟩
      obtain ⟨h1, h2⟩ := ih (cur + get_size b) j' hj'
      refine ⟨by simpa using h1, ?_⟩
      rw [List.take_succ_cons, List.map_cons, List.sum_cons]
      omega

theorem idxAux_addr : ∀ (bs : List Blk) (cur i : Nat),
    (∀ b ∈ bs, 0 < get_size b) → i < bs.length →
    idxAux (cur + ((bs.take i).map get_size).sum) cur bs = some i := by
  intro bs
  induction bs with
  | nil =>
    intro cur i _ h
    simp at h
  | cons b bs ih =>
    intro cur i hpos hi
    cases i with
    | zero => simp [idxAux]
    | succ i' =>
      simp only [idxAux]
      rw [if_neg ?_]
      · have hrec := ih (cur + get_size b) i'
          (fun x hx => hpos x (by simp [hx])) (by simpa using hi)
        rw [show cur + (((b :: bs).take (i' + 1)).map get_size).sum =
            cur + get_size b + ((bs.take i').map get_size).sum from by
          rw [List.take_succ_cons, List.map_cons, List.sum_cons]
          omega]
        rw [hrec]
        rfl
      · have hb : 0 < get_size b := hpos b (by simp)
        rw [List.take_succ_cons, List.map_cons, List.sum_cons]
        omega

theorem idxOf_some (blocks : List Blk) (a j : Nat)
    (h : idxOf blocks a = some j) :
    j < blocks.length ∧ addrOf blocks j = a := by
  obtain ⟨h1, h2⟩ := idxAux_some a blocks 8 j h
  exact ⟨h1, h2⟩

theorem idxOf_addrOf (blocks : List Blk)
    (hpos : ∀ b ∈ blocks, 0 < get_size b) (i : Nat) (h : i < blocks.length) :
    idxOf blocks (addrOf blocks i) = some i :=
  idxAux_addr blocks 8 i hpos h

theorem idxOf_iff (blocks : List Blk)
    (hpos : ∀ b ∈ blocks, 0 < get_size b) (a j : Nat) :
    idxOf blocks a = some j ↔ j < blocks.length ∧ addrOf blocks j = a := by
  constructor
  · exact idxOf_some blocks a j
  · rintro ⟨h1, rfl⟩
    exact idxOf_addrOf blocks hpos j h1

/-! Splice lemmas: the block-list surgeries of the transition functions all
have the shape `l.take k ++ seg ++ l.drop m`. -/

theorem splice_length (l : List Blk) (k m : Nat) (seg : List Blk)
    (hk : k ≤ m) (hm : m ≤ l.length) :
    (l.take k ++ seg ++ l.drop m).length = l.length - (m - k) + seg.length := by
  simp only [List.length_append, List.length_take, List.length_drop]
  omega

theorem splice_getD_left (l : List Blk) (k m : Nat) (seg : List Blk)
    (j : Nat) (hj : j < k) (hk : k ≤ l.length) :
    (l.take k ++ seg ++ l.drop m).getD j default = l.getD j default := by
  rw [List.append_assoc, List.getD_append _ _ _ _ (by
    rw [List.length_take]
    omega)]
  rw [List.getD_eq_getElem _ default (by rw [List.length_take]; omega)]
  rw [List.getElem_take]
  rw [List.getD_eq_getElem l default (by omega)]

theorem splice_getD_mid (l : List Blk) (k m : Nat) (seg : List Blk)
    (u : Nat) (hu : u < seg.length) (hk : k ≤ l.length) :
    (l.take k ++ seg ++ l.drop m).getD (k + u) default = seg.getD u default := by
  rw [List.append_assoc, List.getD_append_right _ _ _ _ (by
    rw [List.length_take]
    omega)]
  rw [List.length_take, Nat.min_eq_left hk]
  rw [List.getD_append _ _ _ _ (by omega)]
  congr 1
  omega

theorem splice_getD_right (l : List Blk) (k m : Nat) (seg : List Blk)
    (t : Nat) (hk : k ≤ l.length) (hm : m ≤ l.length) :
    (l.take k ++ seg ++ l.drop m).getD (k + seg.length + t) default =
      l.getD (m + t) default := by
  rw [List.append_assoc, List.getD_append_right _ _ _ _ (by
    rw [List.length_take]
    omega)]
  rw [List.length_take, Nat.min_eq_left hk]
  rw [List.getD_append_right _ _ _ _ (by omega)]
  rw [show k + seg.length + t - k - seg.length = t from by omega]
  cases Nat.lt_or_ge (m + t) l.length with
  | inl hlt =>
    rw [List.getD_eq_getElem _ default (by rw [List.length_drop]; omega)]
    rw [List.getElem_drop]
    rw [List.getD_eq_getElem l default (by omega)]
  | inr hge =>
    rw [List.getD_eq_default _ default (by rw [List.length_drop]; omega)]
    rw [List.getD_eq_default l default (by omega)]

theorem splice_addr_left (l : List Blk) (k m : Nat) (seg : List Blk)
    (j : Nat) (hj : j ≤ k) (hk : k ≤ l.length) :
    addrOf (l.take k ++ seg ++ l.drop m) j = addrOf l j := by
  unfold addrOf
  rw [List.append_assoc, List.take_append_of_le_length (by
    rw [List.length_take]
    omega)]
  rw [List.take_take, Nat.min_eq_left hj]

theorem splice_addr_right (l : List Blk) (k m : Nat) (seg : List Blk)
    (hk : k ≤ m) (hm : m ≤ l.length)
    (hsum : ((l.take k).map get_size).sum + (seg.map get_size).sum =
      ((l.take m).map get_size).sum) (t : Nat) :
    addrOf (l.take k ++ seg ++ l.drop m) (k + seg.length + t) =
      addrOf l (m + t) := by
  unfold addrOf
  have hlen1 : (l.take k).length = k := by
    rw [List.length_take]
    omega
  have h1 : (l.take k ++ seg ++ l.drop m).take (k + seg.length + t) =
      l.take k ++ (seg ++ (l.drop m).take t) := by
    rw [List.append_assoc, List.take_append_eq_append_take, hlen1,
      List.take_of_length_le (by rw [hlen1]; omega)]
    congr 1
    rw [show k + seg.length + t - k = seg.length + t from by omega,
      List.take_append_eq_append_take,
      List.take_of_length_le (by omega : seg.length ≤ seg.length + t),
      show seg.length + t - seg.length = t from by omega]
  rw [h1, List.take_add]
  simp only [List.map_append, List.sum_append]
  omega

/-! ## Directory lemmas -/

theorem ite_le {c : Prop} [Decidable c] {a b n : Nat} (ha : a ≤ n)
    (hb : b ≤ n) : (if c then a else b) ≤ n := by
  split <;> assumption

theorem get_free_list_lt (s : Nat) : get_free_list s < free_size := by
  have h : get_free_list s ≤ 13 := by
    unfold get_free_list
    exact ite_le (by omega) (ite_le (by omega) (ite_le (by omega)
      (ite_le (by omega) (ite_le (by omega) (ite_le (by omega)
      (ite_le (by omega) (ite_le (by omega) (ite_le (by omega)
      (ite_le (by omega) (ite_le (by omega) (ite_le (by omega)
      (ite_le (by omega) (by omega)))))))))))))
  unfold free_size
  omega

theorem insert_free_eq (a size : Nat) (dir : List (List Nat)) :
    insert_free a size dir =
      setBucket dir (get_free_list size)
        (a :: getBucket dir (get_free_list size)) := by
  unfold insert_free insert_free_mini insert_free_basic
  dsimp only
  split <;> rfl

theorem clear_free_eq (a size : Nat) (dir : List (List Nat)) :
    clear_free a size dir =
      setBucket dir (get_free_list size)
        (if get_free_list size = 0 then
          clear_free_mini a (getBucket dir (get_free_list size))
        else clear_free_basic a (getBucket dir (get_free_list size))) := by
  unfold clear_free
  dsimp only
  split <;> simp_all

theorem setBucket_length (dir : List (List Nat)) (i : Nat) (l : List Nat) :
    (setBucket dir i l).length = dir.length := by
  unfold setBucket
  simp

theorem getBucket_set_self (dir : List (List Nat)) (i : Nat) (l : List Nat)
    (h : i < dir.length) : getBucket (setBucket dir i l) i = l := by
  unfold getBucket setBucket
  rw [List.getD_eq_getElem _ _ (by simpa using h)]
  simp

theorem getBucket_set_ne (dir : List (List Nat)) (i : Nat) (l : List Nat)
    (j : Nat) (h : j ≠ i) : getBucket (setBucket dir i l) j = getBucket dir j := by
  unfold getBucket setBucket
  by_cases hj : j < dir.length
  · rw [List.getD_eq_getElem _ _ (by simpa using hj),
      List.getD_eq_getElem _ _ hj]
    rw [List.getElem_set_ne (by omega)]
  · rw [List.getD_eq_default _ _ (by simpa using Nat.le_of_not_lt hj),
      List.getD_eq_default _ _ (by exact Nat.le_of_not_lt hj)]

theorem clear_free_mini_subset (a : Nat) (l : List Nat) :
    ∀ x ∈ clear_free_mini a l, x ∈ l := by
  intro x hx
  unfold clear_free_mini at hx
  split at hx
  · exact hx
  · split at hx
    · simp at hx
    · split at hx
      · exact List.mem_of_mem_tail hx
      · exact List.mem_of_mem_erase hx

theorem clear_free_basic_subset (a : Nat) (l : List Nat) :
    ∀ x ∈ clear_free_basic a l, x ∈ l := by
  intro x hx
  unfold clear_free_basic at hx
  split at hx
  · exact hx
  · exact List.mem_of_mem_erase hx

theorem clear_free_mini_nodup (a : Nat) (l : List Nat) (h : l.Nodup) :
    (clear_free_mini a l).Nodup := by
  unfold clear_free_mini
  split
  · exact h
  · split
    · exact List.nodup_nil
    · split
      · exact h.sublist (List.tail_sublist l)
      · exact h.erase a

theorem clear_free_basic_nodup (a : Nat) (l : List Nat) (h : l.Nodup) :
    (clear_free_basic a l).Nodup := by
  unfold clear_free_basic
  split
  · exact h
  · exact h.erase a

theorem clear_free_mini_not_mem (a : Nat) (l : List Nat) (h : l.Nodup) :
    a ∉ clear_free_mini a l := by
  unfold clear_free_mini
  split
  · rename_i hl
    rw [hl]
    simp
  · split
    · simp
    · split
      · rename_i hne hhead
        cases l with
        | nil => simp
        | cons y t =>
          have hy : y = a := by simpa using hhead
          subst hy
          simp only [List.tail_cons]
          exact (List.nodup_cons.mp h).1
      · intro hmem
        exact absurd (h.mem_erase_iff.mp hmem).1 (by simp)

theorem clear_free_basic_not_mem (a : Nat) (l : List Nat) (h : l.Nodup) :
    a ∉ clear_free_basic a l := by
  unfold clear_free_basic
  split
  · rename_i hl
    rw [hl]
    simp
  · intro hmem
    exact absurd (h.mem_erase_iff.mp hmem).1 (by simp)

theorem addrOf_inj (blocks : List Blk)
    (hpos : ∀ b ∈ blocks, 0 < get_size b) (i j : Nat)
    (hi : i < blocks.length) (hj : j < blocks.length)
    (h : addrOf blocks i = addrOf blocks j) : i = j := by
  rcases Nat.lt_trichotomy i j with hij | hij | hij
  · exact absurd h (Nat.ne_of_lt (addrOf_lt_addrOf blocks hpos i j hij (by omega)))
  · exact hij
  · exact absurd h.symm
      (Nat.ne_of_lt (addrOf_lt_addrOf blocks hpos j i hij (by omega)))

theorem insert_free_length (a size : Nat) (dir : List (List Nat)) :
    (insert_free a size dir).length = dir.length := by
  rw [insert_free_eq]
  exact setBucket_length dir _ _

theorem clear_free_length (a size : Nat) (dir : List (List Nat)) :
    (clear_free a size dir).length = dir.length := by
  rw [clear_free_eq]
  exact setBucket_length dir _ _

theorem clear_free_sub (a size : Nat) (dir : List (List Nat))
    (hlen : dir.length = free_size) (k : Nat) (hk : k < free_size) :
    ∀ x ∈ getBucket (clear_free a size dir) k, x ∈ getBucket dir k := by
  intro x hx
  rw [clear_free_eq] at hx
  by_cases hkg : k = get_free_list size
  · subst hkg
    rw [getBucket_set_self dir _ _ (by rw [hlen]; exact get_free_list_lt size)]
      at hx
    split at hx
    · exact clear_free_mini_subset a _ x hx
    · exact clear_free_basic_subset a _ x hx
  · rwa [getBucket_set_ne dir _ _ k hkg] at hx

theorem clear_free_nodup (a size : Nat) (dir : List (List Nat))
    (hlen : dir.length = free_size) (k : Nat)
    (hnd : (getBucket dir k).Nodup) :
    (getBucket (clear_free a size dir) k).Nodup := by
  rw [clear_free_eq]
  by_cases hkg : k = get_free_list size
  · subst hkg
    rw [getBucket_set_self dir _ _ (by rw [hlen]; exact get_free_list_lt size)]
    split
    · exact clear_free_mini_nodup a _ hnd
    · exact clear_free_basic_nodup a _ hnd
  · rwa [getBucket_set_ne dir _ _ k hkg]

theorem clear_free_removes (a size : Nat) (dir : List (List Nat))
    (hlen : dir.length = free_size)
    (hnd : (getBucket dir (get_free_list size)).Nodup)
    (huniq : ∀ k, k < free_size → a ∈ getBucket dir k → k = get_free_list size)
    (k : Nat) (hk : k < free_size) :
    a ∉ getBucket (clear_free a size dir) k := by
  rw [clear_free_eq]
  by_cases hkg : k = get_free_list size
  · subst hkg
    rw [getBucket_set_self dir _ _ (by rw [hlen]; exact get_free_list_lt size)]
    split
    · exact clear_free_mini_not_mem a _ hnd
    · exact clear_free_basic_not_mem a _ hnd
  · rw [getBucket_set_ne dir _ _ k hkg]
    intro hmem
    exact hkg (huniq k hk hmem)

theorem getBucket_insert_free (a size : Nat) (dir : List (List Nat))
    (hlen : dir.length = free_size) (k : Nat) :
    getBucket (insert_free a size dir) k =
      if k = get_free_list size then a :: getBucket dir k
      else getBucket dir k := by
  rw [insert_free_eq]
  by_cases hkg : k = get_free_list size
  · subst hkg
    rw [getBucket_set_self dir _ _ (by rw [hlen]; exact get_free_list_lt size),
      if_pos rfl]
  · rw [getBucket_set_ne dir _ _ k hkg, if_neg hkg]

/-! ## Effect of `modify_next` -/

theorem addrOf_congr (b1 b2 : List Blk) (h : b1.map get_size = b2.map get_size)
    (i : Nat) : addrOf b1 i = addrOf b2 i := by
  unfold addrOf
  rw [List.map_take, List.map_take, h]

theorem getD_set_self (l : List Blk) (j : Nat) (c : Blk) (hj : j < l.length) :
    (l.set j c).getD j default = c := by
  rw [List.getD_eq_getElem _ _ (by simpa using hj)]
  exact List.getElem_set_self (by simpa using hj)

theorem getD_set_ne (l : List Blk) (j : Nat) (c : Blk) (i : Nat) (h : i ≠ j) :
    (l.set j c).getD i default = l.getD i default := by
  by_cases hi : i < l.length
  · rw [List.getD_eq_getElem _ _ (by simpa using hi),
      List.getD_eq_getElem _ _ hi]
    exact List.getElem_set_ne (Ne.symm h) (by simpa using hi)
  · rw [List.getD_eq_default _ _ (by simpa using Nat.le_of_not_lt hi),
      List.getD_eq_default _ _ (Nat.le_of_not_lt hi)]

theorem sizes_set (l : List Blk) (j : Nat) (c : Blk) (hj : j < l.length)
    (hsz : get_size c = get_size (l.getD j default)) :
    (l.set j c).map get_size = l.map get_size := by
  rw [List.set_eq_take_cons_drop c hj]
  conv_rhs => rw [← List.take_append_drop j l, List.drop_eq_getElem_cons hj]
  simp only [List.map_append, List.map_cons]
  rw [hsz, List.getD_eq_getElem l default hj]

theorem modify_next_sizes (st : Sys) (j : Nat) (p m : Bool) :
    (modify_next st j p m).blocks.map get_size = st.blocks.map get_size := by
  unfold modify_next
  split
  · rename_i hj
    dsimp only
    apply sizes_set _ _ _ hj
    unfold get_size
    exact extract_size_pack _ _ _ _ (dvd_extract_size _) (extract_size_lt _)
  · rfl

theorem modify_next_len (st : Sys) (j : Nat) (p m : Bool) :
    (modify_next st j p m).blocks.length = st.blocks.length := by
  unfold modify_next
  split <;> simp

theorem modify_next_addr (st : Sys) (j : Nat) (p m : Bool) (i : Nat) :
    addrOf (modify_next st j p m).blocks i = addrOf st.blocks i :=
  addrOf_congr _ _ (modify_next_sizes st j p m) i

theorem modify_next_blkAt_ne (st : Sys) (j : Nat) (p m : Bool) (i : Nat)
    (h : i ≠ j) : blkAt (modify_next st j p m) i = blkAt st i := by
  unfold modify_next blkAt
  split
  · dsimp only
    exact getD_set_ne _ _ _ _ h
  · rfl

theorem modify_next_blkAt_self (st : Sys) (j : Nat) (p m : Bool)
    (hj : j < st.blocks.length) :
    blkAt (modify_next st j p m) j =
      ⟨pack (get_size (blkAt st j)) p (get_alloc (blkAt st j) false) m⟩ := by
  unfold modify_next blkAt
  rw [if_pos hj]
  dsimp only
  exact getD_set_self _ _ _ hj

theorem modify_next_epi_lt (st : Sys) (j : Nat) (p m : Bool)
    (hj : j < st.blocks.length) : (modify_next st j p m).epi = st.epi := by
  unfold modify_next
  rw [if_pos hj]

theorem modify_next_epi_ge (st : Sys) (j : Nat) (p m : Bool)
    (hj : ¬ j < st.blocks.length) :
    (modify_next st j p m).epi =
      pack (extract_size st.epi) p (get_alloc_hdr st.epi false) m := by
  unfold modify_next
  rw [if_neg hj]

theorem modify_next_blocks_ge (st : Sys) (j : Nat) (p m : Bool)
    (hj : ¬ j < st.blocks.length) :
    (modify_next st j p m).blocks = st.blocks := by
  unfold modify_next
  rw [if_neg hj]

theorem sum_take_le (l : List Blk) (i : Nat) :
    ((l.take i).map get_size).sum ≤ (l.map get_size).sum := by
  conv_rhs => rw [← List.take_append_drop i l]
  rw [List.map_append, List.sum_append]
  omega

theorem sum_drop_decomp (l : List Blk) (i : Nat) :
    ((l.take i).map get_size).sum + ((l.drop i).map get_size).sum =
      (l.map get_size).sum := by
  conv_rhs => rw [← List.take_append_drop i l]
  rw [List.map_append, List.sum_append]

theorem modify_next_alloc_false (st : Sys) (j : Nat) (p m : Bool) (i : Nat) :
    get_alloc (blkAt (modify_next st j p m) i) false =
      get_alloc (blkAt st i) false := by
  by_cases hij : i = j
  · subst hij
    by_cases hj : i < st.blocks.length
    · rw [modify_next_blkAt_self st i p m hj]
      unfold get_alloc
      exact get_alloc_hdr_pack_false _ _ _ _ (dvd_extract_size _)
    · unfold blkAt
      rw [modify_next_blocks_ge st i p m hj]
  · rw [modify_next_blkAt_ne st j p m i hij]

theorem modify_next_gsize (st : Sys) (j : Nat) (p m : Bool) (i : Nat) :
    get_size (blkAt (modify_next st j p m) i) = get_size (blkAt st i) := by
  by_cases hij : i = j
  · subst hij
    by_cases hj : i < st.blocks.length
    · rw [modify_next_blkAt_self st i p m hj]
      unfold get_size
      exact extract_size_pack _ _ _ _ (dvd_extract_size _) (extract_size_lt _)
    · unfold blkAt
      rw [modify_next_blocks_ge st i p m hj]
  · rw [modify_next_blkAt_ne st j p m i hij]

theorem modify_next_alloc_true_self (st : Sys) (j : Nat) (p m : Bool)
    (hj : j < st.blocks.length) :
    get_alloc (blkAt (modify_next st j p m) j) true = p := by
  rw [modify_next_blkAt_self st j p m hj]
  unfold get_alloc
  exact get_alloc_hdr_pack_true _ _ _ _ (dvd_extract_size _)

theorem hdrOr_lt (st : Sys) (j : Nat) (h : j < st.blocks.length) :
    hdrOr st j = (blkAt st j).header := by
  unfold hdrOr
  rw [if_pos h]

theorem hdrOr_ge (st : Sys) (j : Nat) (h : ¬ j < st.blocks.length) :
    hdrOr st j = st.epi := by
  unfold hdrOr
  rw [if_neg h]

theorem gsize_freeHdr (o s : Nat) (pa : Bool) (hdvd : 16 ∣ s) (hlt : s < WORD) :
    get_size (⟨freeHdr o s pa⟩ : Blk) = s := by
  unfold get_size freeHdr
  exact extract_size_pack _ _ _ _ hdvd hlt

theorem alloc_freeHdr_false (o s : Nat) (pa : Bool) (hdvd : 16 ∣ s) :
    get_alloc (⟨freeHdr o s pa⟩ : Blk) false = false := by
  unfold get_alloc freeHdr
  exact get_alloc_hdr_pack_false _ _ _ _ hdvd

theorem alloc_freeHdr_true (o s : Nat) (pa : Bool) (hdvd : 16 ∣ s) :
    get_alloc (⟨freeHdr o s pa⟩ : Blk) true = pa := by
  unfold get_alloc freeHdr
  exact get_alloc_hdr_pack_true _ _ _ _ hdvd

/-! ## Fields untouched by the transition functions -/

@[simp] theorem modify_next_started (st : Sys) (j : Nat) (p m : Bool) :
    (modify_next st j p m).started = st.started := by
  unfold modify_next; split <;> rfl

@[simp] theorem modify_next_pro (st : Sys) (j : Nat) (p m : Bool) :
    (modify_next st j p m).pro = st.pro := by
  unfold modify_next; split <;> rfl

@[simp] theorem modify_next_mem (st : Sys) (j : Nat) (p m : Bool) :
    (modify_next st j p m).mem = st.mem := by
  unfold modify_next; split <;> rfl

@[simp] theorem modify_next_avail (st : Sys) (j : Nat) (p m : Bool) :
    (modify_next st j p m).avail = st.avail := by
  unfold modify_next; split <;> rfl

@[simp] theorem modify_next_dir (st : Sys) (j : Nat) (p m : Bool) :
    (modify_next st j p m).dir = st.dir := by
  unfold modify_next; split <;> rfl

@[simp] theorem coalesce_block_started (st : Sys) (i : Nat) :
    (coalesce_block st i).1.started = st.started := by
  unfold coalesce_block
  dsimp only
  split <;> split <;> simp

@[simp] theorem coalesce_block_pro (st : Sys) (i : Nat) :
    (coalesce_block st i).1.pro = st.pro := by
  unfold coalesce_block
  dsimp only
  split <;> split <;> simp

@[simp] theorem coalesce_block_mem (st : Sys) (i : Nat) :
    (coalesce_block st i).1.mem = st.mem := by
  unfold coalesce_block
  dsimp only
  split <;> split <;> simp

@[simp] theorem coalesce_block_avail (st : Sys) (i : Nat) :
    (coalesce_block st i).1.avail = st.avail := by
  unfold coalesce_block
  dsimp only
  split <;> split <;> simp

@[simp] theorem extend_heap_started (st : Sys) (s : Nat) :
    (extend_heap st s).1.started = st.started := by
  unfold extend_heap
  dsimp only
  split
  · rfl
  · simp

@[simp] theorem extend_heap_pro (st : Sys) (s : Nat) :
    (extend_heap st s).1.pro = st.pro := by
  unfold extend_heap
  dsimp only
  split
  · rfl
  · simp

@[simp] theorem extend_heap_mem (st : Sys) (s : Nat) :
    (extend_heap st s).1.mem = st.mem := by
  unfold extend_heap
  dsimp only
  split
  · rfl
  · simp

@[simp] theorem split_block_started (st : Sys) (i a : Nat) :
    (split_block st i a).started = st.started := by
  unfold split_block
  dsimp only
  split <;> simp

@[simp] theorem split_block_pro (st : Sys) (i a : Nat) :
    (split_block st i a).pro = st.pro := by
  unfold split_block
  dsimp only
  split <;> simp

@[simp] theorem split_block_mem (st : Sys) (i a : Nat) :
    (split_block st i a).mem = st.mem := by
  unfold split_block
  dsimp only
  split <;> simp

@[simp] theorem split_block_avail (st : Sys) (i a : Nat) :
    (split_block st i a).avail = st.avail := by
  unfold split_block
  dsimp only
  split <;> simp

@[simp] theorem place_started (st : Sys) (i a : Nat) (pm : Bool) :
    (place st i a pm).2.started = st.started := by
  unfold place
  dsimp only
  simp

@[simp] theorem place_pro (st : Sys) (i a : Nat) (pm : Bool) :
    (place st i a pm).2.pro = st.pro := by
  unfold place
  dsimp only
  simp

@[simp] theorem place_mem (st : Sys) (i a : Nat) (pm : Bool) :
    (place st i a pm).2.mem = st.mem := by
  unfold place
  dsimp only
  simp

@[simp] theorem place_fst (st : Sys) (i a : Nat) (pm : Bool) :
    (place st i a pm).1 = some (addrOf st.blocks i + wsize) := by
  unfold place
  simp

@[simp] theorem mm_free_mem (bp : Option Nat) (st : Sys) :
    (mm_free bp st).mem = st.mem := by
  unfold mm_free
  cases bp with
  | none => rfl
  | some p =>
    cases h : idxOf st.blocks (p - wsize) with
    | none => simp [h]
    | some i => simp [h]

/-- The state produced by `mm_init`, disentangled from the returned flag. -/
theorem mm_init_snd (st : Sys) :
    (mm_init st).2 = if st.avail < 2 * wsize then st
      else (extend_heap { st with
        avail := st.avail - 2 * wsize,
        pro := pack 0 false true true,
        epi := pack 0 true true true,
        started := true,
        blocks := [],
        dir := List.replicate free_size [] } chunksize).1 := by
  unfold mm_init
  split
  · rfl
  · dsimp only
    rcases h : extend_heap _ chunksize with ⟨st2, ob⟩
    cases ob <;> simp [h]

@[simp] theorem mm_init_mem (st : Sys) : (mm_init st).2.mem = st.mem := by
  rw [mm_init_snd]
  split
  · rfl
  · simp

@[simp] theorem mm_init_started_of_avail (st : Sys) (h : ¬ st.avail < 2 * wsize) :
    (mm_init st).2.started = true := by
  rw [mm_init_snd, if_neg h]
  simp

theorem mm_init_of_small_avail (st : Sys) (h : st.avail < 2 * wsize) :
    mm_init st = (false, st) := by
  unfold mm_init
  rw [if_pos h]

@[simp] theorem mallocBody_mem (s : Nat) (st : Sys) :
    (mallocBody s st).2.mem = st.mem := by
  unfold mallocBody
  dsimp only
  split
  · rfl
  · rcases hf : find_fit (round_up ((s + wsize) % WORD) dsize)
        (szAtFn st.blocks) st.dir with _ | a
    · rcases he : extend_heap st (mmax (round_up ((s + wsize) % WORD) dsize)
          chunksize) with ⟨st', ob⟩
      have hmem : st'.mem = st.mem := by
        have := extend_heap_mem st (mmax (round_up ((s + wsize) % WORD) dsize)
          chunksize)
        rw [he] at this
        exact this
      cases ob <;> simp [hf, he, hmem]
    · cases hi : idxOf st.blocks a <;> simp [hf, hi]

@[simp] theorem mm_malloc_mem (s : Nat) (st : Sys) :
    (mm_malloc s st).2.mem = st.mem := by
  unfold mm_malloc
  rw [mallocBody_mem]
  split <;> simp

/-! ## The merge lemma

All three merging cases of `coalesce_block` replace a run of free blocks
`[k, m)` by a single free block carrying their total size, remove the old
entries from the directory, insert the merged block, and fix the
successor's bits with `modify_next`.  This lemma shows that such a step
restores the full invariant from a state whose only possible free-free
adjacencies lie inside the merged run (`dir'` stands for the directory
after the `clear_free` calls: its entries are free blocks outside the
run). -/

theorem dvd_sum_sizes (blocks : List Blk) (i : Nat) :
    16 ∣ ((blocks.take i).map get_size).sum := by
  apply List.dvd_sum
  intro x hx
  rcases List.mem_map.mp hx with ⟨b, _, rfl⟩
  exact dvd_extract_size b.header

theorem get_alloc_blk_hdr (b : Blk) (w : Bool) :
    get_alloc_hdr b.header w = get_alloc b w := rfl

/-- One `clear_free` call of a coalescing sequence: it keeps the directory
sound for the blocks whose index is not among those cleared so far
(`excl`), and removes the entry of the block at `idx`. -/
theorem clear_free_step (st : Sys) (dir : List (List Nat)) (excl : Nat → Prop)
    (hpos : sizesOK st)
    (hlen : dir.length = free_size)
    (hnd : ∀ q, q < free_size → (getBucket dir q).Nodup)
    (hmem : ∀ q, q < free_size → ∀ x ∈ getBucket dir q,
      ∃ j, j < st.blocks.length ∧ addrOf st.blocks j = x ∧
        get_alloc (blkAt st j) false = false ∧
        get_free_list (get_size (blkAt st j)) = q ∧ ¬ excl j)
    (idx : Nat) (hidx : idx < st.blocks.length) :
    (clear_free (addrOf st.blocks idx) (get_size (blkAt st idx)) dir).length
        = free_size ∧
    (∀ q, q < free_size →
      (getBucket (clear_free (addrOf st.blocks idx) (get_size (blkAt st idx))
        dir) q).Nodup) ∧
    (∀ q, q < free_size → ∀ x ∈ getBucket (clear_free (addrOf st.blocks idx)
        (get_size (blkAt st idx)) dir) q,
      ∃ j, j < st.blocks.length ∧ addrOf st.blocks j = x ∧
        get_alloc (blkAt st j) false = false ∧
        get_free_list (get_size (blkAt st j)) = q ∧ ¬ (excl j ∨ j = idx)) := by
  have huniq : ∀ q, q < free_size →
      addrOf st.blocks idx ∈ getBucket dir q →
      q = get_free_list (get_size (blkAt st idx)) := by
    intro q hq hmem'
    obtain ⟨j, hjn, hja, _, hjb, _⟩ := hmem q hq _ hmem'
    have hji := addrOf_inj st.blocks hpos j idx hjn hidx hja
    subst hji
    exact hjb.symm
  refine ⟨by rw [clear_free_length, hlen], ?_, ?_⟩
  · intro q hq
    exact clear_free_nodup _ _ dir hlen q (hnd q hq)
  · intro q hq x hx
    have hx' := clear_free_sub _ _ dir hlen q hq x hx
    obtain ⟨j, hjn, hja, hjf, hjb, hje⟩ := hmem q hq x hx'
    refine ⟨j, hjn, hja, hjf, hjb, ?_⟩
    rintro (h | rfl)
    · exact hje h
    · rw [← hja] at hx
      exact clear_free_removes _ _ dir hlen
        (hnd _ (get_free_list_lt _)) huniq q hq hx

theorem merge_preserves (st : Sys) (k m : Nat) (dir' : List (List Nat))
    (oldHdr : Nat) (pa mb : Bool) (size : Nat)
    (hstart : st.started = true)
    (hpos : sizesOK st) (hsum : sumBound st) (hbit : bit1OK st)
    (hepi : epiOK st) (hkm : k < m) (hm : m ≤ st.blocks.length)
    (hfree : ∀ j, k ≤ j → j < m → get_alloc (blkAt st j) false = false)
    (hsucc : get_alloc_hdr (hdrOr st m) false = true)
    (hnadj2 : ∀ j, j < st.blocks.length →
      get_alloc (blkAt st j) false = false →
      get_alloc_hdr (hdrOr st (j + 1)) false = true ∨ (k ≤ j ∧ j + 1 < m))
    (hpa : pa = (if k = 0 then true else get_alloc (blkAt st (k - 1)) false))
    (hsize : size = addrOf st.blocks m - addrOf st.blocks k)
    (hdlen : dir'.length = free_size)
    (hdnd : ∀ q, q < free_size → (getBucket dir' q).Nodup)
    (hdmem : ∀ q, q < free_size → ∀ x ∈ getBucket dir' q,
      ∃ j < st.blocks.length, addrOf st.blocks j = x ∧
        get_alloc (blkAt st j) false = false ∧
        get_free_list (get_size (blkAt st j)) = q ∧ (j < k ∨ m ≤ j)) :
    Inv (modify_next
      { st with
        blocks := st.blocks.take k ++ [⟨freeHdr oldHdr size pa⟩] ++
          st.blocks.drop m,
        dir := insert_free (addrOf st.blocks k) size dir' }
      (k + 1) false mb) ∧
    k < (modify_next
      { st with
        blocks := st.blocks.take k ++ [⟨freeHdr oldHdr size pa⟩] ++
          st.blocks.drop m,
        dir := insert_free (addrOf st.blocks k) size dir' }
      (k + 1) false mb).blocks.length ∧
    get_alloc (blkAt (modify_next
      { st with
        blocks := st.blocks.take k ++ [⟨freeHdr oldHdr size pa⟩] ++
          st.blocks.drop m,
        dir := insert_free (addrOf st.blocks k) size dir' }
      (k + 1) false mb) k) false = false ∧
    get_size (blkAt (modify_next
      { st with
        blocks := st.blocks.take k ++ [⟨freeHdr oldHdr size pa⟩] ++
          st.blocks.drop m,
        dir := insert_free (addrOf st.blocks k) size dir' }
      (k + 1) false mb) k) = size ∧
    (∀ x, x < st.blocks.length → get_alloc (blkAt st x) false = true →
      survives st (modify_next
        { st with
          blocks := st.blocks.take k ++ [⟨freeHdr oldHdr size pa⟩] ++
            st.blocks.drop m,
          dir := insert_free (addrOf st.blocks k) size dir' }
        (k + 1) false mb) x) := by
  have hk_lt_n : k < st.blocks.length := Nat.lt_of_lt_of_le hkm hm
  have hkm' : k ≤ m := Nat.le_of_lt hkm
  have hAk_lt_Am : addrOf st.blocks k < addrOf st.blocks m :=
    addrOf_lt_addrOf st.blocks hpos k m hkm hm
  have hpos_size : 0 < size := by omega
  have hdvd_size : 16 ∣ size := by
    rw [hsize]
    unfold addrOf
    have h1 := dvd_sum_sizes st.blocks m
    have h2 := dvd_sum_sizes st.blocks k
    have h3 : 8 + ((st.blocks.take m).map get_size).sum -
        (8 + ((st.blocks.take k).map get_size).sum) =
        ((st.blocks.take m).map get_size).sum -
        ((st.blocks.take k).map get_size).sum := by omega
    rw [h3]
    exact Nat.dvd_sub' h1 h2
  have hsz_lt : size < WORD := by
    have h1 := sum_take_le st.blocks m
    unfold sumBound dsize at hsum
    unfold addrOf at hsize
    omega
  set merged : Blk := ⟨freeHdr oldHdr size pa⟩ with hmerged
  have hg_size : get_size merged = size := gsize_freeHdr _ _ _ hdvd_size hsz_lt
  have hg_false : get_alloc merged false = false :=
    alloc_freeHdr_false _ _ _ hdvd_size
  have hg_true : get_alloc merged true = pa := alloc_freeHdr_true _ _ _ hdvd_size
  set blocks1 := st.blocks.take k ++ [merged] ++ st.blocks.drop m with hblocks1
  set dir2 := insert_free (addrOf st.blocks k) size dir' with hdir2
  set stM : Sys := { st with blocks := blocks1, dir := dir2 } with hstM
  set stF := modify_next stM (k + 1) false mb with hstF
  have hn : st.blocks.length = st.blocks.length := rfl
  have hlen1 : blocks1.length = k + 1 + (st.blocks.length - m) := by
    rw [hblocks1, splice_length st.blocks k m [merged] hkm' hm]
    simp
    omega
  have hsumseg : ((st.blocks.take k).map get_size).sum +
      ([merged].map get_size).sum = ((st.blocks.take m).map get_size).sum := by
    have hmono : addrOf st.blocks k ≤ addrOf st.blocks m :=
      addrOf_mono st.blocks k m hkm'
    unfold addrOf at hsize hmono
    simp only [List.map_cons, List.map_nil, List.sum_cons, List.sum_nil,
      hg_size]
    omega
  have haddr_left : ∀ j, j ≤ k → addrOf blocks1 j = addrOf st.blocks j :=
    fun j hj => splice_addr_left st.blocks k m [merged] j hj
      (Nat.le_trans hkm' hm)
  have haddr_right : ∀ t, addrOf blocks1 (k + 1 + t) =
      addrOf st.blocks (m + t) := by
    intro t
    rw [hblocks1]
    have := splice_addr_right st.blocks k m [merged] hkm' hm hsumseg t
    simpa using this
  have hblk_left : ∀ j, j < k → blocks1.getD j default = blkAt st j :=
    fun j hj => splice_getD_left st.blocks k m [merged] j hj
      (Nat.le_trans hkm' hm)
  have hblk_mid : blocks1.getD k default = merged := by
    rw [hblocks1]
    have := splice_getD_mid st.blocks k m [merged] 0 (by simp)
      (Nat.le_trans hkm' hm)
    simpa using this
  have hblk_right : ∀ t, blocks1.getD (k + 1 + t) default = blkAt st (m + t) := by
    intro t
    show blocks1.getD (k + 1 + t) default = st.blocks.getD (m + t) default
    rw [hblocks1]
    have := splice_getD_right st.blocks k m [merged] t
      (Nat.le_trans hkm' hm) hm
    simpa using this
  have hblk_k1 : blocks1.getD (k + 1) default = blkAt st m := by
    have := hblk_right 0
    simpa using this
  have haddr_k1 : addrOf blocks1 (k + 1) = addrOf st.blocks m := by
    have := haddr_right 0
    simpa using this
  have hM_blk : ∀ j, blkAt stM j = blocks1.getD j default := fun j => rfl
  have hM_epi : stM.epi = st.epi := rfl
  have hF_len : stF.blocks.length = blocks1.length := modify_next_len stM _ _ _
  have hF_alloc : ∀ i, get_alloc (blkAt stF i) false =
      get_alloc (blkAt stM i) false := modify_next_alloc_false stM _ _ _
  have hF_size : ∀ i, get_size (blkAt stF i) = get_size (blkAt stM i) :=
    modify_next_gsize stM _ _ _
  have hF_addr : ∀ i, addrOf stF.blocks i = addrOf blocks1 i :=
    modify_next_addr stM _ _ _
  have hF_dir : stF.dir = dir2 := modify_next_dir stM _ _ _
  have hF_blk_ne : ∀ i, i ≠ k + 1 → blkAt stF i = blkAt stM i :=
    fun i hi => modify_next_blkAt_ne stM _ _ _ i hi
  have hkn1 : k + 1 < blocks1.length ↔ m < st.blocks.length := by omega
  -- the predecessor of the run is allocated (or the run starts the heap)
  have hpred : k = 0 ∨ get_alloc (blkAt st (k - 1)) false = true := by
    by_cases hk0 : k = 0
    · exact Or.inl hk0
    · right
      by_cases hf : get_alloc (blkAt st (k - 1)) false = false
      · rcases hnadj2 (k - 1) (by omega) hf with hna | ⟨hge, _⟩
        · rw [show k - 1 + 1 = k from by omega, hdrOr_lt st k hk_lt_n,
            get_alloc_blk_hdr] at hna
          rw [hfree k (Nat.le_refl k) hkm] at hna
          simp at hna
        · omega
      · cases hb : get_alloc (blkAt st (k - 1)) false
        · exact absurd hb hf
        · rfl
  -- no free block right before the run
  have hpred_free : ∀ hk0 : k ≠ 0, get_alloc (blkAt st (k - 1)) false = true := by
    intro hk0
    rcases hpred with h | h
    · exact absurd h hk0
    · exact h
  refine ⟨⟨?_, ?_, ?_, ?_, ?_, ?_, ?_⟩, ?_, ?_, ?_, ?_⟩
  · -- started
    rw [hstF, modify_next_started]
    exact hstart
  · -- sizesOK
    intro b hb
    have hmem : get_size b ∈ stF.blocks.map get_size :=
      List.mem_map_of_mem get_size hb
    rw [hstF, modify_next_sizes] at hmem
    have : stM.blocks.map get_size = blocks1.map get_size := rfl
    rw [this, hblocks1] at hmem
    simp only [List.map_append, List.mem_append, List.map_cons, List.map_nil,
      List.mem_cons, List.mem_singleton] at hmem
    rcases hmem with (hmem | hmem) | hmem
    · rcases List.mem_map.mp hmem with ⟨b', hb', heq⟩
      rw [← heq]
      exact hpos b' (List.take_subset k st.blocks hb')
    · rcases hmem with hmem | hmem
      · rw [hmem, hg_size]
        exact hpos_size
      · simp at hmem
    · rcases List.mem_map.mp hmem with ⟨b', hb', heq⟩
      rw [← heq]
      exact hpos b' (List.drop_subset m st.blocks hb')
  · -- sumBound
    unfold sumBound
    have h1 : stF.blocks.map get_size = blocks1.map get_size := by
      rw [hstF, modify_next_sizes]
    rw [h1]
    have h2 : (blocks1.map get_size).sum = (st.blocks.map get_size).sum := by
      rw [hblocks1]
      simp only [List.map_append, List.sum_append]
      have h3 := sum_drop_decomp st.blocks m
      simp only [List.map_cons, List.map_nil, List.sum_cons, List.sum_nil,
        hg_size]
      have hmono : addrOf st.blocks k ≤ addrOf st.blocks m :=
        addrOf_mono st.blocks k m hkm'
      unfold addrOf at hsize hmono
      omega
    rw [h2]
    have h4 : stF.avail = st.avail := by
      rw [hstF, modify_next_avail]
    rw [h4]
    exact hsum
  · -- bit1OK
    constructor
    · intro j hj
      rw [hF_len, hlen1] at hj
      rcases Nat.lt_trichotomy j k with hjk | hjk | hjk
      · -- untouched prefix
        rw [hF_blk_ne j (by omega), hM_blk, hblk_left j hjk]
        have hcoh := (hbit.1) j (by omega)
        rcases Nat.eq_zero_or_pos j with hj0 | hj0
        · subst hj0
          simpa using hcoh
        · rw [if_neg (by omega)] at hcoh ⊢
          rw [hF_blk_ne (j - 1) (by omega), hM_blk, hblk_left (j - 1) (by omega)]
          exact hcoh
      · -- the merged block
        subst hjk
        rw [hF_blk_ne j (by omega), hM_blk, hblk_mid]
        rw [hg_true, hpa]
        rcases Nat.eq_zero_or_pos j with hj0 | hj0
        · subst hj0
          simp
        · rw [if_neg (by omega), if_neg (by omega)]
          rw [hF_blk_ne (j - 1) (by omega), hM_blk, hblk_left (j - 1) (by omega)]
      · -- blocks after the merged one
        rw [if_neg (by omega)]
        rcases Nat.eq_or_lt_of_le hjk with hjk1 | hjk1
        · -- j = k + 1 : the modify_next target
          rw [← hjk1]
          have hkl : k + 1 < stM.blocks.length := by
            have : stM.blocks.length = blocks1.length := rfl
            omega
          rw [hstF, modify_next_alloc_true_self stM (k + 1) false mb hkl]
          rw [show k + 1 - 1 = k from by omega]
          rw [← hstF, hF_alloc k, hM_blk, hblk_mid]
          rw [hg_false]
        · -- j ≥ k + 2 : untouched suffix
          have ht : ∃ t, j = k + 1 + t ∧ 1 ≤ t := ⟨j - k - 1, by omega⟩
          rcases ht with ⟨t, rfl, ht1⟩
          rw [hF_blk_ne (k + 1 + t) (by omega), hM_blk, hblk_right t]
          have hcoh := (hbit.1) (m + t) (by omega)
          rw [if_neg (by omega)] at hcoh
          rw [hcoh]
          have ht2 : k + 1 + t - 1 = k + 1 + (t - 1) := by omega
          rw [ht2]
          rcases Nat.eq_or_lt_of_le ht1 with ht3 | ht3
          · -- t = 1 : the predecessor is the modify_next target
            rw [← ht3]
            simp only [Nat.add_sub_cancel, Nat.sub_self, Nat.add_zero]
            rw [hF_alloc (k + 1), hM_blk, hblk_k1]
          · rw [hF_blk_ne (k + 1 + (t - 1)) (by omega), hM_blk,
              hblk_right (t - 1)]
            rw [show m + t - 1 = m + (t - 1) from by omega]
    · -- the epilogue's prev-allocated bit
      by_cases hmn : m < st.blocks.length
      · have hkl : k + 1 < stM.blocks.length := by
          have : stM.blocks.length = blocks1.length := rfl
          omega
        have hepi_eq : stF.epi = st.epi := by
          rw [hstF, modify_next_epi_lt stM (k + 1) false mb hkl]
        rw [hepi_eq]
        have hlast := (hbit.2)
        rw [if_neg (by omega)] at hlast
        rw [if_neg (by rw [hF_len, hlen1]; omega)]
        rw [hlast]
        have hidx : stF.blocks.length - 1 = k + 1 + (st.blocks.length - m - 1) := by
          rw [hF_len, hlen1]
          omega
        rw [hidx]
        rcases Nat.eq_or_lt_of_le (Nat.succ_le_of_lt hmn) with hm1 | hm1
        · -- m + 1 = length : the last block is the modify_next target
          rw [show st.blocks.length - m - 1 = 0 from by omega, Nat.add_zero]
          rw [hF_alloc (k + 1), hM_blk, hblk_k1]
          rw [show st.blocks.length - 1 = m from by omega]
        · rw [hF_blk_ne (k + 1 + (st.blocks.length - m - 1)) (by omega),
            hM_blk, hblk_right (st.blocks.length - m - 1)]
          rw [show st.blocks.length - 1 = m + (st.blocks.length - m - 1) from
            by omega]
      · -- m = length : modify_next rewrote the epilogue
        have hmn' : m = st.blocks.length := by omega
        have hkl : ¬ k + 1 < stM.blocks.length := by
          have : stM.blocks.length = blocks1.length := rfl
          omega
        have hepi_eq : stF.epi = pack (extract_size stM.epi) false
            (get_alloc_hdr stM.epi false) mb := by
          rw [hstF, modify_next_epi_ge stM (k + 1) false mb hkl]
        rw [hepi_eq, hM_epi]
        rw [get_alloc_hdr_pack_true (extract_size st.epi) false
          (get_alloc_hdr st.epi false) mb (by rw [hepi.1]; exact ⟨0, rfl⟩)]
        rw [if_neg (by rw [hF_len, hlen1]; omega)]
        rw [show stF.blocks.length - 1 = k from by rw [hF_len, hlen1]; omega]
        rw [hF_alloc k, hM_blk, hblk_mid, hg_false]
  · -- noAdjFree
    intro j hj hfree'
    rw [hF_len, hlen1] at hj
    rcases Nat.lt_trichotomy j k with hjk | hjk | hjk
    · -- prefix block
      rw [hF_alloc j, hM_blk, hblk_left j hjk] at hfree'
      have hne : ¬ (k ≤ j) := by omega
      rcases hnadj2 j (by omega) hfree' with hna | ⟨hk2, _⟩
      · -- its old successor is allocated; show the new one is the same block
        by_cases hjk1 : j + 1 < k
        · rw [hdrOr_lt st (j + 1) (by omega)] at hna
          rw [hdrOr_lt stF (j + 1) (by rw [hF_len, hlen1]; omega)]
          rw [hF_blk_ne (j + 1) (by omega), hM_blk, hblk_left (j + 1) hjk1]
          exact hna
        · -- j + 1 = k : but then block j is free right before the free run
          have hjk2 : j + 1 = k := by omega
          have := hpred_free (by omega)
          rw [show k - 1 = j from by omega] at this
          rw [hfree'] at this
          simp at this
      · omega
    · -- the merged block: its successor is allocated
      subst hjk
      by_cases hmn : m < st.blocks.length
      · rw [hdrOr_lt stF (j + 1) (by rw [hF_len, hlen1]; omega)]
        rw [get_alloc_blk_hdr, hF_alloc (j + 1), hM_blk, hblk_k1]
        rw [← get_alloc_blk_hdr, ← hdrOr_lt st m hmn]
        exact hsucc
      · -- the successor is the (rewritten) epilogue
        rw [hdrOr_ge stF (j + 1) (by rw [hF_len, hlen1]; omega)]
        have hkl : ¬ j + 1 < stM.blocks.length := by
          have : stM.blocks.length = blocks1.length := rfl
          omega
        rw [hstF, modify_next_epi_ge stM (j + 1) false mb hkl, hM_epi]
        rw [get_alloc_hdr_pack_false (extract_size st.epi) false
          (get_alloc_hdr st.epi false) mb (by rw [hepi.1]; exact ⟨0, rfl⟩)]
        exact hepi.2
    · -- suffix blocks
      have ht : ∃ t, j = k + 1 + t := ⟨j - k - 1, by omega⟩
      rcases ht with ⟨t, rfl⟩
      have hmt : m + t < st.blocks.length := by omega
      by_cases ht0 : t = 0
      · -- j = k + 1 : old block m, which is allocated — vacuous
        subst ht0
        simp only [Nat.add_zero] at hfree'
        rw [hF_alloc (k + 1), hM_blk, hblk_k1] at hfree'
        have := hsucc
        rw [hdrOr_lt st m (by omega), get_alloc_blk_hdr] at this
        rw [hfree'] at this
        simp at this
      · rw [hF_alloc (k + 1 + t), hM_blk, hblk_right t] at hfree'
        rcases hnadj2 (m + t) (by omega) hfree' with hna | ⟨_, hlt2⟩
        · by_cases hmt1 : m + t + 1 < st.blocks.length
          · rw [hdrOr_lt st (m + t + 1) hmt1] at hna
            rw [hdrOr_lt stF (k + 1 + t + 1) (by rw [hF_len, hlen1]; omega)]
            rw [hF_blk_ne (k + 1 + t + 1) (by omega), hM_blk,
              show k + 1 + t + 1 = k + 1 + (t + 1) from by omega,
              hblk_right (t + 1),
              show m + (t + 1) = m + t + 1 from by omega]
            exact hna
          · rw [hdrOr_ge st (m + t + 1) hmt1] at hna
            rw [hdrOr_ge stF (k + 1 + t + 1) (by rw [hF_len, hlen1]; omega)]
            have hepi_eq : stF.epi = st.epi := by
              rw [hstF, modify_next_epi_lt stM (k + 1) false mb (by
                have : stM.blocks.length = blocks1.length := rfl
                omega)]
            rw [hepi_eq]
            exact hna
        · omega
  · -- epiOK
    by_cases hmn : m < st.blocks.length
    · have hepi_eq : stF.epi = st.epi := by
        rw [hstF, modify_next_epi_lt stM (k + 1) false mb (by
          have : stM.blocks.length = blocks1.length := rfl
          omega)]
      unfold epiOK
      rw [hepi_eq]
      exact hepi
    · have hepi_eq : stF.epi = pack (extract_size stM.epi) false
          (get_alloc_hdr stM.epi false) mb := by
        rw [hstF, modify_next_epi_ge stM (k + 1) false mb (by
          have : stM.blocks.length = blocks1.length := rfl
          omega)]
      unfold epiOK
      rw [hepi_eq, hM_epi]
      constructor
      · rw [hepi.1]
        rw [extract_size_pack 0 false (get_alloc_hdr st.epi false) mb ⟨0, rfl⟩
          (by unfold WORD; positivity)]
      · rw [get_alloc_hdr_pack_false (extract_size st.epi) false
          (get_alloc_hdr st.epi false) mb (by rw [hepi.1]; exact ⟨0, rfl⟩)]
        exact hepi.2
  · -- dirOK
    constructor
    · rw [hF_dir, hdir2, insert_free_length]
      exact hdlen
    · intro q hq
      rw [hF_dir, hdir2]
      rw [getBucket_insert_free _ _ _ hdlen q]
      have hknotmem : addrOf st.blocks k ∉ getBucket dir' q := by
        intro hmem
        obtain ⟨j, hjn, hja, _, _, hjout⟩ := hdmem q hq _ hmem
        have := addrOf_inj st.blocks hpos j k hjn hk_lt_n hja
        omega
      constructor
      · -- Nodup
        split
        · exact List.nodup_cons.mpr ⟨hknotmem, hdnd q hq⟩
        · exact hdnd q hq
      · -- soundness of every entry
        intro x hx
        have hentry : x = addrOf st.blocks k ∧ q = get_free_list size ∨
            x ∈ getBucket dir' q := by
          split at hx
          · rcases List.mem_cons.mp hx with hx1 | hx1
            · exact Or.inl ⟨hx1, by assumption⟩
            · exact Or.inr hx1
          · exact Or.inr hx
        rcases hentry with ⟨rfl, rfl⟩ | hx1
        · -- the merged block's entry
          refine ⟨k, by rw [hF_len, hlen1]; omega, ?_, ?_, ?_⟩
          · rw [hF_addr k, haddr_left k (Nat.le_refl k)]
          · rw [hF_alloc k, hM_blk, hblk_mid]
            exact hg_false
          · rw [hF_size k, hM_blk, hblk_mid, hg_size]
        · -- a surviving entry
          obtain ⟨j, hjn, hja, hjf, hjb, hjout⟩ := hdmem q hq _ hx1
          rcases hjout with hjlt | hjge
          · refine ⟨j, by rw [hF_len, hlen1]; omega, ?_, ?_, ?_⟩
            · rw [hF_addr j, haddr_left j (by omega)]
              exact hja
            · rw [hF_alloc j, hM_blk, hblk_left j hjlt]
              exact hjf
            · rw [hF_size j]
              have heq : blkAt stM j = blkAt st j := by
                rw [hM_blk, hblk_left j hjlt]
              rw [heq]
              exact hjb
          · -- j ≥ m : it moved left by (m - k - 1) slots
            have hjm : m < j ∨ m = j := by omega
            have hjne : j ≠ m := by
              intro hjm'
              subst hjm'
              have hs2 := hsucc
              rw [hdrOr_lt st j (by omega), get_alloc_blk_hdr] at hs2
              rw [hjf] at hs2
              simp at hs2
            have hjgt : m < j := by omega
            refine ⟨k + 1 + (j - m), by rw [hF_len, hlen1]; omega, ?_, ?_, ?_⟩
            · rw [hF_addr _, haddr_right (j - m),
                show m + (j - m) = j from by omega]
              exact hja
            · rw [hF_alloc _, hM_blk, hblk_right (j - m),
                show m + (j - m) = j from by omega]
              exact hjf
            · rw [hF_size _]
              have heq : blkAt stM (k + 1 + (j - m)) = blkAt st j := by
                rw [hM_blk, hblk_right (j - m),
                  show m + (j - m) = j from by omega]
              rw [heq]
              exact hjb
  · -- the merged block's index is valid
    rw [hF_len, hlen1]
    omega
  · -- it is free
    rw [hF_alloc k, hM_blk, hblk_mid]
    exact hg_false
  · -- and carries the merged size
    rw [hF_size k, hM_blk, hblk_mid, hg_size]
  · -- every allocated block survives unchanged
    intro x hx hax
    rcases (show x < k ∨ (k ≤ x ∧ x < m) ∨ m ≤ x from by omega)
      with hxk | ⟨h1, h2⟩ | hxm
    · refine ⟨x, by rw [hF_len, hlen1]; omega, ?_, ?_, ?_⟩
      · rw [hF_addr x, haddr_left x (by omega)]
      · rw [hF_alloc x, hM_blk, hblk_left x hxk]
        exact hax
      · rw [hF_size x, hM_blk, hblk_left x hxk]
    · exfalso
      have hf := hfree x h1 h2
      rw [hax] at hf
      exact Bool.noConfusion hf
    · refine ⟨k + 1 + (x - m), by rw [hF_len, hlen1]; omega, ?_, ?_, ?_⟩
      · rw [hF_addr _, haddr_right (x - m),
          show m + (x - m) = x from by omega]
      · rw [hF_alloc _, hM_blk, hblk_right (x - m),
          show m + (x - m) = x from by omega]
        exact hax
      · rw [hF_size _, hM_blk, hblk_right (x - m),
          show m + (x - m) = x from by omega]

/-- `coalesce_block` restores the full invariant from a state whose only
(free, free) adjacencies touch the freshly freed block `i`, and returns a
free block at least as large as the one it started from, leaving the
payload memory and the provider budget untouched. -/
theorem coalesce_preserves (st : Sys) (i : Nat)
    (hstart : st.started = true) (hpos : sizesOK st) (hsum : sumBound st)
    (hbit : bit1OK st) (hepi : epiOK st) (hdOK : dirOK st)
    (hi : i < st.blocks.length)
    (hifree : get_alloc (blkAt st i) false = false)
    (hnadj : ∀ j, j < st.blocks.length →
      get_alloc (blkAt st j) false = false →
      get_alloc_hdr (hdrOr st (j + 1)) false = true ∨ j + 1 = i ∨ j = i) :
    Inv (coalesce_block st i).1 ∧
    (coalesce_block st i).2 < (coalesce_block st i).1.blocks.length ∧
    get_alloc (blkAt (coalesce_block st i).1 (coalesce_block st i).2) false
      = false ∧
    get_size (blkAt st i) ≤
      get_size (blkAt (coalesce_block st i).1 (coalesce_block st i).2) ∧
    (coalesce_block st i).1.mem = st.mem ∧
    (coalesce_block st i).1.avail = st.avail ∧
    (∀ x, x < st.blocks.length → get_alloc (blkAt st x) false = true →
      survives st (coalesce_block st i).1 x) := by
  have hdlen := hdOK.1
  have hdnd : ∀ q, q < free_size → (getBucket st.dir q).Nodup :=
    fun q hq => (hdOK.2 q hq).1
  have hdmem0 : ∀ q, q < free_size → ∀ x ∈ getBucket st.dir q,
      ∃ j, j < st.blocks.length ∧ addrOf st.blocks j = x ∧
        get_alloc (blkAt st j) false = false ∧
        get_free_list (get_size (blkAt st j)) = q ∧ ¬ False := by
    intro q hq x hx
    obtain ⟨j, hjn, h1, h2, h3⟩ := (hdOK.2 q hq).2 x hx
    exact ⟨j, hjn, h1, h2, h3, not_false⟩
  unfold coalesce_block
  dsimp only
  split
  · -- the predecessor is free
    rename_i hprev
    unfold get_prev_alloc at hprev
    have hi0 : i ≠ 0 := by
      intro h0
      have hc := hbit.1 i hi
      rw [if_pos h0] at hc
      rw [hc] at hprev
      simp at hprev
    have hpfree : get_alloc (blkAt st (i - 1)) false = false := by
      have hc := hbit.1 i hi
      rw [if_neg hi0] at hc
      rw [hc] at hprev
      exact hprev
    split
    · -- case 1: both neighbors free
      rename_i hnext
      have hi1 : i + 1 < st.blocks.length := by
        by_contra hge
        rw [hdrOr_ge st (i + 1) hge, hepi.2] at hnext
        simp at hnext
      have hnfree : get_alloc (blkAt st (i + 1)) false = false := by
        rw [hdrOr_lt st (i + 1) hi1, get_alloc_blk_hdr] at hnext
        exact hnext
      have hsuccOK : get_alloc_hdr (hdrOr st (i + 1 + 1)) false = true := by
        rcases hnadj (i + 1) hi1 hnfree with h | h | h
        · exact h
        · omega
        · omega
      obtain ⟨hL1, hN1, hM1⟩ := clear_free_step st st.dir (fun _ => False)
        hpos hdlen hdnd hdmem0 i hi
      obtain ⟨hL2, hN2, hM2⟩ := clear_free_step st _ (fun j => False ∨ j = i)
        hpos hL1 hN1 hM1 (i - 1) (by omega)
      obtain ⟨hL3, hN3, hM3⟩ := clear_free_step st _
        (fun j => (False ∨ j = i) ∨ j = i - 1)
        hpos hL2 hN2 hM2 (i + 1) hi1
      obtain ⟨k, rfl⟩ : ∃ k, i = k + 1 := ⟨i - 1, by omega⟩
      have ha1 : addrOf st.blocks (k + 1) =
          addrOf st.blocks k + get_size (blkAt st k) :=
        addrOf_succ st.blocks k (by omega)
      have ha2 : addrOf st.blocks (k + 2) =
          addrOf st.blocks (k + 1) + get_size (blkAt st (k + 1)) :=
        addrOf_succ st.blocks (k + 1) (by omega)
      have ha3 : addrOf st.blocks (k + 3) =
          addrOf st.blocks (k + 2) + get_size (blkAt st (k + 2)) :=
        addrOf_succ st.blocks (k + 2) (by omega)
      have hbound : get_size (blkAt st k) + get_size (blkAt st (k + 1)) +
          get_size (blkAt st (k + 2)) < WORD := by
        have h1 := sum_take_le st.blocks (k + 3)
        unfold sumBound dsize at hsum
        unfold addrOf at ha1 ha2 ha3
        omega
      have hres := merge_preserves st k (k + 3)
        (clear_free (addrOf st.blocks (k + 1 + 1))
          (get_size (blkAt st (k + 1 + 1)))
          (clear_free (addrOf st.blocks (k + 1 - 1))
            (get_size (blkAt st (k + 1 - 1)))
            (clear_free (addrOf st.blocks (k + 1))
              (get_size (blkAt st (k + 1))) st.dir)))
        (blkAt st (k + 1 - 1)).header
        (get_prev_alloc (blkAt st (k + 1 - 1)))
        ((get_size (blkAt st (k + 1 - 1)) + get_size (blkAt st (k + 1)) +
          get_size (blkAt st (k + 1 + 1))) % WORD == min_block_size)
        ((get_size (blkAt st (k + 1 - 1)) + get_size (blkAt st (k + 1)) +
          get_size (blkAt st (k + 1 + 1))) % WORD)
        hstart hpos hsum hbit hepi (by omega) (by omega)
        (by
          intro j hj1 hj2
          rcases (show j = k ∨ j = k + 1 ∨ j = k + 2 from by omega)
            with rfl | rfl | rfl
          · exact hpfree
          · exact hifree
          · exact hnfree)
        hsuccOK
        (by
          intro j hjn hjf
          rcases hnadj j hjn hjf with h | h | h
          · exact Or.inl h
          · exact Or.inr ⟨by omega, by omega⟩
          · exact Or.inr ⟨by omega, by omega⟩)
        (by
          unfold get_prev_alloc
          exact hbit.1 k (by omega))
        (by
          rw [Nat.mod_eq_of_lt (by
            have h1 : get_size (blkAt st (k + 1 - 1)) = get_size (blkAt st k) :=
              rfl
            have h2 : get_size (blkAt st (k + 1 + 1)) =
                get_size (blkAt st (k + 2)) := rfl
            omega)]
          have h1 : get_size (blkAt st (k + 1 - 1)) = get_size (blkAt st k) :=
            rfl
          have h2 : get_size (blkAt st (k + 1 + 1)) =
              get_size (blkAt st (k + 2)) := rfl
          omega)
        hL3 hN3
        (by
          intro q hq x hx
          obtain ⟨j, hjn, h1, h2, h3, h4⟩ := hM3 q hq x hx
          refine ⟨j, hjn, h1, h2, h3, ?_⟩
          omega)
      refine ⟨hres.1, hres.2.1, hres.2.2.1, ?_, ?_, ?_, ?_⟩
      · refine Nat.le_trans ?_ (Nat.le_of_eq hres.2.2.2.1.symm)
        rw [Nat.mod_eq_of_lt (by
          have h1 : get_size (blkAt st (k + 1 - 1)) = get_size (blkAt st k) :=
            rfl
          have h2 : get_size (blkAt st (k + 1 + 1)) =
              get_size (blkAt st (k + 2)) := rfl
          omega)]
        omega
      · rw [modify_next_mem]
      · rw [modify_next_avail]
      · exact hres.2.2.2.2
    · -- case 2: only the predecessor is free
      rename_i hnext
      have hsuccOK : get_alloc_hdr (hdrOr st (i + 1)) false = true := by
        cases hb : get_alloc_hdr (hdrOr st (i + 1)) false
        · exact absurd hb hnext
        · rfl
      obtain ⟨hL1, hN1, hM1⟩ := clear_free_step st st.dir (fun _ => False)
        hpos hdlen hdnd hdmem0 i hi
      obtain ⟨hL2, hN2, hM2⟩ := clear_free_step st _ (fun j => False ∨ j = i)
        hpos hL1 hN1 hM1 (i - 1) (by omega)
      obtain ⟨k, rfl⟩ : ∃ k, i = k + 1 := ⟨i - 1, by omega⟩
      have ha1 : addrOf st.blocks (k + 1) =
          addrOf st.blocks k + get_size (blkAt st k) :=
        addrOf_succ st.blocks k (by omega)
      have ha2 : addrOf st.blocks (k + 2) =
          addrOf st.blocks (k + 1) + get_size (blkAt st (k + 1)) :=
        addrOf_succ st.blocks (k + 1) (by omega)
      have hbound : get_size (blkAt st k) + get_size (blkAt st (k + 1)) <
          WORD := by
        have h1 := sum_take_le st.blocks (k + 2)
        unfold sumBound dsize at hsum
        unfold addrOf at ha1 ha2
        omega
      have hres := merge_preserves st k (k + 2)
        (clear_free (addrOf st.blocks (k + 1 - 1))
          (get_size (blkAt st (k + 1 - 1)))
          (clear_free (addrOf st.blocks (k + 1))
            (get_size (blkAt st (k + 1))) st.dir))
        (blkAt st (k + 1 - 1)).header
        (get_prev_alloc (blkAt st (k + 1 - 1)))
        ((get_size (blkAt st (k + 1 - 1)) + get_size (blkAt st (k + 1)))
          % WORD == min_block_size)
        ((get_size (blkAt st (k + 1 - 1)) + get_size (blkAt st (k + 1)))
          % WORD)
        hstart hpos hsum hbit hepi (by omega) (by omega)
        (by
          intro j hj1 hj2
          rcases (show j = k ∨ j = k + 1 from by omega) with rfl | rfl
          · exact hpfree
          · exact hifree)
        hsuccOK
        (by
          intro j hjn hjf
          rcases hnadj j hjn hjf with h | h | h
          · exact Or.inl h
          · exact Or.inr ⟨by omega, by omega⟩
          · subst h
            exact Or.inl hsuccOK)
        (by
          unfold get_prev_alloc
          exact hbit.1 k (by omega))
        (by
          rw [Nat.mod_eq_of_lt (by
            have h1 : get_size (blkAt st (k + 1 - 1)) = get_size (blkAt st k) :=
              rfl
            omega)]
          have h1 : get_size (blkAt st (k + 1 - 1)) = get_size (blkAt st k) :=
            rfl
          omega)
        hL2 hN2
        (by
          intro q hq x hx
          obtain ⟨j, hjn, h1, h2, h3, h4⟩ := hM2 q hq x hx
          refine ⟨j, hjn, h1, h2, h3, ?_⟩
          omega)
      refine ⟨hres.1, hres.2.1, hres.2.2.1, ?_, ?_, ?_, ?_⟩
      · refine Nat.le_trans ?_ (Nat.le_of_eq hres.2.2.2.1.symm)
        rw [Nat.mod_eq_of_lt (by
          have h1 : get_size (blkAt st (k + 1 - 1)) = get_size (blkAt st k) :=
            rfl
          omega)]
        omega
      · rw [modify_next_mem]
      · rw [modify_next_avail]
      · exact hres.2.2.2.2
  · -- the predecessor is allocated
    rename_i hprev
    have hprev' : get_prev_alloc (blkAt st i) = true := by
      cases hb : get_prev_alloc (blkAt st i)
      · exact absurd hb hprev
      · rfl
    split
    · -- case 3: only the successor is free
      rename_i hnext
      have hi1 : i + 1 < st.blocks.length := by
        by_contra hge
        rw [hdrOr_ge st (i + 1) hge, hepi.2] at hnext
        simp at hnext
      have hnfree : get_alloc (blkAt st (i + 1)) false = false := by
        rw [hdrOr_lt st (i + 1) hi1, get_alloc_blk_hdr] at hnext
        exact hnext
      have hsuccOK : get_alloc_hdr (hdrOr st (i + 1 + 1)) false = true := by
        rcases hnadj (i + 1) hi1 hnfree with h | h | h
        · exact h
        · omega
        · omega
      obtain ⟨hL1, hN1, hM1⟩ := clear_free_step st st.dir (fun _ => False)
        hpos hdlen hdnd hdmem0 i hi
      obtain ⟨hL2, hN2, hM2⟩ := clear_free_step st _ (fun j => False ∨ j = i)
        hpos hL1 hN1 hM1 (i + 1) hi1
      have ha1 : addrOf st.blocks (i + 1) =
          addrOf st.blocks i + get_size (blkAt st i) :=
        addrOf_succ st.blocks i (by omega)
      have ha2 : addrOf st.blocks (i + 2) =
          addrOf st.blocks (i + 1) + get_size (blkAt st (i + 1)) :=
        addrOf_succ st.blocks (i + 1) (by omega)
      have hbound : get_size (blkAt st i) + get_size (blkAt st (i + 1)) <
          WORD := by
        have h1 := sum_take_le st.blocks (i + 2)
        unfold sumBound dsize at hsum
        unfold addrOf at ha1 ha2
        omega
      have hres := merge_preserves st i (i + 2)
        (clear_free (addrOf st.blocks (i + 1))
          (get_size (blkAt st (i + 1)))
          (clear_free (addrOf st.blocks i)
            (get_size (blkAt st i)) st.dir))
        (blkAt st i).header
        (get_prev_alloc (blkAt st i))
        ((get_size (blkAt st i) + get_size (blkAt st (i + 1)))
          % WORD == min_block_size)
        ((get_size (blkAt st i) + get_size (blkAt st (i + 1))) % WORD)
        hstart hpos hsum hbit hepi (by omega) (by omega)
        (by
          intro j hj1 hj2
          rcases (show j = i ∨ j = i + 1 from by omega) with rfl | rfl
          · exact hifree
          · exact hnfree)
        hsuccOK
        (by
          intro j hjn hjf
          rcases hnadj j hjn hjf with h | h | h
          · exact Or.inl h
          · -- the predecessor of `i` cannot be free here
            have hieq : j = i - 1 := by omega
            have hcoh := hbit.1 i hi
            rw [if_neg (by omega)] at hcoh
            unfold get_prev_alloc at hprev'
            rw [hprev'] at hcoh
            rw [hieq] at hjf
            rw [hjf] at hcoh
            simp at hcoh
          · exact Or.inr ⟨by omega, by omega⟩)
        (by
          unfold get_prev_alloc
          exact hbit.1 i hi)
        (by
          rw [Nat.mod_eq_of_lt hbound]
          omega)
        hL2 hN2
        (by
          intro q hq x hx
          obtain ⟨j, hjn, h1, h2, h3, h4⟩ := hM2 q hq x hx
          refine ⟨j, hjn, h1, h2, h3, ?_⟩
          omega)
      refine ⟨hres.1, hres.2.1, hres.2.2.1, ?_, ?_, ?_, ?_⟩
      · rw [hres.2.2.2.1]
        rw [Nat.mod_eq_of_lt hbound]
        omega
      · rw [modify_next_mem]
      · rw [modify_next_avail]
      · exact hres.2.2.2.2
    · -- case 4: both neighbors allocated — the state is unchanged
      rename_i hnext
      have hsuccOK : get_alloc_hdr (hdrOr st (i + 1)) false = true := by
        cases hb : get_alloc_hdr (hdrOr st (i + 1)) false
        · exact absurd hb hnext
        · rfl
      refine ⟨⟨hstart, hpos, hsum, hbit, ?_, hepi, hdOK⟩, hi, hifree,
        Nat.le_refl _, rfl, rfl, fun x hx hax => ⟨x, hx, rfl, hax, rfl⟩⟩
      intro j hjn hjf
      rcases hnadj j hjn hjf with h | h | h
      · exact h
      · -- j + 1 = i : block i's predecessor is allocated
        have hieq : j = i - 1 := by omega
        have hcoh := hbit.1 i hi
        rw [if_neg (by omega)] at hcoh
        unfold get_prev_alloc at hprev'
        rw [hprev'] at hcoh
        rw [hieq] at hjf
        rw [hjf] at hcoh
        simp at hcoh
      · subst h
        exact hsuccOK

/-- `free` on a pointer to an allocated block of a well-formed heap
restores the invariant, leaving payload memory and provider budget
untouched. -/
theorem mm_free_preserves (st : Sys) (p i : Nat)
    (hInv : Inv st)
    (hidx : idxOf st.blocks (p - wsize) = some i)
    (halloc : get_alloc (blkAt st i) false = true) :
    Inv (mm_free (some p) st) ∧ (mm_free (some p) st).mem = st.mem ∧
      (mm_free (some p) st).avail = st.avail := by
  obtain ⟨hstart, hpos, hsum, hbit, hnadj0, hepi, hdOK⟩ := hInv
  obtain ⟨hi, ha⟩ := idxOf_some st.blocks (p - wsize) i hidx
  unfold mm_free
  dsimp only
  rw [hidx]
  dsimp only
  have hdvd : 16 ∣ get_size (blkAt st i) := dvd_extract_size _
  have hszlt : get_size (blkAt st i) < WORD := extract_size_lt _
  set nb : Blk := ⟨freeHdr (blkAt st i).header (get_size (blkAt st i))
    (get_prev_alloc (blkAt st i))⟩ with hnb
  set blocks1 := st.blocks.set i nb with hblocks1
  set dir1 := insert_free (p - wsize) (get_size (blkAt st i)) st.dir with hdir1
  set st1 : Sys := { st with blocks := blocks1, dir := dir1 } with hst1
  set st2 := modify_next st1 (i + 1) false
    (get_size (blkAt st i) == min_block_size) with hst2
  have hg_size : get_size nb = get_size (blkAt st i) :=
    gsize_freeHdr _ _ _ hdvd hszlt
  have hg_false : get_alloc nb false = false := alloc_freeHdr_false _ _ _ hdvd
  have hg_true : get_alloc nb true = get_prev_alloc (blkAt st i) :=
    alloc_freeHdr_true _ _ _ hdvd
  have hlen1 : blocks1.length = st.blocks.length := by
    rw [hblocks1]
    exact List.length_set st.blocks i nb
  have hsizes1 : blocks1.map get_size = st.blocks.map get_size := by
    rw [hblocks1]
    exact sizes_set st.blocks i nb hi hg_size
  have hb1_self : blocks1.getD i default = nb := by
    rw [hblocks1]
    exact getD_set_self st.blocks i nb hi
  have hb1_ne : ∀ x, x ≠ i → blocks1.getD x default = blkAt st x :=
    fun x hx => by
      rw [hblocks1]
      exact getD_set_ne st.blocks i nb x hx
  have hM_blk : ∀ x, blkAt st1 x = blocks1.getD x default := fun x => rfl
  have hF_len : st2.blocks.length = blocks1.length := modify_next_len st1 _ _ _
  have hF_alloc : ∀ x, get_alloc (blkAt st2 x) false =
      get_alloc (blkAt st1 x) false := modify_next_alloc_false st1 _ _ _
  have hF_size : ∀ x, get_size (blkAt st2 x) = get_size (blkAt st1 x) :=
    modify_next_gsize st1 _ _ _
  have hF_addr : ∀ x, addrOf st2.blocks x = addrOf blocks1 x :=
    modify_next_addr st1 _ _ _
  have hF_dir : st2.dir = dir1 := modify_next_dir st1 _ _ _
  have hF_blk_ne : ∀ x, x ≠ i + 1 → blkAt st2 x = blkAt st1 x :=
    fun x hx => modify_next_blkAt_ne st1 _ _ _ x hx
  have halloc2 : ∀ x, x ≠ i → get_alloc (blkAt st2 x) false =
      get_alloc (blkAt st x) false := by
    intro x hx
    rw [hF_alloc x, hM_blk, hb1_ne x hx]
  have halloc2i : get_alloc (blkAt st2 i) false = false := by
    rw [hF_alloc i, hM_blk, hb1_self]
    exact hg_false
  have hsize2 : ∀ x, x ≠ i → get_size (blkAt st2 x) = get_size (blkAt st x) := by
    intro x hx
    rw [hF_size x, hM_blk, hb1_ne x hx]
  have hsize2i : get_size (blkAt st2 i) = get_size (blkAt st i) := by
    rw [hF_size i, hM_blk, hb1_self]
    exact hg_size
  have hlen2 : st2.blocks.length = st.blocks.length := by rw [hF_len, hlen1]
  have haddr2 : ∀ x, addrOf st2.blocks x = addrOf st.blocks x := by
    intro x
    rw [hF_addr x]
    exact addrOf_congr _ _ hsizes1 x
  have hepi1 : st1.epi = st.epi := rfl
  have hepi2_bit0 : get_alloc_hdr st2.epi false = get_alloc_hdr st.epi false := by
    by_cases hq : i + 1 < st1.blocks.length
    · rw [hst2, modify_next_epi_lt st1 (i + 1) _ _ hq]
    · rw [hst2, modify_next_epi_ge st1 (i + 1) _ _ hq, hepi1]
      exact get_alloc_hdr_pack_false (extract_size st.epi) false
        (get_alloc_hdr st.epi false) _ (by rw [hepi.1]; exact ⟨0, rfl⟩)
  have hhdr2 : ∀ x, x ≠ i → get_alloc_hdr (hdrOr st2 x) false =
      get_alloc_hdr (hdrOr st x) false := by
    intro x hx
    by_cases hq : x < st.blocks.length
    · rw [hdrOr_lt st2 x (by omega), hdrOr_lt st x hq,
        get_alloc_blk_hdr, get_alloc_blk_hdr]
      exact halloc2 x hx
    · rw [hdrOr_ge st2 x (by omega), hdrOr_ge st x hq]
      exact hepi2_bit0
  have hpos2 : sizesOK st2 := by
    intro b hb
    have hmem : get_size b ∈ st2.blocks.map get_size :=
      List.mem_map_of_mem get_size hb
    rw [hst2, modify_next_sizes] at hmem
    have h1 : st1.blocks.map get_size = blocks1.map get_size := rfl
    rw [h1, hsizes1] at hmem
    obtain ⟨b', hb', heq⟩ := List.mem_map.mp hmem
    rw [← heq]
    exact hpos b' hb'
  have hsum2 : sumBound st2 := by
    unfold sumBound
    have h1 : st2.blocks.map get_size = blocks1.map get_size := by
      rw [hst2, modify_next_sizes]
    rw [h1, hsizes1]
    have h2 : st2.avail = st.avail := by rw [hst2, modify_next_avail]
    rw [h2]
    exact hsum
  have hbit2 : bit1OK st2 := by
    constructor
    · intro x hx
      rw [hlen2] at hx
      rcases Nat.lt_trichotomy x i with hxi | hxi | hxi
      · rw [hF_blk_ne x (by omega), hM_blk, hb1_ne x (by omega)]
        have hcoh := hbit.1 x (by omega)
        rcases Nat.eq_zero_or_pos x with hx0 | hx0
        · subst hx0
          simpa using hcoh
        · rw [if_neg (by omega)] at hcoh ⊢
          rw [hF_blk_ne (x - 1) (by omega), hM_blk, hb1_ne (x - 1) (by omega)]
          exact hcoh
      · subst hxi
        rw [hF_blk_ne x (by omega), hM_blk, hb1_self, hg_true]
        have hcoh := hbit.1 x (by omega)
        unfold get_prev_alloc
        rw [hcoh]
        rcases Nat.eq_zero_or_pos x with hx0 | hx0
        · subst hx0
          simp
        · rw [if_neg (by omega), if_neg (by omega)]
          rw [hF_blk_ne (x - 1) (by omega), hM_blk, hb1_ne (x - 1) (by omega)]
      · rcases Nat.eq_or_lt_of_le (Nat.succ_le_of_lt hxi) with hx1 | hx1
        · rw [← hx1]
          have htar : get_alloc (blkAt st2 (i + 1)) true = false := by
            rw [hst2]
            exact modify_next_alloc_true_self st1 (i + 1) false _ (by
              have : st1.blocks.length = blocks1.length := rfl
              omega)
          rw [htar, if_neg (by omega), show i + 1 - 1 = i from by omega]
          rw [halloc2i]
        · rw [hF_blk_ne x (by omega), hM_blk, hb1_ne x (by omega)]
          have hcoh := hbit.1 x (by omega)
          rw [if_neg (by omega)] at hcoh ⊢
          rw [hcoh]
          by_cases hx2 : x - 1 = i + 1
          · rw [hx2, hF_alloc (i + 1), hM_blk, hb1_ne (i + 1) (by omega)]
          · rw [hF_blk_ne (x - 1) hx2, hM_blk, hb1_ne (x - 1) (by omega)]
    · by_cases hq : i + 1 < st.blocks.length
      · have hepi_eq : st2.epi = st.epi := by
          rw [hst2]
          exact modify_next_epi_lt st1 (i + 1) _ _ (by
            have : st1.blocks.length = blocks1.length := rfl
            omega)
        rw [hepi_eq, hlen2, if_neg (by omega)]
        have hlast := hbit.2
        rw [if_neg (by omega)] at hlast
        rw [hlast]
        by_cases hx2 : st.blocks.length - 1 = i + 1
        · rw [hx2, hF_alloc (i + 1), hM_blk, hb1_ne (i + 1) (by omega)]
        · rw [hF_blk_ne _ hx2, hM_blk, hb1_ne _ (by omega)]
      · have hq' : ¬ i + 1 < st1.blocks.length := by
          have : st1.blocks.length = blocks1.length := rfl
          omega
        have hepi_eq : st2.epi = pack (extract_size st1.epi) false
            (get_alloc_hdr st1.epi false)
            (get_size (blkAt st i) == min_block_size) := by
          rw [hst2]
          exact modify_next_epi_ge st1 (i + 1) _ _ hq'
        rw [hepi_eq, hepi1]
        rw [get_alloc_hdr_pack_true (extract_size st.epi) false
          (get_alloc_hdr st.epi false) _ (by rw [hepi.1]; exact ⟨0, rfl⟩)]
        rw [hlen2, if_neg (by omega)]
        rw [show st.blocks.length - 1 = i from by omega]
        rw [halloc2i]
  have hepi2 : epiOK st2 := by
    by_cases hq : i + 1 < st.blocks.length
    · have hepi_eq : st2.epi = st.epi := by
        rw [hst2]
        exact modify_next_epi_lt st1 (i + 1) _ _ (by
          have : st1.blocks.length = blocks1.length := rfl
          omega)
      unfold epiOK
      rw [hepi_eq]
      exact hepi
    · have hq' : ¬ i + 1 < st1.blocks.length := by
        have : st1.blocks.length = blocks1.length := rfl
        omega
      have hepi_eq : st2.epi = pack (extract_size st1.epi) false
          (get_alloc_hdr st1.epi false)
          (get_size (blkAt st i) == min_block_size) := by
        rw [hst2]
        exact modify_next_epi_ge st1 (i + 1) _ _ hq'
      unfold epiOK
      rw [hepi_eq, hepi1]
      constructor
      · rw [hepi.1]
        rw [extract_size_pack 0 false (get_alloc_hdr st.epi false) _ ⟨0, rfl⟩
          (by unfold WORD; positivity)]
      · rw [get_alloc_hdr_pack_false (extract_size st.epi) false
          (get_alloc_hdr st.epi false) _ (by rw [hepi.1]; exact ⟨0, rfl⟩)]
        exact hepi.2
  have hdir2 : dirOK st2 := by
    have hnotmem : ∀ q, q < free_size →
        addrOf st.blocks i ∉ getBucket st.dir q := by
      intro q hq hmem
      obtain ⟨j, hjn, hja, hjf, _⟩ := (hdOK.2 q hq).2 _ hmem
      have hji := addrOf_inj st.blocks hpos j i hjn hi hja
      subst hji
      rw [hjf] at halloc
      exact Bool.noConfusion halloc
    constructor
    · rw [hF_dir, hdir1, insert_free_length]
      exact hdOK.1
    · intro q hq
      rw [hF_dir, hdir1, ← ha]
      rw [getBucket_insert_free _ _ _ hdOK.1 q]
      constructor
      · split
        · exact List.nodup_cons.mpr ⟨hnotmem q hq, (hdOK.2 q hq).1⟩
        · exact (hdOK.2 q hq).1
      · intro x hx
        have hentry : x = addrOf st.blocks i ∧
            q = get_free_list (get_size (blkAt st i)) ∨
            x ∈ getBucket st.dir q := by
          split at hx
          · rcases List.mem_cons.mp hx with hx1 | hx1
            · exact Or.inl ⟨hx1, by assumption⟩
            · exact Or.inr hx1
          · exact Or.inr hx
        rcases hentry with ⟨rfl, rfl⟩ | hx1
        · refine ⟨i, by omega, ?_, halloc2i, ?_⟩
          · rw [haddr2 i]
          · rw [hsize2i]
        · obtain ⟨j, hjn, hja, hjf, hjb⟩ := (hdOK.2 q hq).2 x hx1
          have hji : j ≠ i := by
            intro h
            subst h
            rw [hjf] at halloc
            exact Bool.noConfusion halloc
          refine ⟨j, by omega, ?_, ?_, ?_⟩
          · rw [haddr2 j]
            exact hja
          · rw [halloc2 j hji]
            exact hjf
          · rw [hsize2 j hji]
            exact hjb
  have hnadj2 : ∀ j, j < st2.blocks.length →
      get_alloc (blkAt st2 j) false = false →
      get_alloc_hdr (hdrOr st2 (j + 1)) false = true ∨ j + 1 = i ∨ j = i := by
    intro j hjn hjf
    by_cases hji : j = i
    · exact Or.inr (Or.inr hji)
    · by_cases hji1 : j + 1 = i
      · exact Or.inr (Or.inl hji1)
      · left
        rw [hhdr2 (j + 1) hji1]
        rw [halloc2 j hji] at hjf
        exact hnadj0 j (by omega) hjf
  obtain ⟨hInv', hidx', hfree', hsz', hmem', havail', hsurv'⟩ :=
    coalesce_preserves st2 i
      (by rw [hst2, modify_next_started]; exact hstart)
      hpos2 hsum2 hbit2 hepi2 hdir2 (by omega) halloc2i hnadj2
  refine ⟨hInv', ?_, ?_⟩
  · rw [hmem', hst2, modify_next_mem]
  · rw [havail', hst2, modify_next_avail]

/-- `split_block` on an allocated block whose heap successor is allocated
preserves the invariant (the carved tail is free, so the successor must
not be).  Payload memory and the provider budget are untouched. -/
theorem split_preserves (s : Sys) (i asize : Nat)
    (hstart : s.started = true) (hpos : sizesOK s) (hsum : sumBound s)
    (hbit : bit1OK s) (hnadj : noAdjFree s) (hepi : epiOK s) (hdOK : dirOK s)
    (hi : i < s.blocks.length)
    (halloci : get_alloc (blkAt s i) false = true)
    (hsucci : get_alloc_hdr (hdrOr s (i + 1)) false = true)
    (hdvdA : 16 ∣ asize) (hposA : 0 < asize)
    (hle : asize ≤ get_size (blkAt s i)) :
    Inv (split_block s i asize) ∧
    (split_block s i asize).mem = s.mem ∧
    (split_block s i asize).avail = s.avail ∧
    (∀ x, x < s.blocks.length → x ≠ i →
      get_alloc (blkAt s x) false = true →
      survives s (split_block s i asize) x) := by
  have hdmem0 : ∀ q, q < free_size → ∀ x ∈ getBucket s.dir q,
      ∃ j, j < s.blocks.length ∧ addrOf s.blocks j = x ∧
        get_alloc (blkAt s j) false = false ∧
        get_free_list (get_size (blkAt s j)) = q ∧ ¬ False := by
    intro q hq x hx
    obtain ⟨j, hjn, h1, h2, h3⟩ := (hdOK.2 q hq).2 x hx
    exact ⟨j, hjn, h1, h2, h3, not_false⟩
  unfold split_block
  dsimp only
  split
  · -- the block splits
    rename_i hsplit
    have hbs_lt : get_size (blkAt s i) < WORD := extract_size_lt _
    have hbs_dvd : 16 ∣ get_size (blkAt s i) := dvd_extract_size _
    have husub : usub (get_size (blkAt s i)) asize =
        get_size (blkAt s i) - asize := usub_eq_sub _ _ hle hbs_lt
    rw [husub] at hsplit ⊢
    unfold min_block_size at hsplit
    have hasz_lt : asize < WORD := by omega
    have hT_lt : get_size (blkAt s i) - asize < WORD := by omega
    have hdvdT : 16 ∣ (get_size (blkAt s i) - asize) :=
      Nat.dvd_sub' hbs_dvd hdvdA
    set hdr1 : Blk := ⟨pack asize (get_prev_alloc (blkAt s i)) true
      (is_minblock (blkAt s i))⟩ with hhdr1
    set tail : Blk := ⟨pack (get_size (blkAt s i) - asize) true false false⟩
      with htail
    have hgs_hdr1 : get_size hdr1 = asize :=
      extract_size_pack _ _ _ _ hdvdA hasz_lt
    have hal_hdr1_false : get_alloc hdr1 false = true :=
      get_alloc_hdr_pack_false _ _ _ _ hdvdA
    have hal_hdr1_true : get_alloc hdr1 true = get_prev_alloc (blkAt s i) :=
      get_alloc_hdr_pack_true _ _ _ _ hdvdA
    have hgs_tail : get_size tail = get_size (blkAt s i) - asize :=
      extract_size_pack _ _ _ _ hdvdT hT_lt
    have hal_tail_false : get_alloc tail false = false :=
      get_alloc_hdr_pack_false _ _ _ _ hdvdT
    have hblocks_eq : (s.blocks.set i hdr1).take (i + 1) ++ [tail] ++
        s.blocks.drop (i + 1) =
        s.blocks.take i ++ [hdr1, tail] ++ s.blocks.drop (i + 1) := by
      rw [List.set_eq_take_cons_drop hdr1 hi]
      rw [List.take_append_eq_append_take]
      rw [List.take_of_length_le (by rw [List.length_take]; omega)]
      rw [List.length_take, Nat.min_eq_left (Nat.le_of_lt hi)]
      rw [show i + 1 - i = 1 from by omega]
      simp [List.append_assoc]
    rw [hblocks_eq]
    set blocks1 := s.blocks.take i ++ [hdr1, tail] ++ s.blocks.drop (i + 1)
      with hblocks1
    set stM : Sys := { s with
      blocks := blocks1,
      dir := insert_free (addrOf s.blocks i + asize)
        (get_size (blkAt s i) - asize)
        (clear_free (addrOf s.blocks i) (get_size (blkAt s i)) s.dir) }
      with hstM
    set stA := modify_next stM (i + 1) true (asize == min_block_size)
      with hstA
    set stB := modify_next stA (i + 2) false
      (get_size (blkAt s i) - asize == min_block_size) with hstB
    have hlen1 : blocks1.length = s.blocks.length + 1 := by
      rw [hblocks1, splice_length s.blocks i (i + 1) [hdr1, tail]
        (by omega) (by omega)]
      simp
      omega
    have hblk_left : ∀ j, j < i → blocks1.getD j default = blkAt s j :=
      fun j hj => splice_getD_left s.blocks i (i + 1) [hdr1, tail] j hj
        (by omega)
    have hblk_i : blocks1.getD i default = hdr1 := by
      rw [hblocks1]
      have := splice_getD_mid s.blocks i (i + 1) [hdr1, tail] 0 (by simp)
        (by omega)
      simpa using this
    have hblk_i1 : blocks1.getD (i + 1) default = tail := by
      rw [hblocks1]
      have := splice_getD_mid s.blocks i (i + 1) [hdr1, tail] 1 (by simp)
        (by omega)
      simpa using this
    have hblk_right : ∀ t, blocks1.getD (i + 2 + t) default =
        blkAt s (i + 1 + t) := by
      intro t
      show blocks1.getD (i + 2 + t) default = s.blocks.getD (i + 1 + t) default
      rw [hblocks1]
      have := splice_getD_right s.blocks i (i + 1) [hdr1, tail] t
        (by omega) (by omega)
      simpa using this
    have haddr_left : ∀ j, j ≤ i → addrOf blocks1 j = addrOf s.blocks j :=
      fun j hj => splice_addr_left s.blocks i (i + 1) [hdr1, tail] j hj
        (by omega)
    have hts : addrOf s.blocks (i + 1) =
        addrOf s.blocks i + get_size (blkAt s i) := addrOf_succ s.blocks i hi
    have hsumseg : ((s.blocks.take i).map get_size).sum +
        (([hdr1, tail]).map get_size).sum =
        ((s.blocks.take (i + 1)).map get_size).sum := by
      simp only [List.map_cons, List.map_nil, List.sum_cons, List.sum_nil,
        hgs_hdr1, hgs_tail]
      unfold addrOf at hts
      omega
    have haddr_right : ∀ t, addrOf blocks1 (i + 2 + t) =
        addrOf s.blocks (i + 1 + t) := by
      intro t
      rw [hblocks1]
      have := splice_addr_right s.blocks i (i + 1) [hdr1, tail]
        (by omega) (by omega) hsumseg t
      simpa using this
    have haddr_i1 : addrOf blocks1 (i + 1) = addrOf s.blocks i + asize := by
      have h0 := addrOf_succ blocks1 i (by omega)
      rw [hblk_i] at h0
      rw [h0, hgs_hdr1, haddr_left i (Nat.le_refl i)]
    have hM_blk : ∀ x, blkAt stM x = blocks1.getD x default := fun _ => rfl
    have hM_epi : stM.epi = s.epi := rfl
    have hA_len : stA.blocks.length = blocks1.length := by
      rw [hstA]
      exact modify_next_len stM _ _ _
    have hB_len : stB.blocks.length = blocks1.length := by
      rw [hstB, modify_next_len]
      exact hA_len
    have hB_alloc : ∀ x, get_alloc (blkAt stB x) false =
        get_alloc (blkAt stM x) false := by
      intro x
      rw [hstB, modify_next_alloc_false, hstA, modify_next_alloc_false]
    have hB_size : ∀ x, get_size (blkAt stB x) = get_size (blkAt stM x) := by
      intro x
      rw [hstB, modify_next_gsize, hstA, modify_next_gsize]
    have hB_addr : ∀ x, addrOf stB.blocks x = addrOf blocks1 x := by
      intro x
      rw [hstB, modify_next_addr, hstA, modify_next_addr]
    have hB_dir : stB.dir = insert_free (addrOf s.blocks i + asize)
        (get_size (blkAt s i) - asize)
        (clear_free (addrOf s.blocks i) (get_size (blkAt s i)) s.dir) := by
      rw [hstB, modify_next_dir, hstA, modify_next_dir]
    have hB_blk_out : ∀ x, x ≠ i + 1 → x ≠ i + 2 → blkAt stB x = blkAt stM x := by
      intro x h1 h2
      rw [hstB, modify_next_blkAt_ne stA _ _ _ x h2, hstA,
        modify_next_blkAt_ne stM _ _ _ x h1]
    have hB_bit1_i1 : get_alloc (blkAt stB (i + 1)) true = true := by
      rw [hstB, modify_next_blkAt_ne stA _ _ _ (i + 1) (by omega), hstA]
      exact modify_next_alloc_true_self stM (i + 1) true _ (by
        have : stM.blocks.length = blocks1.length := rfl
        omega)
    have hA_epi : stA.epi = s.epi := by
      rw [hstA]
      exact modify_next_epi_lt stM (i + 1) _ _ (by
        have : stM.blocks.length = blocks1.length := rfl
        omega)
    have hB_epi_of_lt : i + 1 < s.blocks.length → stB.epi = s.epi := by
      intro hreg
      rw [hstB, modify_next_epi_lt stA (i + 2) _ _ (by rw [hA_len]; omega)]
      exact hA_epi
    have hB_epi_of_eq : i + 1 = s.blocks.length →
        stB.epi = pack (extract_size s.epi) false (get_alloc_hdr s.epi false)
          (get_size (blkAt s i) - asize == min_block_size) := by
      intro hreg
      rw [hstB, modify_next_epi_ge stA (i + 2) _ _ (by rw [hA_len]; omega)]
      rw [hA_epi]
    have hB_epi0 : get_alloc_hdr stB.epi false = true := by
      rcases (show i + 1 < s.blocks.length ∨ i + 1 = s.blocks.length from
        by omega) with hreg | hreg
      · rw [hB_epi_of_lt hreg]
        exact hepi.2
      · rw [hB_epi_of_eq hreg,
          get_alloc_hdr_pack_false (extract_size s.epi) false
            (get_alloc_hdr s.epi false) _ (by rw [hepi.1]; exact ⟨0, rfl⟩)]
        exact hepi.2
    obtain ⟨hL1, hN1, hM1⟩ := clear_free_step s s.dir (fun _ => False)
      hpos hdOK.1 (fun q hq => (hdOK.2 q hq).1) hdmem0 i hi
    have hnewmem : ∀ q, q < free_size →
        (addrOf s.blocks i + asize) ∉ getBucket
          (clear_free (addrOf s.blocks i) (get_size (blkAt s i)) s.dir) q := by
      intro q hq hmem
      obtain ⟨j, hjn, hja, hjf, hjb, hje⟩ := hM1 q hq _ hmem
      rcases Nat.lt_or_ge j i with hji | hji
      · have h1 : addrOf s.blocks j ≤ addrOf s.blocks i :=
          addrOf_mono _ _ _ (by omega)
        omega
      · have hji' : i + 1 ≤ j := by
          rcases Nat.eq_or_lt_of_le hji with h | h
          · exact absurd (Or.inr h.symm) hje
          · omega
        have h1 : addrOf s.blocks (i + 1) ≤ addrOf s.blocks j :=
          addrOf_mono _ _ _ hji'
        omega
    refine ⟨⟨?_, ?_, ?_, ?_, ?_, ?_, ?_⟩, ?_, ?_, ?_⟩
    · -- started
      rw [hstB, modify_next_started, hstA, modify_next_started]
      exact hstart
    · -- sizesOK
      intro b hb
      have hmem : get_size b ∈ stB.blocks.map get_size :=
        List.mem_map_of_mem get_size hb
      rw [hstB, modify_next_sizes, hstA, modify_next_sizes] at hmem
      have h1 : stM.blocks.map get_size = blocks1.map get_size := rfl
      rw [h1, hblocks1, List.map_append, List.map_append] at hmem
      rcases List.mem_append.mp hmem with hmem1 | hmem2
      · rcases List.mem_append.mp hmem1 with hmem3 | hmem4
        · obtain ⟨b', hb', heq⟩ := List.mem_map.mp hmem3
          rw [← heq]
          exact hpos b' (List.take_subset i s.blocks hb')
        · simp only [List.map_cons, List.map_nil, List.mem_cons,
            List.not_mem_nil, or_false] at hmem4
          rcases hmem4 with h | h
          · rw [h, hgs_hdr1]
            exact hposA
          · rw [h, hgs_tail]
            omega
      · obtain ⟨b', hb', heq⟩ := List.mem_map.mp hmem2
        rw [← heq]
        exact hpos b' (List.drop_subset (i + 1) s.blocks hb')
    · -- sumBound
      unfold sumBound
      have h1 : stB.blocks.map get_size = blocks1.map get_size := by
        rw [hstB, modify_next_sizes, hstA, modify_next_sizes]
      rw [h1, hblocks1, List.map_append, List.map_append]
      simp only [List.map_cons, List.map_nil, List.sum_append, List.sum_cons,
        List.sum_nil, hgs_hdr1, hgs_tail]
      have h2 : stB.avail = s.avail := by
        rw [hstB, modify_next_avail, hstA, modify_next_avail]
      rw [h2]
      have h3 := sum_drop_decomp s.blocks (i + 1)
      unfold sumBound at hsum
      unfold addrOf at hts
      omega
    · -- bit1OK
      constructor
      · intro x hx
        rw [hB_len, hlen1] at hx
        rcases Nat.lt_trichotomy x i with hxi | hxi | hxi
        · rw [hB_blk_out x (by omega) (by omega), hM_blk, hblk_left x hxi]
          have hcoh := hbit.1 x (by omega)
          rcases Nat.eq_zero_or_pos x with hx0 | hx0
          · subst hx0
            simpa using hcoh
          · rw [if_neg (by omega)] at hcoh ⊢
            rw [hB_blk_out (x - 1) (by omega) (by omega), hM_blk,
              hblk_left (x - 1) (by omega)]
            exact hcoh
        · subst hxi
          rw [hB_blk_out x (by omega) (by omega), hM_blk, hblk_i,
            hal_hdr1_true]
          have hcoh := hbit.1 x (by omega)
          unfold get_prev_alloc
          rw [hcoh]
          rcases Nat.eq_zero_or_pos x with hx0 | hx0
          · subst hx0
            simp
          · rw [if_neg (by omega), if_neg (by omega)]
            rw [hB_alloc (x - 1), hM_blk, hblk_left (x - 1) (by omega)]
        · rw [if_neg (by omega)]
          rcases (show x = i + 1 ∨ x = i + 2 ∨ i + 3 ≤ x from by omega)
            with rfl | hx2
          · rw [hB_bit1_i1]
            rw [show i + 1 - 1 = i from by omega]
            rw [hB_alloc i, hM_blk, hblk_i, hal_hdr1_false]
          · rcases hx2 with rfl | hx3
            · have hbit2 : get_alloc (blkAt stB (i + 2)) true = false := by
                rw [hstB]
                exact modify_next_alloc_true_self stA (i + 2) false _
                  (by rw [hA_len]; omega)
              rw [hbit2]
              rw [show i + 2 - 1 = i + 1 from by omega]
              rw [hB_alloc (i + 1), hM_blk, hblk_i1, hal_tail_false]
            · obtain ⟨t, rfl⟩ : ∃ t, x = i + 3 + t := ⟨x - i - 3, by omega⟩
              rw [hB_blk_out (i + 3 + t) (by omega) (by omega), hM_blk,
                show i + 3 + t = i + 2 + (t + 1) from by omega,
                hblk_right (t + 1)]
              have hcoh := hbit.1 (i + 1 + (t + 1)) (by omega)
              rw [if_neg (by omega)] at hcoh
              rw [hcoh]
              rw [show i + 1 + (t + 1) - 1 = i + 1 + t from by omega]
              rw [show i + 2 + (t + 1) - 1 = i + 2 + t from by omega]
              rw [hB_alloc (i + 2 + t), hM_blk, hblk_right t]
      · rcases (show i + 1 < s.blocks.length ∨ i + 1 = s.blocks.length from
          by omega) with hreg | hreg
        · rw [hB_epi_of_lt hreg]
          have hlast := hbit.2
          rw [if_neg (by omega)] at hlast
          rw [if_neg (by rw [hB_len, hlen1]; omega), hlast]
          rw [hB_len, hlen1]
          rw [show s.blocks.length + 1 - 1 =
            i + 2 + (s.blocks.length - i - 2) from by omega]
          rw [hB_alloc _, hM_blk, hblk_right (s.blocks.length - i - 2)]
          rw [show i + 1 + (s.blocks.length - i - 2) = s.blocks.length - 1 from
            by omega]
        · rw [hB_epi_of_eq hreg]
          rw [get_alloc_hdr_pack_true (extract_size s.epi) false
            (get_alloc_hdr s.epi false) _ (by rw [hepi.1]; exact ⟨0, rfl⟩)]
          rw [if_neg (by rw [hB_len, hlen1]; omega)]
          rw [hB_len, hlen1]
          rw [show s.blocks.length + 1 - 1 = i + 1 from by omega]
          rw [hB_alloc (i + 1), hM_blk, hblk_i1, hal_tail_false]
    · -- noAdjFree
      intro x hx hxf
      rw [hB_len, hlen1] at hx
      rcases Nat.lt_trichotomy x i with hxi | hxi | hxi
      · rw [hB_alloc x, hM_blk, hblk_left x hxi] at hxf
        have hna := hnadj x (by omega) hxf
        by_cases hx1 : x + 1 < i
        · rw [hdrOr_lt s (x + 1) (by omega), get_alloc_blk_hdr] at hna
          rw [hdrOr_lt stB (x + 1) (by rw [hB_len, hlen1]; omega),
            get_alloc_blk_hdr, hB_alloc (x + 1), hM_blk,
            hblk_left (x + 1) hx1]
          exact hna
        · have hxeq : x + 1 = i := by omega
          rw [hdrOr_lt stB (x + 1) (by rw [hB_len, hlen1]; omega),
            get_alloc_blk_hdr, hB_alloc (x + 1), hM_blk, hxeq, hblk_i]
          exact hal_hdr1_false
      · subst hxi
        rw [hB_alloc x, hM_blk, hblk_i, hal_hdr1_false] at hxf
        exact Bool.noConfusion hxf
      · by_cases hx1 : x = i + 1
        · subst hx1
          by_cases hreg : i + 1 < s.blocks.length
          · rw [hdrOr_lt stB (i + 1 + 1) (by rw [hB_len, hlen1]; omega),
              get_alloc_blk_hdr, hB_alloc (i + 1 + 1), hM_blk,
              show i + 1 + 1 = i + 2 + 0 from by omega, hblk_right 0]
            have hs2 := hsucci
            rw [hdrOr_lt s (i + 1) hreg, get_alloc_blk_hdr] at hs2
            exact hs2
          · rw [hdrOr_ge stB (i + 1 + 1) (by rw [hB_len, hlen1]; omega)]
            exact hB_epi0
        · obtain ⟨t, rfl⟩ : ∃ t, x = i + 2 + t := ⟨x - i - 2, by omega⟩
          rw [hB_alloc (i + 2 + t), hM_blk, hblk_right t] at hxf
          have hna := hnadj (i + 1 + t) (by omega) hxf
          by_cases hreg : i + 1 + t + 1 < s.blocks.length
          · rw [hdrOr_lt s (i + 1 + t + 1) hreg, get_alloc_blk_hdr] at hna
            rw [hdrOr_lt stB (i + 2 + t + 1) (by rw [hB_len, hlen1]; omega),
              get_alloc_blk_hdr, hB_alloc (i + 2 + t + 1), hM_blk,
              show i + 2 + t + 1 = i + 2 + (t + 1) from by omega,
              hblk_right (t + 1)]
            exact hna
          · rw [hdrOr_ge stB (i + 2 + t + 1) (by rw [hB_len, hlen1]; omega)]
            exact hB_epi0
    · -- epiOK
      rcases (show i + 1 < s.blocks.length ∨ i + 1 = s.blocks.length from
        by omega) with hreg | hreg
      · unfold epiOK
        rw [hB_epi_of_lt hreg]
        exact hepi
      · unfold epiOK
        rw [hB_epi_of_eq hreg]
        constructor
        · rw [hepi.1]
          rw [extract_size_pack 0 false (get_alloc_hdr s.epi false) _
            ⟨0, rfl⟩ (by unfold WORD; positivity)]
        · rw [get_alloc_hdr_pack_false (extract_size s.epi) false
            (get_alloc_hdr s.epi false) _ (by rw [hepi.1]; exact ⟨0, rfl⟩)]
          exact hepi.2
    · -- dirOK
      constructor
      · rw [hB_dir, insert_free_length, clear_free_length]
        exact hdOK.1
      · intro q hq
        rw [hB_dir]
        rw [getBucket_insert_free _ _ _ hL1 q]
        constructor
        · split
          · exact List.nodup_cons.mpr ⟨hnewmem q hq, hN1 q hq⟩
          · exact hN1 q hq
        · intro a hax
          have hentry : a = addrOf s.blocks i + asize ∧
              q = get_free_list (get_size (blkAt s i) - asize) ∨
              a ∈ getBucket (clear_free (addrOf s.blocks i)
                (get_size (blkAt s i)) s.dir) q := by
            split at hax
            · rcases List.mem_cons.mp hax with hx1 | hx1
              · exact Or.inl ⟨hx1, by assumption⟩
              · exact Or.inr hx1
            · exact Or.inr hax
          rcases hentry with ⟨rfl, rfl⟩ | hold
          · refine ⟨i + 1, by rw [hB_len, hlen1]; omega, ?_, ?_, ?_⟩
            · rw [hB_addr (i + 1), haddr_i1]
            · rw [hB_alloc (i + 1), hM_blk, hblk_i1]
              exact hal_tail_false
            · rw [hB_size (i + 1), hM_blk, hblk_i1, hgs_tail]
          · obtain ⟨j, hjn, hja, hjf, hjb, hje⟩ := hM1 q hq a hold
            have hji : j ≠ i := fun h => hje (Or.inr h)
            rcases Nat.lt_or_ge j i with hjlt | hjge
            · refine ⟨j, by rw [hB_len, hlen1]; omega, ?_, ?_, ?_⟩
              · rw [hB_addr j, haddr_left j (by omega)]
                exact hja
              · rw [hB_alloc j, hM_blk, hblk_left j hjlt]
                exact hjf
              · rw [hB_size j, hM_blk, hblk_left j hjlt]
                exact hjb
            · obtain ⟨t, rfl⟩ : ∃ t, j = i + 1 + t := ⟨j - i - 1, by omega⟩
              refine ⟨i + 2 + t, by rw [hB_len, hlen1]; omega, ?_, ?_, ?_⟩
              · rw [hB_addr (i + 2 + t), haddr_right t]
                exact hja
              · rw [hB_alloc (i + 2 + t), hM_blk, hblk_right t]
                exact hjf
              · rw [hB_size (i + 2 + t), hM_blk, hblk_right t]
                exact hjb
    · -- mem untouched
      rw [hstB, modify_next_mem, hstA, modify_next_mem]
    · -- avail untouched
      rw [hstB, modify_next_avail, hstA, modify_next_avail]
    · -- allocated blocks other than the split one survive
      intro x hx hxi hax
      rcases Nat.lt_trichotomy x i with hxlt | hxeq | hxgt
      · refine ⟨x, by rw [hB_len, hlen1]; omega, ?_, ?_, ?_⟩
        · rw [hB_addr x, haddr_left x (by omega)]
        · rw [hB_alloc x, hM_blk, hblk_left x hxlt]
          exact hax
        · rw [hB_size x, hM_blk, hblk_left x hxlt]
      · exact absurd hxeq hxi
      · obtain ⟨t, rfl⟩ : ∃ t, x = i + 1 + t := ⟨x - i - 1, by omega⟩
        refine ⟨i + 2 + t, by rw [hB_len, hlen1]; omega, ?_, ?_, ?_⟩
        · rw [hB_addr (i + 2 + t), haddr_right t]
        · rw [hB_alloc (i + 2 + t), hM_blk, hblk_right t]
          exact hax
        · rw [hB_size (i + 2 + t), hM_blk, hblk_right t]
  · -- no split: the state is unchanged
    exact ⟨⟨hstart, hpos, hsum, hbit, hnadj, hepi, hdOK⟩, rfl, rfl,
      fun x hx _ hax => ⟨x, hx, rfl, hax, rfl⟩⟩

/-- `place` on a free block of a well-formed heap (`free2alloc`, neighbor
bit fix-up, then `split_block`) preserves the invariant, leaving payload
memory and the provider budget untouched. -/
theorem place_preserves (st : Sys) (i asize : Nat) (pm : Bool)
    (hInv : Inv st) (hi : i < st.blocks.length)
    (hifree : get_alloc (blkAt st i) false = false)
    (hdvdA : 16 ∣ asize) (hposA : 0 < asize)
    (hle : asize ≤ get_size (blkAt st i)) :
    Inv (place st i asize pm).2 ∧ (place st i asize pm).2.mem = st.mem ∧
      (place st i asize pm).2.avail = st.avail ∧
      (∀ x, x < st.blocks.length → get_alloc (blkAt st x) false = true →
        survives st (place st i asize pm).2 x) := by
  obtain ⟨hstart, hpos, hsum, hbit, hnadj0, hepi, hdOK⟩ := hInv
  have hsucc0 : get_alloc_hdr (hdrOr st (i + 1)) false = true :=
    hnadj0 i hi hifree
  have hdmem0 : ∀ q, q < free_size → ∀ x ∈ getBucket st.dir q,
      ∃ j, j < st.blocks.length ∧ addrOf st.blocks j = x ∧
        get_alloc (blkAt st j) false = false ∧
        get_free_list (get_size (blkAt st j)) = q ∧ ¬ False := by
    intro q hq x hx
    obtain ⟨j, hjn, h1, h2, h3⟩ := (hdOK.2 q hq).2 x hx
    exact ⟨j, hjn, h1, h2, h3, not_false⟩
  obtain ⟨hL1, hN1, hM1⟩ := clear_free_step st st.dir (fun _ => False)
    hpos hdOK.1 (fun q hq => (hdOK.2 q hq).1) hdmem0 i hi
  unfold place
  dsimp only
  have hdvd : 16 ∣ get_size (blkAt st i) := dvd_extract_size _
  have hszlt : get_size (blkAt st i) < WORD := extract_size_lt _
  set nb : Blk := ⟨pack (get_size (blkAt st i)) (get_prev_alloc (blkAt st i))
    true (is_minblock (blkAt st i))⟩ with hnb
  set blocks1 := st.blocks.set i nb with hblocks1
  set dir1 := clear_free (addrOf st.blocks i) (get_size (blkAt st i)) st.dir
    with hdir1
  set st1 : Sys := { st with blocks := blocks1, dir := dir1 } with hst1
  set st2 := modify_next st1 (i + 1) true pm with hst2
  have hg_size : get_size nb = get_size (blkAt st i) :=
    extract_size_pack _ _ _ _ hdvd hszlt
  have hg_false : get_alloc nb false = true :=
    get_alloc_hdr_pack_false _ _ _ _ hdvd
  have hg_true : get_alloc nb true = get_prev_alloc (blkAt st i) :=
    get_alloc_hdr_pack_true _ _ _ _ hdvd
  have hlen1 : blocks1.length = st.blocks.length := by
    rw [hblocks1]
    exact List.length_set st.blocks i nb
  have hsizes1 : blocks1.map get_size = st.blocks.map get_size := by
    rw [hblocks1]
    exact sizes_set st.blocks i nb hi hg_size
  have hb1_self : blocks1.getD i default = nb := by
    rw [hblocks1]
    exact getD_set_self st.blocks i nb hi
  have hb1_ne : ∀ x, x ≠ i → blocks1.getD x default = blkAt st x :=
    fun x hx => by
      rw [hblocks1]
      exact getD_set_ne st.blocks i nb x hx
  have hM_blk : ∀ x, blkAt st1 x = blocks1.getD x default := fun x => rfl
  have hF_len : st2.blocks.length = blocks1.length := modify_next_len st1 _ _ _
  have hF_alloc : ∀ x, get_alloc (blkAt st2 x) false =
      get_alloc (blkAt st1 x) false := modify_next_alloc_false st1 _ _ _
  have hF_size : ∀ x, get_size (blkAt st2 x) = get_size (blkAt st1 x) :=
    modify_next_gsize st1 _ _ _
  have hF_addr : ∀ x, addrOf st2.blocks x = addrOf blocks1 x :=
    modify_next_addr st1 _ _ _
  have hF_dir : st2.dir = dir1 := modify_next_dir st1 _ _ _
  have hF_blk_ne : ∀ x, x ≠ i + 1 → blkAt st2 x = blkAt st1 x :=
    fun x hx => modify_next_blkAt_ne st1 _ _ _ x hx
  have halloc2 : ∀ x, x ≠ i → get_alloc (blkAt st2 x) false =
      get_alloc (blkAt st x) false := by
    intro x hx
    rw [hF_alloc x, hM_blk, hb1_ne x hx]
  have halloc2i : get_alloc (blkAt st2 i) false = true := by
    rw [hF_alloc i, hM_blk, hb1_self]
    exact hg_false
  have hsize2 : ∀ x, x ≠ i → get_size (blkAt st2 x) = get_size (blkAt st x) := by
    intro x hx
    rw [hF_size x, hM_blk, hb1_ne x hx]
  have hsize2i : get_size (blkAt st2 i) = get_size (blkAt st i) := by
    rw [hF_size i, hM_blk, hb1_self]
    exact hg_size
  have hlen2 : st2.blocks.length = st.blocks.length := by rw [hF_len, hlen1]
  have haddr2 : ∀ x, addrOf st2.blocks x = addrOf st.blocks x := by
    intro x
    rw [hF_addr x]
    exact addrOf_congr _ _ hsizes1 x
  have hepi1 : st1.epi = st.epi := rfl
  have hepi2_bit0 : get_alloc_hdr st2.epi false = get_alloc_hdr st.epi false := by
    by_cases hq : i + 1 < st1.blocks.length
    · rw [hst2, modify_next_epi_lt st1 (i + 1) _ _ hq]
    · rw [hst2, modify_next_epi_ge st1 (i + 1) _ _ hq, hepi1]
      exact get_alloc_hdr_pack_false (extract_size st.epi) true
        (get_alloc_hdr st.epi false) _ (by rw [hepi.1]; exact ⟨0, rfl⟩)
  have hhdr2 : ∀ x, x ≠ i → get_alloc_hdr (hdrOr st2 x) false =
      get_alloc_hdr (hdrOr st x) false := by
    intro x hx
    by_cases hq : x < st.blocks.length
    · rw [hdrOr_lt st2 x (by omega), hdrOr_lt st x hq,
        get_alloc_blk_hdr, get_alloc_blk_hdr]
      exact halloc2 x hx
    · rw [hdrOr_ge st2 x (by omega), hdrOr_ge st x hq]
      exact hepi2_bit0
  have hstart2 : st2.started = true := by
    rw [hst2, modify_next_started]
    exact hstart
  have hpos2 : sizesOK st2 := by
    intro b hb
    have hmem : get_size b ∈ st2.blocks.map get_size :=
      List.mem_map_of_mem get_size hb
    rw [hst2, modify_next_sizes] at hmem
    have h1 : st1.blocks.map get_size = blocks1.map get_size := rfl
    rw [h1, hsizes1] at hmem
    obtain ⟨b', hb', heq⟩ := List.mem_map.mp hmem
    rw [← heq]
    exact hpos b' hb'
  have hsum2 : sumBound st2 := by
    unfold sumBound
    have h1 : st2.blocks.map get_size = blocks1.map get_size := by
      rw [hst2, modify_next_sizes]
    rw [h1, hsizes1]
    have h2 : st2.avail = st.avail := by rw [hst2, modify_next_avail]
    rw [h2]
    exact hsum
  have hbit2 : bit1OK st2 := by
    constructor
    · intro x hx
      rw [hlen2] at hx
      rcases Nat.lt_trichotomy x i with hxi | hxi | hxi
      · rw [hF_blk_ne x (by omega), hM_blk, hb1_ne x (by omega)]
        have hcoh := hbit.1 x (by omega)
        rcases Nat.eq_zero_or_pos x with hx0 | hx0
        · subst hx0
          simpa using hcoh
        · rw [if_neg (by omega)] at hcoh ⊢
          rw [hF_blk_ne (x - 1) (by omega), hM_blk, hb1_ne (x - 1) (by omega)]
          exact hcoh
      · subst hxi
        rw [hF_blk_ne x (by omega), hM_blk, hb1_self, hg_true]
        have hcoh := hbit.1 x (by omega)
        unfold get_prev_alloc
        rw [hcoh]
        rcases Nat.eq_zero_or_pos x with hx0 | hx0
        · subst hx0
          simp
        · rw [if_neg (by omega), if_neg (by omega)]
          rw [hF_blk_ne (x - 1) (by omega), hM_blk, hb1_ne (x - 1) (by omega)]
      · rcases Nat.eq_or_lt_of_le (Nat.succ_le_of_lt hxi) with hx1 | hx1
        · rw [← hx1]
          have htar : get_alloc (blkAt st2 (i + 1)) true = true := by
            rw [hst2]
            exact modify_next_alloc_true_self st1 (i + 1) true _ (by
              have : st1.blocks.length = blocks1.length := rfl
              omega)
          rw [htar, if_neg (by omega), show i + 1 - 1 = i from by omega]
          rw [halloc2i]
        · rw [hF_blk_ne x (by omega), hM_blk, hb1_ne x (by omega)]
          have hcoh := hbit.1 x (by omega)
          rw [if_neg (by omega)] at hcoh ⊢
          rw [hcoh]
          by_cases hx2 : x - 1 = i + 1
          · rw [hx2, hF_alloc (i + 1), hM_blk, hb1_ne (i + 1) (by omega)]
          · rw [hF_blk_ne (x - 1) hx2, hM_blk, hb1_ne (x - 1) (by omega)]
    · by_cases hq : i + 1 < st.blocks.length
      · have hepi_eq : st2.epi = st.epi := by
          rw [hst2]
          exact modify_next_epi_lt st1 (i + 1) _ _ (by
            have : st1.blocks.length = blocks1.length := rfl
            omega)
        rw [hepi_eq, hlen2, if_neg (by omega)]
        have hlast := hbit.2
        rw [if_neg (by omega)] at hlast
        rw [hlast]
        by_cases hx2 : st.blocks.length - 1 = i + 1
        · rw [hx2, hF_alloc (i + 1), hM_blk, hb1_ne (i + 1) (by omega)]
        · rw [hF_blk_ne _ hx2, hM_blk, hb1_ne _ (by omega)]
      · have hq' : ¬ i + 1 < st1.blocks.length := by
          have : st1.blocks.length = blocks1.length := rfl
          omega
        have hepi_eq : st2.epi = pack (extract_size st1.epi) true
            (get_alloc_hdr st1.epi false) pm := by
          rw [hst2]
          exact modify_next_epi_ge st1 (i + 1) _ _ hq'
        rw [hepi_eq, hepi1]
        rw [get_alloc_hdr_pack_true (extract_size st.epi) true
          (get_alloc_hdr st.epi false) _ (by rw [hepi.1]; exact ⟨0, rfl⟩)]
        rw [hlen2, if_neg (by omega)]
        rw [show st.blocks.length - 1 = i from by omega]
        rw [halloc2i]
  have hnadjF : noAdjFree st2 := by
    intro j hjn hjf
    have hji : j ≠ i := by
      intro h
      subst h
      rw [hjf] at halloc2i
      exact Bool.noConfusion halloc2i
    by_cases hji1 : j + 1 = i
    · rw [hdrOr_lt st2 (j + 1) (by omega), get_alloc_blk_hdr, hji1]
      exact halloc2i
    · rw [hhdr2 (j + 1) hji1]
      rw [halloc2 j hji] at hjf
      exact hnadj0 j (by omega) hjf
  have hepi2 : epiOK st2 := by
    by_cases hq : i + 1 < st.blocks.length
    · have hepi_eq : st2.epi = st.epi := by
        rw [hst2]
        exact modify_next_epi_lt st1 (i + 1) _ _ (by
          have : st1.blocks.length = blocks1.length := rfl
          omega)
      unfold epiOK
      rw [hepi_eq]
      exact hepi
    · have hq' : ¬ i + 1 < st1.blocks.length := by
        have : st1.blocks.length = blocks1.length := rfl
        omega
      have hepi_eq : st2.epi = pack (extract_size st1.epi) true
          (get_alloc_hdr st1.epi false) pm := by
        rw [hst2]
        exact modify_next_epi_ge st1 (i + 1) _ _ hq'
      unfold epiOK
      rw [hepi_eq, hepi1]
      constructor
      · rw [hepi.1]
        rw [extract_size_pack 0 true (get_alloc_hdr st.epi false) _ ⟨0, rfl⟩
          (by unfold WORD; positivity)]
      · rw [get_alloc_hdr_pack_false (extract_size st.epi) true
          (get_alloc_hdr st.epi false) _ (by rw [hepi.1]; exact ⟨0, rfl⟩)]
        exact hepi.2
  have hdir2 : dirOK st2 := by
    constructor
    · rw [hF_dir, hdir1, clear_free_length]
      exact hdOK.1
    · intro q hq
      rw [hF_dir, hdir1]
      constructor
      · exact hN1 q hq
      · intro a hax
        obtain ⟨j, hjn, hja, hjf, hjb, hje⟩ := hM1 q hq a hax
        have hji : j ≠ i := fun h => hje (Or.inr h)
        refine ⟨j, by omega, ?_, ?_, ?_⟩
        · rw [haddr2 j]
          exact hja
        · rw [halloc2 j hji]
          exact hjf
        · rw [hsize2 j hji]
          exact hjb
  have hsucc2 : get_alloc_hdr (hdrOr st2 (i + 1)) false = true := by
    rw [hhdr2 (i + 1) (by omega)]
    exact hsucc0
  obtain ⟨hI3, hm3, ha3, hs3⟩ := split_preserves st2 i asize hstart2 hpos2
    hsum2 hbit2 hnadjF hepi2 hdir2 (by omega) halloc2i hsucc2 hdvdA hposA
    (by rw [hsize2i]; exact hle)
  refine ⟨hI3, ?_, ?_, ?_⟩
  · rw [hm3, hst2, modify_next_mem]
  · rw [ha3, hst2, modify_next_avail]
  · intro x hx hax
    have hxi : x ≠ i := by
      intro h
      subst h
      rw [hax] at hifree
      exact Bool.noConfusion hifree
    have hax2 : get_alloc (blkAt st2 x) false = true := by
      rw [halloc2 x hxi]
      exact hax
    obtain ⟨y, h1, h2, h3, h4⟩ := hs3 x (by omega) hxi hax2
    refine ⟨y, h1, ?_, h3, ?_⟩
    · rw [h2, haddr2 x]
    · rw [h4, hsize2 x hxi]

/-- `extend_heap` preserves the invariant; on success the reported block is
free and at least as large as the rounded request.  Payload memory is
untouched. -/
theorem extend_heap_preserves (st : Sys) (size : Nat)
    (hInv : Inv st)
    (hdvdS : 16 ∣ round_up size dsize) (hposS : 0 < round_up size dsize) :
    Inv (extend_heap st size).1 ∧
    (extend_heap st size).1.mem = st.mem ∧
    (∀ r, (extend_heap st size).2 = some r →
      r < (extend_heap st size).1.blocks.length ∧
      get_alloc (blkAt (extend_heap st size).1 r) false = false ∧
      round_up size dsize ≤ get_size (blkAt (extend_heap st size).1 r)) ∧
    (∀ x, x < st.blocks.length → get_alloc (blkAt st x) false = true →
      survives st (extend_heap st size).1 x) := by
  obtain ⟨hstart, hpos, hsum, hbit, hnadj0, hepi, hdOK⟩ := hInv
  unfold extend_heap
  dsimp only
  split
  · -- the provider refuses: nothing changes
    exact ⟨⟨hstart, hpos, hsum, hbit, hnadj0, hepi, hdOK⟩, rfl,
      fun r h => Option.noConfusion h,
      fun x hx hax => ⟨x, hx, rfl, hax, rfl⟩⟩
  · rename_i hav
    have hszlt : round_up size dsize < WORD := by
      unfold sumBound dsize at hsum
      omega
    set rsz := round_up size dsize with hrsz
    set nb : Blk := ⟨freeHdr st.epi rsz (get_alloc_hdr st.epi true)⟩ with hnb
    set blocks1 := st.blocks ++ [nb] with hblocks1
    set st1 : Sys := { st with
      avail := st.avail - rsz,
      blocks := blocks1,
      dir := insert_free (addrOf st.blocks st.blocks.length) rsz st.dir,
      epi := pack 0 false true false } with hst1
    have hg_size : get_size nb = rsz := gsize_freeHdr _ _ _ hdvdS hszlt
    have hg_false : get_alloc nb false = false :=
      alloc_freeHdr_false _ _ _ hdvdS
    have hg_true : get_alloc nb true = get_alloc_hdr st.epi true :=
      alloc_freeHdr_true _ _ _ hdvdS
    have hlen1 : blocks1.length = st.blocks.length + 1 := by
      rw [hblocks1, List.length_append]
      rfl
    have hb1_lt : ∀ j, j < st.blocks.length →
        blocks1.getD j default = blkAt st j := by
      intro j hj
      show blocks1.getD j default = st.blocks.getD j default
      rw [hblocks1]
      rw [List.getD_append _ _ _ _ hj]
    have hb1_self : blocks1.getD st.blocks.length default = nb := by
      rw [hblocks1]
      rw [List.getD_append_right _ _ _ _ (Nat.le_refl _)]
      simp
    have hlen1' : st1.blocks.length = st.blocks.length + 1 := hlen1
    have hM_blk : ∀ x, blkAt st1 x = blocks1.getD x default := fun _ => rfl
    have haddr1' : ∀ j, j ≤ st.blocks.length →
        addrOf st1.blocks j = addrOf st.blocks j := by
      intro j hj
      show addrOf blocks1 j = addrOf st.blocks j
      rw [hblocks1]
      unfold addrOf
      rw [List.take_append_of_le_length hj]
    have hepi1' : st1.epi = pack 0 false true false := rfl
    have hstart1 : st1.started = true := hstart
    have hpos1 : sizesOK st1 := by
      intro b hb
      have hb' : b ∈ blocks1 := hb
      rw [hblocks1] at hb'
      rcases List.mem_append.mp hb' with h | h
      · exact hpos b h
      · have hbe : b = nb := List.mem_singleton.mp h
        subst hbe
        rw [hg_size]
        exact hposS
    have hsum1 : sumBound st1 := by
      show dsize + (blocks1.map get_size).sum + (st.avail - rsz) ≤ WORD
      rw [hblocks1]
      simp only [List.map_append, List.sum_append, List.map_cons,
        List.map_nil, List.sum_cons, List.sum_nil, hg_size]
      unfold sumBound at hsum
      omega
    have hbit1 : bit1OK st1 := by
      constructor
      · intro x hx
        rw [hlen1'] at hx
        rcases Nat.lt_trichotomy x st.blocks.length with hxn | hxn | hxn
        · rw [hM_blk x, hb1_lt x hxn]
          have hcoh := hbit.1 x (by omega)
          rcases Nat.eq_zero_or_pos x with hx0 | hx0
          · subst hx0
            simpa using hcoh
          · rw [if_neg (by omega)] at hcoh ⊢
            rw [hM_blk (x - 1), hb1_lt (x - 1) (by omega)]
            exact hcoh
        · subst hxn
          rw [hM_blk st.blocks.length, hb1_self, hg_true]
          have hlast := hbit.2
          rw [hlast]
          by_cases hz : st.blocks.length = 0
          · rw [if_pos hz, if_pos hz]
          · rw [if_neg hz, if_neg hz]
            rw [hM_blk _, hb1_lt _ (by omega)]
        · exact absurd hx (by omega)
      · rw [hepi1', hlen1']
        rw [get_alloc_hdr_pack_true 0 false true false ⟨0, rfl⟩]
        rw [if_neg (by omega)]
        rw [show st.blocks.length + 1 - 1 = st.blocks.length from by omega]
        rw [hM_blk _, hb1_self, hg_false]
    have hepiOK1 : epiOK st1 := by
      unfold epiOK
      rw [hepi1']
      constructor
      · exact extract_size_pack 0 false true false ⟨0, rfl⟩
          (by unfold WORD; positivity)
      · exact get_alloc_hdr_pack_false 0 false true false ⟨0, rfl⟩
    have hD : st1.dir = insert_free (addrOf st.blocks st.blocks.length) rsz
        st.dir := rfl
    have hnotmem : ∀ q, q < free_size →
        addrOf st.blocks st.blocks.length ∉ getBucket st.dir q := by
      intro q hq hmem
      obtain ⟨j, hjn, hja, _, _⟩ := (hdOK.2 q hq).2 _ hmem
      have := addrOf_lt_addrOf st.blocks hpos j st.blocks.length hjn
        (Nat.le_refl _)
      omega
    have hdir1 : dirOK st1 := by
      constructor
      · rw [hD, insert_free_length]
        exact hdOK.1
      · intro q hq
        rw [hD, getBucket_insert_free _ _ _ hdOK.1 q]
        constructor
        · split
          · exact List.nodup_cons.mpr ⟨hnotmem q hq, (hdOK.2 q hq).1⟩
          · exact (hdOK.2 q hq).1
        · intro a hax
          have hentry : a = addrOf st.blocks st.blocks.length ∧
              q = get_free_list rsz ∨ a ∈ getBucket st.dir q := by
            split at hax
            · rcases List.mem_cons.mp hax with hx1 | hx1
              · exact Or.inl ⟨hx1, by assumption⟩
              · exact Or.inr hx1
            · exact Or.inr hax
          rcases hentry with ⟨rfl, rfl⟩ | hold
          · refine ⟨st.blocks.length, by rw [hlen1']; omega, ?_, ?_, ?_⟩
            · rw [haddr1' _ (Nat.le_refl _)]
            · rw [hM_blk _, hb1_self]
              exact hg_false
            · rw [hM_blk _, hb1_self, hg_size]
          · obtain ⟨j, hjn, hja, hjf, hjb⟩ := (hdOK.2 q hq).2 a hold
            refine ⟨j, by rw [hlen1']; omega, ?_, ?_, ?_⟩
            · rw [haddr1' j (by omega)]
              exact hja
            · rw [hM_blk j, hb1_lt j hjn]
              exact hjf
            · rw [hM_blk j, hb1_lt j hjn]
              exact hjb
    have hnadj1 : ∀ j, j < st1.blocks.length →
        get_alloc (blkAt st1 j) false = false →
        get_alloc_hdr (hdrOr st1 (j + 1)) false = true ∨
        j + 1 = st.blocks.length ∨ j = st.blocks.length := by
      intro j hjn hjf
      rw [hlen1'] at hjn
      by_cases hj : j = st.blocks.length
      · exact Or.inr (Or.inr hj)
      · by_cases hj1 : j + 1 = st.blocks.length
        · exact Or.inr (Or.inl hj1)
        · left
          have hjlt : j < st.blocks.length := by omega
          rw [hM_blk j, hb1_lt j hjlt] at hjf
          have hna := hnadj0 j hjlt hjf
          have hj2 : j + 1 < st.blocks.length := by omega
          rw [hdrOr_lt st (j + 1) hj2, get_alloc_blk_hdr] at hna
          rw [hdrOr_lt st1 (j + 1) (by rw [hlen1']; omega),
            get_alloc_blk_hdr, hM_blk (j + 1), hb1_lt (j + 1) hj2]
          exact hna
    have hfree1 : get_alloc (blkAt st1 st.blocks.length) false = false := by
      rw [hM_blk _, hb1_self]
      exact hg_false
    have hsize1 : get_size (blkAt st1 st.blocks.length) = rsz := by
      rw [hM_blk _, hb1_self]
      exact hg_size
    obtain ⟨hI, hlt, hfr, hsz, hmm, hav2, hsurv2⟩ :=
      coalesce_preserves st1 st.blocks.length hstart1 hpos1 hsum1 hbit1
        hepiOK1 hdir1 (by rw [hlen1']; omega) hfree1 hnadj1
    refine ⟨hI, ?_, ?_, ?_⟩
    · rw [hmm]
    · intro r hr
      have hr' : (coalesce_block st1 st.blocks.length).2 = r := by
        injection hr
      subst hr'
      refine ⟨hlt, hfr, ?_⟩
      rw [hsize1] at hsz
      exact hsz
    · intro x hx hax
      have hax1 : get_alloc (blkAt st1 x) false = true := by
        rw [hM_blk x, hb1_lt x hx]
        exact hax
      obtain ⟨y, h1, h2, h3, h4⟩ := hsurv2 x (by rw [hlen1']; omega) hax1
      refine ⟨y, h1, ?_, h3, ?_⟩
      · rw [h2, haddr1' x (by omega)]
      · rw [h4, hM_blk x, hb1_lt x hx]

theorem round_up_16_bounds (x : Nat) (hx : x + 15 < WORD) :
    x ≤ round_up x dsize ∧ round_up x dsize < x + 16 ∧
    16 ∣ round_up x dsize := by
  unfold round_up dsize WORD at *
  omega

theorem round_up_eq_self (x : Nat) (hdvd : 16 ∣ x) (hx : x + 15 < WORD) :
    round_up x dsize = x := by
  unfold round_up dsize WORD at *
  omega

theorem mmax_le_left (x y : Nat) : x ≤ mmax x y := by
  unfold mmax
  split <;> omega

theorem mmax_le_right (x y : Nat) : y ≤ mmax x y := by
  unfold mmax
  split <;> omega

theorem mmax_dvd (k x y : Nat) (hx : k ∣ x) (hy : k ∣ y) : k ∣ mmax x y := by
  unfold mmax
  split
  · exact hx
  · exact hy

theorem mmax_lt (x y n : Nat) (hx : x < n) (hy : y < n) : mmax x y < n := by
  unfold mmax
  split <;> omega

theorem mm_init_fst_avail (st : Sys) (h : (mm_init st).1 = true) :
    ¬ st.avail < 2 * wsize := by
  intro hlt
  unfold mm_init at h
  rw [if_pos hlt] at h
  simp at h

theorem mm_init_eq_of_not_started (st : Sys)
    (h : (mm_init st).2.started = false) : (mm_init st).2 = st := by
  by_cases hav : st.avail < 2 * wsize
  · rw [mm_init_snd, if_pos hav]
  · rw [mm_init_started_of_avail st hav] at h
    simp at h

/-! ## Claim C4 -/

/-- Claim C4, as stated by the spec, is false: after a successful init the
prologue word is *not* `pack(size = 0, prev-allocated = true,
self-allocated = true, prev-is-min = true)`.  Concretely, starting from a
pristine system, init succeeds and writes the word 5, whereas the spec's
packing is the word 7. -/
theorem C4_cex :
    (mm_init sysEx0).1 = true ∧
    ¬ (mm_init sysEx0).2.pro = pack 0 true true true := by
  constructor
  · rfl
  · decide

/-- Claim C4 (amended): after a successful init, the prologue word is packed
exactly as size = 0, prev-allocated = false, self-allocated = true,
prev-is-min = true (the source passes `alloc_prev = false` to `pack`). -/
theorem C4_thm (st : Sys) (h : (mm_init st).1 = true) :
    (mm_init st).2.pro = pack 0 false true true := by
  have hav : ¬ st.avail < 2 * wsize := mm_init_fst_avail st h
  rw [mm_init_snd, if_neg hav]
  simp

/-- Witness for C4: the amended statement applied to the pristine system. -/
theorem C4_wit :
    (mm_init sysEx0).1 = true ∧
    (mm_init sysEx0).2.pro = pack 0 false true true :=
  ⟨rfl, C4_thm sysEx0 rfl⟩

/-! ## Claim C10 -/

/-- Claim C10: a `malloc` issued before init has ever run first initializes
the allocator and then serves the request exactly as if `mm_init` had been
called explicitly: the result (pointer and final state) coincides with that
of `malloc` on the post-`mm_init` state. -/
theorem C10_thm (size : Nat) (st : Sys) (h : st.started = false) :
    mm_malloc size st = mm_malloc size (mm_init st).2 := by
  unfold mm_malloc
  rw [h]
  by_cases h2 : (mm_init st).2.started = true
  · simp [h2]
  · have h3 := mm_init_eq_of_not_started st (by simpa using h2)
    simp [h2, h3]

/-- Witness for C10: a pristine system, requesting one byte. -/
theorem C10_wit :
    sysEx0.started = false ∧
    mm_malloc 1 sysEx0 = mm_malloc 1 (mm_init sysEx0).2 :=
  ⟨rfl, C10_thm 1 sysEx0 rfl⟩

/-! ## Claim C3 -/

/-- Claim C3 is violated by the code: in the reachable heap `c3pre`
(five 16-byte blocks followed by a large allocated block; the first, third
and fifth mini blocks free, so bucket 0 chains `72 → 40 → 8` with the block
at 8 the self-looped tail), releasing the second block (payload pointer 32)
coalesces it with both neighbors.  Coalescing calls `clear_free_mini` on the
tail 8, whose `block == block->next` branch empties the whole bucket: after
the operation the block at address 72 still has its self-allocated bit
false, yet it is on no bucket — the "on some bucket iff free" invariant
fails.  (`mm_checkheap`'s free-block accounting would likewise fail, so the
code contradicts its own debug assertions.)  The last conjunct shows the
faulty primitive directly: removing the tail 8 from the chain `[72, 40, 8]`
returns the empty bucket instead of `[72, 40]`. -/
theorem C3_thm :
    (idxOf (mm_free (some 32) c3pre).blocks 72 = some 2 ∧
      get_alloc (blkAt (mm_free (some 32) c3pre) 2) false = false ∧
      ∀ i, i < free_size → ¬ (72 ∈ getBucket (mm_free (some 32) c3pre).dir i)) ∧
    clear_free_mini 8 [72, 40, 8] = [] := by
  constructor
  · refine ⟨by decide, by decide, by decide⟩
  · decide

/-! ## Claim C5 -/

theorem ffbLoop_count_le (asize : Nat) (szAt : Nat → Nat)
    (starter startSize : Nat) (rest : List Nat) :
    ∀ mindiff ini best times cnt,
      (ffbLoop asize szAt starter startSize rest mindiff ini best times cnt).2
        ≤ cnt + rest.length := by
  induction rest with
  | nil =>
    intro mindiff ini best times cnt
    simp only [ffbLoop, List.length_nil]
    split
    · dsimp only
      omega
    · split <;> dsimp only <;> omega
  | cons a rest ih =>
    intro mindiff ini best times cnt
    have h1 := ih (usub (szAt a) asize) ini a (times + 1) (cnt + 1)
    have h2 := ih mindiff ini best (times + 1) (cnt + 1)
    simp only [ffbLoop, List.length_cons]
    split
    · dsimp only
      omega
    · split
      · split
        · dsimp only
          omega
        · split
          · dsimp only
            omega
          · omega
      · split
        · omega
        · omega

theorem ffbLoop_count_ini (asize : Nat) (szAt : Nat → Nat)
    (starter startSize : Nat) (rest : List Nat) :
    ∀ mindiff ini best times cnt, ini = true → times ≤ searchtime →
      (ffbLoop asize szAt starter startSize rest mindiff ini best times cnt).2
        ≤ cnt + (searchtime + 1 - times) := by
  induction rest with
  | nil =>
    intro mindiff ini best times cnt hini htimes
    subst hini
    simp only [ffbLoop]
    rw [if_pos trivial]
    dsimp only
    omega
  | cons a rest ih =>
    intro mindiff ini best times cnt hini htimes
    subst hini
    simp only [ffbLoop]
    split
    · dsimp only
      omega
    · split
      · rename_i hts
        rw [if_pos trivial]
        dsimp only
        omega
      · rename_i hts
        split
        · have h1 := ih (usub (szAt a) asize) true a (times + 1) (cnt + 1) rfl
            (by omega)
          omega
        · have h2 := ih mindiff true best (times + 1) (cnt + 1) rfl (by omega)
          omega

theorem find_fit_basicC_count_le (asize : Nat) (szAt : Nat → Nat)
    (bucket : List Nat) :
    (find_fit_basicC asize szAt bucket).2 ≤ bucket.length := by
  cases bucket with
  | nil => simp [find_fit_basicC]
  | cons h rest =>
    simp only [find_fit_basicC]
    split
    · simp
    · have := ffbLoop_count_le asize szAt h (szAt h) rest
        (usub (szAt h) asize) (decide (asize ≤ szAt h)) h 0 1
      simp only [List.length_cons]
      omega

theorem find_fit_basicC_count_head (asize : Nat) (szAt : Nat → Nat)
    (h : Nat) (rest : List Nat) (hfit : asize ≤ szAt h) :
    (find_fit_basicC asize szAt (h :: rest)).2 ≤ searchtime + 2 := by
  simp only [find_fit_basicC]
  split
  · simp [searchtime]
  · have := ffbLoop_count_ini asize szAt h (szAt h) rest
      (usub (szAt h) asize) (decide (asize ≤ szAt h)) h 0 1
      (decide_eq_true hfit) (by simp)
    omega

theorem ffScanC_count_le (asize : Nat) (szAt : Nat → Nat)
    (dir : List (List Nat)) (is : List Nat) :
    (ffScanC asize szAt dir is).2 ≤ is.length := by
  induction is with
  | nil => simp [ffScanC]
  | cons i is ih =>
    simp only [ffScanC]
    split
    · simp
    · simp only [List.length_cons]
      omega

/-- Claim C5 is violated by the code on this bucket: for a request of 32
bytes and a 19-member bucket whose first 18 members have size 16 and whose
19th has size 48, the scan examines all 19 blocks (and returns the 19th),
exceeding the claimed 16-block limit.  The `times == searchtime` check only
fires at the 17th non-head slot, and since no candidate had been recorded
and the head does not fit, the scan continues past the limit. -/
theorem C5_cex :
    (find_fit_basicC 32 cexSzC5 cexBucketC5).1 = some 19 ∧
    (find_fit_basicC 32 cexSzC5 cexBucketC5).2 = 19 ∧
    ¬ ((find_fit_basicC 32 cexSzC5 cexBucketC5).2 ≤ searchtime) := by
  refine ⟨by decide, by decide, by decide⟩

/-- Claim C5 (amended): the bounded best-fit scan of one bucket always
terminates after a single pass — it examines at most as many blocks as the
bucket holds — and when the bucket head already fits the request (so that a
best-fit candidate is recorded at once) it examines at most
`searchtime + 2 = 18` blocks, the cutoff firing at the 17th non-head slot;
the bucket loop of `find_fit` consults at most `free_size = 14` buckets, so
every `find_fit` call completes in bounded time. -/
theorem C5_thm (asize : Nat) (szAt : Nat → Nat) (bucket : List Nat)
    (dir : List (List Nat)) :
    (find_fit_basicC asize szAt bucket).2 ≤ bucket.length ∧
    (∀ h rest, bucket = h :: rest → asize ≤ szAt h →
      (find_fit_basicC asize szAt bucket).2 ≤ searchtime + 2) ∧
    (find_fitC asize szAt dir).2 ≤ free_size := by
  refine ⟨find_fit_basicC_count_le asize szAt bucket, ?_, ?_⟩
  · intro h rest hb hfit
    rw [hb]
    exact find_fit_basicC_count_head asize szAt h rest hfit
  · have h1 := ffScanC_count_le asize szAt dir
      ((List.range free_size).drop (get_free_list asize))
    have h2 : ((List.range free_size).drop (get_free_list asize)).length
        ≤ free_size := by
      simp
    unfold find_fitC
    omega

/-! ## Claim C8 -/

/-- When `elements * size` overflows `size_t`, the division test of `calloc`
detects it. -/
theorem calloc_overflow (e s : Nat) (he : e < WORD) (hov : WORD ≤ e * s) :
    ¬ ((e * s) % WORD / e = s) := by
  have hW : 0 < WORD := by unfold WORD; positivity
  have he0 : 0 < e := by
    rcases Nat.eq_zero_or_pos e with h | h
    · rw [h, Nat.zero_mul] at hov
      omega
    · exact h
  rcases s with _ | t
  · rw [Nat.mul_zero] at hov
    omega
  · have hq : 1 ≤ e * (t + 1) / WORD := (Nat.one_le_div_iff hW).mpr hov
    have hmoddiv := Nat.mod_add_div (e * (t + 1)) WORD
    have hWQ : WORD ≤ WORD * (e * (t + 1) / WORD) :=
      Nat.le_mul_of_pos_right WORD hq
    have hsucc : e * (t + 1) = e * t + e := Nat.mul_succ e t
    have hle : (e * (t + 1)) % WORD ≤ e * t := by omega
    have hdivle : (e * (t + 1)) % WORD / e ≤ e * t / e :=
      Nat.div_le_div_right hle
    rw [Nat.mul_div_cancel_left t he0] at hdivle
    omega

/-- Claim C8: `calloc(n, size)` returns null whenever `n * size` overflows
`size_t`, and whenever it returns a pointer the first `n * size` bytes of
the returned region are zero. -/
theorem C8_thm (elements size : Nat) (st : Sys) (he : elements < WORD) :
    (WORD ≤ elements * size → (mm_calloc elements size st).1 = none) ∧
    (∀ bp, (mm_calloc elements size st).1 = some bp →
      ∀ j, j < elements * size →
        (mm_calloc elements size st).2.mem (bp + j) = 0) := by
  constructor
  · intro hov
    have hne := calloc_overflow elements size he hov
    have he0 : elements ≠ 0 := by
      intro h0
      rw [h0, Nat.zero_mul] at hov
      unfold WORD at hov
      omega
    unfold mm_calloc
    dsimp only
    rw [if_neg he0, if_pos hne]
  · intro bp hbp j hj
    by_cases he0 : elements = 0
    · unfold mm_calloc at hbp
      dsimp only at hbp
      rw [if_pos he0] at hbp
      simp at hbp
    · by_cases hdiv : (elements * size) % WORD / elements = size
      · have hlt : elements * size < WORD := by
          by_contra hov
          exact calloc_overflow elements size he (Nat.le_of_not_lt hov) hdiv
        have hmod : (elements * size) % WORD = elements * size :=
          Nat.mod_eq_of_lt hlt
        unfold mm_calloc at hbp ⊢
        dsimp only at hbp ⊢
        rw [if_neg he0, if_neg (by rw [hdiv]; exact fun h => h rfl)] at hbp ⊢
        rcases hm : mm_malloc ((elements * size) % WORD) st with ⟨ob, st1⟩
        simp only [hm] at hbp ⊢
        cases ob with
        | none => simp at hbp
        | some bp2 =>
          have hbp2 : bp2 = bp := by simpa using hbp
          subst hbp2
          dsimp only
          simp only [mem_memset]
          rw [if_pos (by constructor <;> omega)]
      · unfold mm_calloc at hbp
        dsimp only at hbp
        rw [if_neg he0, if_pos hdiv] at hbp
        simp at hbp

/-- Witness for C8: a 2³²·2³² request overflows and yields null; on a
freshly initialized heap, `calloc(2, 8)` returns payload 16 with its 16
bytes zeroed (byte 15 shown). -/
theorem C8_wit :
    (WORD ≤ 2 ^ 32 * 2 ^ 32 ∧ (mm_calloc (2 ^ 32) (2 ^ 32) sysEx0).1 = none) ∧
    ((mm_calloc 2 8 (mm_init sysEx0).2).1 = some 16 ∧
      (mm_calloc 2 8 (mm_init sysEx0).2).2.mem (16 + 15) = 0) := by
  refine ⟨⟨by decide, (C8_thm (2 ^ 32) (2 ^ 32) sysEx0 (by decide)).1 (by decide)⟩,
    ?_, ?_⟩
  · decide
  · exact (C8_thm 2 8 (mm_init sysEx0).2 (by decide)).2 16 (by decide) 15
      (by decide)

/-! ## Claim C6 -/

theorem extend_heap_none (st : Sys) (s : Nat)
    (h : (extend_heap st s).2 = none) : (extend_heap st s).1 = st := by
  unfold extend_heap at h ⊢
  dsimp only at h ⊢
  by_cases hc : st.avail < round_up s dsize
  · rw [if_pos hc]
  · rw [if_neg hc] at h
    dsimp only at h
    simp at h

theorem mallocBody_none_id (s : Nat) (st : Sys)
    (h : (mallocBody s st).1 = none) : (mallocBody s st).2 = st := by
  unfold mallocBody at h ⊢
  dsimp only at h ⊢
  by_cases hs : s = 0
  · rw [if_pos hs]
  · rw [if_neg hs] at h ⊢
    rcases hf : find_fit (round_up ((s + wsize) % WORD) dsize)
        (szAtFn st.blocks) st.dir with _ | a
    · simp only [hf] at h ⊢
      rcases he : extend_heap st
          (mmax (round_up ((s + wsize) % WORD) dsize) chunksize) with ⟨st', ob⟩
      simp only [he] at h ⊢
      cases ob with
      | none =>
        dsimp only
        have h2 : (extend_heap st
            (mmax (round_up ((s + wsize) % WORD) dsize) chunksize)).2 = none := by
          rw [he]
        have h3 := extend_heap_none st _ h2
        rw [he] at h3
        exact h3
      | some i =>
        dsimp only at h
        rw [place_fst] at h
        simp at h
    · simp only [hf] at h ⊢
      cases hi : idxOf st.blocks a with
      | none => simp [hi]
      | some i =>
        simp only [hi] at h
        rw [place_fst] at h
        simp at h

theorem mm_malloc_none_id (s : Nat) (st : Sys) (hst : st.started = true)
    (h : (mm_malloc s st).1 = none) : (mm_malloc s st).2 = st := by
  unfold mm_malloc at h ⊢
  rw [if_pos hst] at h ⊢
  exact mallocBody_none_id s st h

/-- Claim C6: on an initialized heap, if `realloc(p, size)` with `size > 0`
fails because the internal allocation cannot be satisfied, it returns null
and the entire state — in particular p's block, its header (size and
allocated bit) and every payload byte — is exactly as before the call. -/
theorem C6_thm (st : Sys) (p size : Nat) (hst : st.started = true)
    (hs : 0 < size) (hf : (mm_realloc (some p) size st).1 = none) :
    (mm_realloc (some p) size st).2 = st ∧
    (mm_realloc (some p) size st).2.blocks = st.blocks ∧
    (∀ a, (mm_realloc (some p) size st).2.mem a = st.mem a) := by
  have hmain : (mm_realloc (some p) size st).2 = st := by
    unfold mm_realloc at hf ⊢
    rw [if_neg (by omega)] at hf ⊢
    dsimp only at hf ⊢
    rcases hm : mm_malloc size st with ⟨ob, st1⟩
    simp only [hm] at hf ⊢
    cases ob with
    | some np => simp at hf
    | none =>
      dsimp only
      have h1 : (mm_malloc size st).1 = none := by rw [hm]
      have h2 := mm_malloc_none_id size st hst h1
      rw [hm] at h2
      exact h2
  exact ⟨hmain, by rw [hmain], fun a => by rw [hmain]⟩

/-- Witness for C6: one allocated 16-byte block, exhausted provider;
`realloc(16, 100)` fails and the state is untouched. -/
theorem C6_wit :
    (mm_realloc (some 16) 100 sysOneAlloc).1 = none ∧
    (mm_realloc (some 16) 100 sysOneAlloc).2 = sysOneAlloc :=
  ⟨by decide, (C6_thm sysOneAlloc 16 100 rfl (by decide) (by decide)).1⟩

/-! ## Claim C9 -/

theorem mallocBody_some_shape (s : Nat) (st : Sys) (p : Nat)
    (h : (mallocBody s st).1 = some p) :
    ∃ bl i, p = addrOf bl i + wsize := by
  unfold mallocBody at h
  dsimp only at h
  by_cases hs : s = 0
  · rw [if_pos hs] at h
    simp at h
  · rw [if_neg hs] at h
    rcases hf : find_fit (round_up ((s + wsize) % WORD) dsize)
        (szAtFn st.blocks) st.dir with _ | a
    · simp only [hf] at h
      rcases he : extend_heap st
          (mmax (round_up ((s + wsize) % WORD) dsize) chunksize) with ⟨st', ob⟩
      simp only [he] at h
      cases ob with
      | none => simp at h
      | some i =>
        dsimp only at h
        rw [place_fst] at h
        exact ⟨st'.blocks, i, by simpa using h.symm⟩
    · simp only [hf] at h
      cases hi : idxOf st.blocks a with
      | none => simp [hi] at h
      | some i =>
        simp only [hi] at h
        rw [place_fst] at h
        exact ⟨st.blocks, i, by simpa using h.symm⟩

theorem mm_malloc_some_shape (s : Nat) (st : Sys) (p : Nat)
    (h : (mm_malloc s st).1 = some p) :
    ∃ bl i, p = addrOf bl i + wsize := by
  unfold mm_malloc at h
  exact mallocBody_some_shape s _ p h

theorem mm_malloc_aligned (s : Nat) (st : Sys) (p : Nat)
    (h : (mm_malloc s st).1 = some p) : p % 16 = 0 := by
  obtain ⟨bl, i, rfl⟩ := mm_malloc_some_shape s st p h
  have hd := dvd_sum_sizes bl i
  unfold addrOf wsize
  omega

theorem mm_realloc_some_of_malloc (ptr : Option Nat) (s p : Nat) (st : Sys)
    (h : (mm_realloc ptr s st).1 = some p) :
    ∃ s' st', (mm_malloc s' st').1 = some p := by
  unfold mm_realloc at h
  by_cases hs : s = 0
  · rw [if_pos hs] at h
    simp at h
  · rw [if_neg hs] at h
    cases ptr with
    | none => exact ⟨s, st, h⟩
    | some p0 =>
      dsimp only at h
      rcases hm : mm_malloc s st with ⟨ob, st1⟩
      simp only [hm] at h
      cases ob with
      | none => simp at h
      | some np =>
        refine ⟨s, st, ?_⟩
        rw [hm]
        simpa using h

theorem mm_calloc_some_of_malloc (e s p : Nat) (st : Sys)
    (h : (mm_calloc e s st).1 = some p) :
    ∃ s' st', (mm_malloc s' st').1 = some p := by
  unfold mm_calloc at h
  dsimp only at h
  by_cases he : e = 0
  · rw [if_pos he] at h
    simp at h
  · rw [if_neg he] at h
    by_cases hdiv : ¬ ((e * s) % WORD / e = s)
    · rw [if_pos hdiv] at h
      simp at h
    · rw [if_neg hdiv] at h
      rcases hm : mm_malloc ((e * s) % WORD) st with ⟨ob, st1⟩
      simp only [hm] at h
      cases ob with
      | none => simp at h
      | some bp =>
        refine ⟨(e * s) % WORD, st, ?_⟩
        rw [hm]
        simpa using h

/-- Claim C9: over a 16-byte aligned heap base, every non-null pointer
returned by `malloc` — and hence by `realloc` and `calloc` — is a multiple
of 16. -/
theorem C9_thm (st : Sys) (base p : Nat) (hb : 16 ∣ base) :
    (∀ size, (mm_malloc size st).1 = some p → (base + p) % 16 = 0) ∧
    (∀ ptr size, (mm_realloc ptr size st).1 = some p → (base + p) % 16 = 0) ∧
    (∀ elements size,
      (mm_calloc elements size st).1 = some p → (base + p) % 16 = 0) := by
  refine ⟨?_, ?_, ?_⟩
  · intro size h
    have := mm_malloc_aligned size st p h
    omega
  · intro ptr size h
    obtain ⟨s', st', h'⟩ := mm_realloc_some_of_malloc ptr size p st h
    have := mm_malloc_aligned s' st' p h'
    omega
  · intro elements size h
    obtain ⟨s', st', h'⟩ := mm_calloc_some_of_malloc elements size p st h
    have := mm_malloc_aligned s' st' p h'
    omega

/-- Witness for C9: on the freshly initialized heap, `malloc(1)` returns
payload 16, a multiple of 16 (base 0). -/
theorem C9_wit :
    (mm_malloc 1 (mm_init sysEx0).2).1 = some 16 ∧ (0 + 16) % 16 = 0 :=
  ⟨by decide, (C9_thm (mm_init sysEx0).2 0 16 (Nat.dvd_zero 16)).1 1 (by decide)⟩

/-! ## Claim C1 -/

theorem szAtFn_lt (blocks : List Blk) (a : Nat) : szAtFn blocks a < WORD := by
  unfold szAtFn
  cases h : idxOf blocks a with
  | none =>
    simp only [h]
    unfold WORD
    positivity
  | some j =>
    simp only [h]
    exact extract_size_lt _

/-- Soundness of the best-fit loop: any returned block is a member of the
bucket (`Q` is instantiated with bucket membership facts) and large enough,
thanks to the loop invariant "once `init` is set, `best` fits and `mindiff`
is its true slack" — the unsigned wrap-around of `sizeb - asize` can never
promote a too-small block over a recorded candidate. -/
theorem ffbLoop_sound (asize : Nat) (szAt : Nat → Nat) (Q : Nat → Prop)
    (hszlt : ∀ x, szAt x < WORD) (halt : asize < WORD)
    (starter startSize : Nat) (hss : startSize = szAt starter)
    (hQs : Q starter) (rest : List Nat) :
    ∀ mindiff ini best times cnt a,
      (∀ x ∈ rest, Q x) →
      (ini = true → Q best ∧ asize ≤ szAt best ∧ mindiff = szAt best - asize) →
      (ffbLoop asize szAt starter startSize rest mindiff ini best times cnt).1
        = some a →
      Q a ∧ asize ≤ szAt a := by
  induction rest with
  | nil =>
    intro mindiff ini best times cnt a hrest hinv h
    simp only [ffbLoop] at h
    split at h
    · rename_i hini
      dsimp only at h
      injection h with h
      subst h
      obtain ⟨hQ, hle, _⟩ := hinv hini
      exact ⟨hQ, hle⟩
    · split at h
      · rename_i hsfit
        dsimp only at h
        injection h with h
        subst h
        exact ⟨hQs, hss ▸ hsfit⟩
      · dsimp only at h
        exact absurd h (by simp)
  | cons x rest ih =>
    intro mindiff ini best times cnt a hrest hinv h
    simp only [ffbLoop] at h
    split at h
    · rename_i hfit
      dsimp only at h
      injection h with h
      subst h
      exact ⟨hrest x (by simp), hfit.1⟩
    · rename_i hnofit
      split at h
      · split at h
        · rename_i hini
          dsimp only at h
          injection h with h
          subst h
          obtain ⟨hQ, hle, _⟩ := hinv hini
          exact ⟨hQ, hle⟩
        · split at h
          · rename_i hsfit
            dsimp only at h
            injection h with h
            subst h
            exact ⟨hQs, hss ▸ hsfit⟩
          · exact ih _ _ _ _ _ a (fun y hy => hrest y (by simp [hy])) hinv h
      · split at h
        · rename_i hupd
          refine ih _ _ _ _ _ a (fun y hy => hrest y (by simp [hy])) ?_ h
          intro hini
          obtain ⟨hQ, hle, hmd⟩ := hinv hini
          have hlt2 : usub (szAt x) asize < mindiff := by
            rcases hupd with hfalse | hlt2
            · rw [hini] at hfalse
              simp at hfalse
            · exact hlt2
          have hx : asize ≤ szAt x := by
            by_contra hx
            push_neg at hx
            have h1 : usub (szAt x) asize = WORD + szAt x - asize := by
              unfold usub
              rw [Nat.mod_eq_of_lt (by omega)]
            have h2 := hszlt best
            omega
          exact ⟨hrest x (by simp), hx, usub_eq_sub (szAt x) asize hx (hszlt x)⟩
        · exact ih _ _ _ _ _ a (fun y hy => hrest y (by simp [hy])) hinv h

theorem find_fit_basic_sound (asize : Nat) (szAt : Nat → Nat) (Q : Nat → Prop)
    (hszlt : ∀ x, szAt x < WORD) (halt : asize < WORD)
    (bucket : List Nat) (hQ : ∀ x ∈ bucket, Q x) (a : Nat)
    (h : find_fit_basic asize szAt bucket = some a) :
    Q a ∧ asize ≤ szAt a := by
  unfold find_fit_basic find_fit_basicC at h
  cases bucket with
  | nil => simp at h
  | cons starter rest =>
    dsimp only at h
    split at h
    · rename_i hfit
      dsimp only at h
      injection h with h
      subst h
      exact ⟨hQ starter (by simp), hfit.1⟩
    · refine ffbLoop_sound asize szAt Q hszlt halt starter (szAt starter) rfl
        (hQ starter (by simp)) rest _ _ _ _ _ a
        (fun y hy => hQ y (by simp [hy])) ?_ h
      intro hini
      have hfit : asize ≤ szAt starter := of_decide_eq_true hini
      exact ⟨hQ starter (by simp), hfit, usub_eq_sub _ _ hfit (hszlt _)⟩

theorem ffScanC_sound (asize : Nat) (szAt : Nat → Nat) (dir : List (List Nat))
    (is : List Nat) (a : Nat)
    (h : (ffScanC asize szAt dir is).1 = some a) :
    ∃ i ∈ is, find_fit_basic asize szAt (getBucket dir i) = some a := by
  induction is with
  | nil => simp [ffScanC] at h
  | cons i is ih =>
    simp only [ffScanC] at h
    split at h
    · rename_i a' hbasic
      dsimp only at h
      injection h with h
      subst h
      exact ⟨i, by simp, hbasic⟩
    · dsimp only at h
      obtain ⟨i', hmem, hbasic⟩ := ih h
      exact ⟨i', by simp [hmem], hbasic⟩

/-- Soundness of `find_fit` against a well-formed directory: a returned
address resolves to a free block of at least the requested size. -/
theorem find_fit_sound (st : Sys) (asize a : Nat)
    (hpos : sizesOK st) (hdOK : dirOK st) (hlt : asize < WORD)
    (h : find_fit asize (szAtFn st.blocks) st.dir = some a) :
    ∃ j, idxOf st.blocks a = some j ∧ j < st.blocks.length ∧
      get_alloc (blkAt st j) false = false ∧
      asize ≤ get_size (blkAt st j) := by
  unfold find_fit find_fitC at h
  obtain ⟨i, hi_mem, hbasic⟩ := ffScanC_sound _ _ _ _ a h
  have hi_lt : i < free_size :=
    List.mem_range.mp (List.drop_subset _ _ hi_mem)
  have hsound := find_fit_basic_sound asize (szAtFn st.blocks)
    (fun x => ∃ j, j < st.blocks.length ∧ idxOf st.blocks x = some j ∧
      get_alloc (st.blocks.getD j default) false = false)
    (szAtFn_lt st.blocks) hlt (getBucket st.dir i)
    (by
      intro x hx
      obtain ⟨j, hjn, hja, hjf, _⟩ := (hdOK.2 i hi_lt).2 x hx
      refine ⟨j, hjn, ?_, hjf⟩
      rw [← hja]
      exact idxOf_addrOf st.blocks hpos j hjn) a hbasic
  obtain ⟨⟨j, hjlt, hidx, hfree⟩, hle⟩ := hsound
  have hsz' : szAtFn st.blocks a = get_size (st.blocks.getD j default) := by
    unfold szAtFn
    rw [hidx]
  rw [hsz'] at hle
  exact ⟨j, hidx, hjlt, hfree, hle⟩

/-- The body of `malloc` preserves the invariant on a well-formed heap, for
any request that fits the address space; payload memory is untouched and
every allocated block survives in place. -/
theorem mallocBody_preserves (st : Sys) (size : Nat)
    (hInv : Inv st) (hsz : size + 24 ≤ WORD) :
    Inv (mallocBody size st).2 ∧ (mallocBody size st).2.mem = st.mem ∧
    (∀ x, x < st.blocks.length → get_alloc (blkAt st x) false = true →
      survives st (mallocBody size st).2 x) := by
  obtain ⟨hstart, hpos, hsum, hbit, hnadj0, hepi, hdOK⟩ := hInv
  unfold mallocBody
  by_cases hs0 : size = 0
  · rw [if_pos hs0]
    exact ⟨⟨hstart, hpos, hsum, hbit, hnadj0, hepi, hdOK⟩, rfl,
      fun x hx hax => ⟨x, hx, rfl, hax, rfl⟩⟩
  · rw [if_neg hs0]
    dsimp only
    have hW8 : (size + wsize) % WORD = size + wsize :=
      Nat.mod_eq_of_lt (by unfold wsize; unfold WORD at hsz ⊢; omega)
    rw [hW8]
    have hb := round_up_16_bounds (size + wsize)
      (by unfold wsize; unfold WORD at hsz ⊢; omega)
    set A := round_up (size + wsize) dsize with hA
    clear_value A
    obtain ⟨hb1, hb2, hb3⟩ := hb
    have hApos : 0 < A := by
      unfold wsize at hb1
      omega
    have hAlt : A < WORD := by
      unfold wsize at hb2
      unfold WORD at hsz ⊢
      omega
    cases hf : find_fit A (szAtFn st.blocks) st.dir with
    | some a =>
      dsimp only
      obtain ⟨j, hidx, hjlt, hjfree, hjle⟩ :=
        find_fit_sound st A a hpos hdOK hAlt hf
      rw [hidx]
      dsimp only
      obtain ⟨hI, hM, hAv, hS⟩ := place_preserves st j A (A == min_block_size)
        ⟨hstart, hpos, hsum, hbit, hnadj0, hepi, hdOK⟩ hjlt hjfree hb3 hApos
        hjle
      exact ⟨hI, hM, hS⟩
    | none =>
      dsimp only
      have hC16 : (16 : Nat) ∣ chunksize := ⟨256, rfl⟩
      have hEdvd : 16 ∣ mmax A chunksize := mmax_dvd 16 A chunksize hb3 hC16
      have hE15 : mmax A chunksize + 15 < WORD := by
        have h1 : A ≤ WORD - 16 := by
          unfold WORD at hAlt ⊢
          omega
        have h2 : chunksize ≤ WORD - 16 := by
          unfold chunksize WORD
          omega
        have h3 : mmax A chunksize ≤ WORD - 16 := by
          unfold mmax
          split <;> omega
        unfold WORD at h3 ⊢
        omega
      have hEr : round_up (mmax A chunksize) dsize = mmax A chunksize :=
        round_up_eq_self _ hEdvd hE15
      have hext := extend_heap_preserves st (mmax A chunksize)
        ⟨hstart, hpos, hsum, hbit, hnadj0, hepi, hdOK⟩
        (by rw [hEr]; exact hEdvd)
        (by
          rw [hEr]
          have h1 := mmax_le_right A chunksize
          have h2 : 0 < chunksize := by decide
          omega)
      cases hE : extend_heap st (mmax A chunksize) with
      | mk st' o =>
        rw [hE] at hext
        dsimp only at hext ⊢
        obtain ⟨hI', hM', hR', hS'⟩ := hext
        cases o with
        | none =>
          dsimp only
          exact ⟨hI', hM', hS'⟩
        | some r =>
          dsimp only
          obtain ⟨hrlt, hrfree, hrsz⟩ := hR' r rfl
          have hrle : A ≤ get_size (blkAt st' r) := by
            rw [hEr] at hrsz
            have := mmax_le_left A chunksize
            omega
          obtain ⟨hI2, hM2, hAv2, hS2⟩ := place_preserves st' r A
            (A == min_block_size) hI' hrlt hrfree hb3 hApos hrle
          refine ⟨hI2, by rw [hM2, hM'], ?_⟩
          intro x hx hax
          obtain ⟨y, h1, h2, h3, h4⟩ := hS' x hx hax
          obtain ⟨z, g1, g2, g3, g4⟩ := hS2 y h1 h3
          exact ⟨z, g1, by rw [g2, h2], g3, by rw [g4, h4]⟩

/-- `malloc` on an initialized well-formed heap preserves the invariant;
payload memory is untouched and every allocated block survives. -/
theorem mm_malloc_preserves (st : Sys) (size : Nat)
    (hInv : Inv st) (hsz : size + 24 ≤ WORD) :
    Inv (mm_malloc size st).2 ∧ (mm_malloc size st).2.mem = st.mem ∧
    (∀ x, x < st.blocks.length → get_alloc (blkAt st x) false = true →
      survives st (mm_malloc size st).2 x) := by
  unfold mm_malloc
  rw [hInv.1]
  exact mallocBody_preserves st size hInv hsz

/-- `realloc` on a valid allocated pointer of a well-formed heap preserves
the invariant. -/
theorem mm_realloc_preserves (st : Sys) (p i size : Nat)
    (hInv : Inv st)
    (hidx : idxOf st.blocks (p - wsize) = some i)
    (halloc : get_alloc (blkAt st i) false = true)
    (hsz : size + 24 ≤ WORD) :
    Inv (mm_realloc (some p) size st).2 := by
  unfold mm_realloc
  by_cases hs0 : size = 0
  · rw [if_pos hs0]
    dsimp only
    exact (mm_free_preserves st p i hInv hidx halloc).1
  · rw [if_neg hs0]
    dsimp only
    obtain ⟨hI1, hM1, hS1⟩ := mm_malloc_preserves st size hInv hsz
    obtain ⟨hin, hia⟩ := idxOf_some st.blocks (p - wsize) i hidx
    cases hE : mm_malloc size st with
    | mk r st1 =>
      rw [hE] at hI1 hM1 hS1
      dsimp only at hI1 hM1 hS1
      cases r with
      | none =>
        dsimp only
        exact hI1
      | some np =>
        dsimp only
        obtain ⟨y, hy1, hy2, hy3, hy4⟩ := hS1 i hin halloc
        have hidx2 : idxOf st1.blocks (p - wsize) = some y := by
          rw [← hia, ← hy2]
          exact idxOf_addrOf st1.blocks hI1.2.1 y hy1
        refine (mm_free_preserves _ p y ?_ ?_ ?_).1
        · exact hI1
        · exact hidx2
        · exact hy3

/-- `calloc` preserves the invariant on a well-formed heap. -/
theorem mm_calloc_preserves (st : Sys) (elements size : Nat)
    (hInv : Inv st) (hce : elements * size + 24 ≤ WORD) :
    Inv (mm_calloc elements size st).2 := by
  unfold mm_calloc
  dsimp only
  by_cases h0 : elements = 0
  · rw [if_pos h0]
    exact hInv
  · rw [if_neg h0]
    have hA : (elements * size) % WORD = elements * size :=
      Nat.mod_eq_of_lt (by unfold WORD at hce ⊢; omega)
    rw [hA]
    split
    · exact hInv
    · obtain ⟨hI1, hM1, hS1⟩ := mm_malloc_preserves st (elements * size)
        hInv hce
      cases hE : mm_malloc (elements * size) st with
      | mk r st1 =>
        rw [hE] at hI1
        cases r with
        | none =>
          dsimp only
          exact hI1
        | some bp =>
          dsimp only
          exact hI1

/-- Claim C2: after every public operation — `allocate` (`mm_malloc`),
`release` (`mm_free`), `reallocate` (`mm_realloc`), `zero_allocate`
(`mm_calloc`) — on a well-formed heap, no two adjacent blocks of the
implicit list are both free: every free block's heap successor (next
header, or the epilogue) is marked allocated.  The pointer arguments must
be valid (they resolve to an allocated block) and the byte requests must
fit the address space. -/
theorem C2_thm (st : Sys) (size p elements esize i : Nat)
    (hInv : Inv st)
    (hsz : size + 24 ≤ WORD)
    (hce : elements * esize + 24 ≤ WORD)
    (hidx : idxOf st.blocks (p - wsize) = some i)
    (halloc : get_alloc (blkAt st i) false = true) :
    noAdjFree (mm_malloc size st).2 ∧
    noAdjFree (mm_free (some p) st) ∧
    noAdjFree (mm_realloc (some p) size st).2 ∧
    noAdjFree (mm_calloc elements esize st).2 :=
  ⟨((mm_malloc_preserves st size hInv hsz).1).2.2.2.2.1,
   ((mm_free_preserves st p i hInv hidx halloc).1).2.2.2.2.1,
   (mm_realloc_preserves st p i size hInv hidx halloc hsz).2.2.2.2.1,
   (mm_calloc_preserves st elements esize hInv hce).2.2.2.2.1⟩

/-- Witness for C2: the two-block heap `sysTwo` (allocated 16-byte block at
address 8, free 4080-byte block at 24), with `allocate 16`,
`release(payload 16)`, `reallocate(payload 16, 16)` and
`zero_allocate(2, 8)`. -/
theorem C2_wit :
    Inv sysTwo ∧
    (noAdjFree (mm_malloc 16 sysTwo).2 ∧
     noAdjFree (mm_free (some 16) sysTwo) ∧
     noAdjFree (mm_realloc (some 16) 16 sysTwo).2 ∧
     noAdjFree (mm_calloc 2 8 sysTwo).2) :=
  ⟨by decide, C2_thm sysTwo 16 16 2 8 0 (by decide) (by decide) (by decide)
    (by decide) (by decide)⟩

theorem payload_hdr_congr (h1 h2 : Nat)
    (hs : extract_size h1 = extract_size h2)
    (ha : get_alloc_hdr h1 false = get_alloc_hdr h2 false) :
    get_payload_size_hdr h1 = get_payload_size_hdr h2 := by
  unfold get_payload_size_hdr
  dsimp only
  rw [hs, ha]

/-- Claim C7: on a well-formed heap, a successful
`reallocate(p, s)` with `s` at least `payload_size(p)` returns a region
whose first `payload_size(p)` bytes equal the old payload bytes, where the
payload size of an allocated block is 8 bytes for a 16-byte block and
`size − 8` otherwise (`get_payload_size`). -/
theorem C7_thm (st : Sys) (p i size np : Nat) (stF : Sys)
    (hInv : Inv st)
    (hidx : idxOf st.blocks (p - wsize) = some i)
    (halloc : get_alloc (blkAt st i) false = true)
    (hsz : size + 24 ≤ WORD)
    (hps : get_payload_size_hdr (blkAt st i).header ≤ size)
    (hcall : mm_realloc (some p) size st = (some np, stF)) :
    ∀ t, t < get_payload_size_hdr (blkAt st i).header →
      stF.mem (np + t) = st.mem (p + t) := by
  unfold mm_realloc at hcall
  by_cases hs0 : size = 0
  · rw [if_pos hs0] at hcall
    injection hcall with h1 h2
    exact Option.noConfusion h1
  · rw [if_neg hs0] at hcall
    dsimp only at hcall
    obtain ⟨hI1, hM1, hS1⟩ := mm_malloc_preserves st size hInv hsz
    obtain ⟨hin, hia⟩ := idxOf_some st.blocks (p - wsize) i hidx
    cases hE : mm_malloc size st with
    | mk r st1 =>
      rw [hE] at hcall hI1 hM1 hS1
      dsimp only at hcall hI1 hM1 hS1
      cases r with
      | none =>
        dsimp only at hcall
        injection hcall with h1 h2
        exact Option.noConfusion h1
      | some np' =>
        dsimp only at hcall
        injection hcall with h1 h2
        injection h1 with h1
        subst h1
        subst h2
        obtain ⟨y, hy1, hy2, hy3, hy4⟩ := hS1 i hin halloc
        have hidx2 : idxOf st1.blocks (p - wsize) = some y := by
          rw [← hia, ← hy2]
          exact idxOf_addrOf st1.blocks hI1.2.1 y hy1
        rw [hidx2]
        dsimp only
        have hps_eq : get_payload_size_hdr (blkAt st1 y).header =
            get_payload_size_hdr (blkAt st i).header := by
          apply payload_hdr_congr
          · exact hy4
          · rw [get_alloc_blk_hdr, get_alloc_blk_hdr, hy3, halloc]
        rw [hps_eq, if_neg (by omega)]
        set M := mem_memcpy st1.mem np' p
          (get_payload_size_hdr (blkAt st i).header) with hM2
        have hmemF := (mm_free_preserves { st1 with mem := M } p y hI1 hidx2
          hy3).2.1
        intro t ht
        rw [hmemF]
        show M (np' + t) = st.mem (p + t)
        rw [hM2]
        unfold mem_memcpy
        rw [if_pos ⟨Nat.le_add_right _ _, by omega⟩]
        rw [show np' + t - np' = t from by omega]
        rw [hM1]

/-- Witness for C7: reallocating the allocated 16-byte block of `sysTwo`
(payload 8 at address 16) to 8 bytes succeeds, returns payload address 32,
and the 8 payload bytes are preserved. -/
theorem C7_wit :
    Inv sysTwo ∧ get_payload_size_hdr (blkAt sysTwo 0).header ≤ 8 ∧
    (∀ t, t < get_payload_size_hdr (blkAt sysTwo 0).header →
      (mm_realloc (some 16) 8 sysTwo).2.mem (32 + t) = sysTwo.mem (16 + t)) :=
  ⟨by decide, by decide,
    C7_thm sysTwo 16 0 8 32 (mm_realloc (some 16) 8 sysTwo).2
      (by decide) (by decide) (by decide) (by decide) (by decide)
      (Prod.ext (by decide) rfl)⟩

/-- Claim C1: for a rounded request `asize ≥ 16` and any directory whose
members are free blocks of the heap, `find_fit` either reports no fit
(null) or returns a free block of size at least `asize`; it never returns a
too-small block. -/
theorem C1_thm (blocks : List Blk) (dir : List (List Nat)) (asize : Nat)
    (_hsz : min_block_size ≤ asize) (hlt : asize < WORD)
    (hdir : ∀ i, i < free_size → ∀ x ∈ getBucket dir i,
      ∃ j < blocks.length, idxOf blocks x = some j ∧
        get_alloc (blocks.getD j default) false = false) :
    find_fit asize (szAtFn blocks) dir = none ∨
    ∃ a j, find_fit asize (szAtFn blocks) dir = some a ∧
      idxOf blocks a = some j ∧
      get_alloc (blocks.getD j default) false = false ∧
      asize ≤ get_size (blocks.getD j default) := by
  cases hf : find_fit asize (szAtFn blocks) dir with
  | none => exact Or.inl rfl
  | some a =>
    right
    unfold find_fit find_fitC at hf
    obtain ⟨i, hi_mem, hbasic⟩ := ffScanC_sound _ _ _ _ a hf
    have hi_lt : i < free_size :=
      List.mem_range.mp (List.drop_subset _ _ hi_mem)
    have hsound := find_fit_basic_sound asize (szAtFn blocks)
      (fun x => ∃ j < blocks.length, idxOf blocks x = some j ∧
        get_alloc (blocks.getD j default) false = false)
      (szAtFn_lt blocks) hlt (getBucket dir i) (hdir i hi_lt) a hbasic
    obtain ⟨⟨j, hjlt, hidx, hfree⟩, hle⟩ := hsound
    have hsz' : szAtFn blocks a = get_size (blocks.getD j default) := by
      unfold szAtFn
      rw [hidx]
    exact ⟨a, j, rfl, hidx, hfree, hsz' ▸ hle⟩

/-- Witness for C1: the two-block heap `sysTwo` (allocated 16 at address 8,
free 4080 at address 24, bucket 9 = `[24]`), request 16. -/
theorem C1_wit :
    min_block_size ≤ 16 ∧
    (find_fit 16 (szAtFn sysTwo.blocks) sysTwo.dir = none ∨
      ∃ a j, find_fit 16 (szAtFn sysTwo.blocks) sysTwo.dir = some a ∧
        idxOf sysTwo.blocks a = some j ∧
        get_alloc (sysTwo.blocks.getD j default) false = false ∧
        16 ≤ get_size (sysTwo.blocks.getD j default)) :=
  ⟨by decide, C1_thm sysTwo.blocks sysTwo.dir 16 (by decide) (by decide)
    (by decide)⟩

end MM
